import Mathlib

/-!
# go-car: Clock with Adaptive Replacement

A shallow embedding of the Go package `car` (files `car.go`, `clock.go`, `lru.go`)
and a verification of its replacement policy.

Conventions of the embedding

* A Go `map[K]α` is an association list that holds every key at most once
  (`GoMap`); `len`, lookup, store and `delete` follow the Go operations.
* A `container/ring` ring is the list of its values in scan order, starting at
  the element the `head` pointer designates; a `nil` ring is the empty list.
* A `container/list` list is the list of its values, front first.
* A `*slot` is the slot record it points to; the `nil` pointer is `none`. The
  code never stores one slot under two keys, so no aliasing is lost.
* A Go run-time panic (nil dereference, integer division by zero, explicit
  `panic`) is the outcome `Outcome.panic`. The two `for` loops of `replaceT1`
  and `replaceT2` run on a budget of passes; running out of budget is the
  separate outcome `Outcome.fuel`, and is shown never to happen.
* Go `int` values are unbounded integers: every quantity computed is bounded by
  `2 * c`, and `c` entries have to be held in memory before `2 * c` is computed.
* The locks and the atomic accesses of the reference flag are left out: the
  embedding is the sequential behaviour of `Load`.
* The calls made to the two callbacks are recorded, in order, in the field
  `calls` added to the cache state.
-/

namespace Car


/-! ## Outcomes -/

/-- Outcome of running a piece of the Go code. -/
inductive Outcome (α : Type) where
  /-- a normal return -/
  | done (a : α)
  /-- a Go run-time panic -/
  | panic
  /-- the pass budget of a loop is used up before the loop returns -/
  | fuel
  deriving DecidableEq, Repr

/-! ## Go maps -/

/-- A Go map as an association list. -/
abbrev GoMap (K α : Type) := List (K × α)

namespace GoMap

variable {K α : Type} [DecidableEq K]

/-- The keys of the map. -/
def keys (m : GoMap K α) : List K := m.map Prod.fst

/-- Go `len(m)`. -/
def len (m : GoMap K α) : Nat := m.length

/-- Go `m[key]` in its two-valued form: the element, if the key is present. -/
def get : GoMap K α → K → Option α
  | [], _ => none
  | (k, v) :: m, key => if k = key then some v else get m key

/-- Go `m[key] = v`: overwrite the element of a present key, add an absent key. -/
def set : GoMap K α → K → α → GoMap K α
  | [], key, v => [(key, v)]
  | (k, w) :: m, key, v => if k = key then (k, v) :: m else (k, w) :: set m key v

/-- Go `delete(m, key)`. -/
def delete : GoMap K α → K → GoMap K α
  | [], _ => []
  | (k, w) :: m, key => if k = key then delete m key else (k, w) :: delete m key

end GoMap

/-! ## car.go: helpers and slots -/

/-- Source `min`. -/
def min (a b : Int) : Int := if a ≤ b then a else b

/-- Source `max`. -/
def max (a b : Int) : Int := if a ≥ b then a else b

/-- Source constant `refZero`. -/
def refZero : Int := 0

/-- Source constant `refOne`. -/
def refOne : Int := 1

/-- Source `slot`: reference flag `_ref`, slot number and value (`none` is the Go `nil`). -/
structure slot (V : Type) where
  ref : Int
  slotNo : Nat
  value : Option V
  deriving DecidableEq, Repr

/-- Source `newSlot`. -/
def newSlot {V : Type} (slotNo : Nat) : slot V := { ref := 0, slotNo := slotNo, value := none }

/-! ## clock.go -/

/-- Source `clock`: the key to slot map and the ring, listed from `head`. -/
structure clock (K V : Type) where
  slots : GoMap K (slot V)
  ring : List K
  deriving DecidableEq, Repr

namespace clock

variable {K V : Type} [DecidableEq K]

/-- Source `newClock`. -/
def newClock : clock K V := { slots := [], ring := [] }

/-- Source `clock.size`. -/
def size (c : clock K V) : Nat := c.slots.len

/-- Source `clock.getSlot`: the slot pointer, when the key is in the map. -/
def getSlot (c : clock K V) (key : K) : Option (slot V) := c.slots.get key

/-- Source `clock.next`: move `head` one element on. -/
def next (c : clock K V) : clock K V :=
  match c.ring with
  | [] => c
  | k :: r => { c with ring := r ++ [k] }

/-- Source `clock.getHead`: `none` is the return `(nil, nil)` of an empty ring; otherwise
the head key and the pointer `c.slots[key]`, which is `nil` for a key the map lacks. -/
def getHead (c : clock K V) : Option (K × Option (slot V)) :=
  match c.ring with
  | [] => none
  | key :: _ => some (key, c.slots.get key)

/-- Source `clock.removeHead`. The first component is the returned pair, `none` for
`(nil, nil)`; the switch is on `len(c.slots)` as in the source, and `c.head.Value`
panics on a nil `head`. In the default case a one-element ring is left as it is by
`Unlink`. -/
def removeHead (c : clock K V) : Outcome (Option (K × Option (slot V)) × clock K V) :=
  match c.slots.len with
  | 0 => .done (none, c)
  | 1 =>
    match c.ring with
    | [] => .panic
    | key :: _ => .done (some (key, c.slots.get key), { slots := c.slots.delete key, ring := [] })
  | _ =>
    match c.ring with
    | [] => .panic
    | [key] => .done (some (key, c.slots.get key), { slots := c.slots.delete key, ring := [key] })
    | key :: r => .done (some (key, c.slots.get key), { slots := c.slots.delete key, ring := r })

/-- Source `clock.insertTail`: link a new ring element before `head`; `c.head.Prev()`
panics on a nil `head`. -/
def insertTail (c : clock K V) (key : K) (s : slot V) : Outcome (clock K V) :=
  match c.slots.len with
  | 0 => .done { slots := c.slots.set key s, ring := [key] }
  | _ =>
    match c.ring with
    | [] => .panic
    | r => .done { slots := c.slots.set key s, ring := r ++ [key] }

end clock

/-! ## lru.go -/

/-- Source `lru`: the key set and the list, front first. -/
structure lru (K : Type) where
  keys : GoMap K Unit
  l : List K
  deriving DecidableEq, Repr

namespace lru

variable {K : Type} [DecidableEq K]

/-- Source `newLru`. -/
def newLru : lru K := { keys := [], l := [] }

/-- Source `lru.size`. -/
def size (b : lru K) : Nat := b.keys.len

/-- Source `lru.exist`. -/
def exist (b : lru K) (key : K) : Bool := (b.keys.get key).isSome

/-- Source `lru.insertHead`. -/
def insertHead (b : lru K) (key : K) : lru K :=
  { keys := b.keys.set key (), l := key :: b.l }

/-- Source `lru.remove`: panics on an empty key set; the search loop runs off the end
of the list (nil dereference) when the key is not in it. -/
def remove (b : lru K) (key : K) : Outcome (lru K) :=
  if b.keys.len = 0 then .panic
  else if key ∈ b.l then .done { keys := b.keys.delete key, l := b.l.erase key }
  else .panic

/-- Source `lru.removeTail`: panics on an empty key set; `e.Value` panics when the list
has no back element. -/
def removeTail (b : lru K) : Outcome (lru K) :=
  if b.keys.len = 0 then .panic
  else
    match b.l.getLast? with
    | none => .panic
    | some key => .done { keys := b.keys.delete key, l := b.l.dropLast }

end lru

/-! ## car.go: the cache -/

/-- A call made to one of the two callbacks. -/
inductive Call (K V : Type) where
  /-- the call `cbLoadValue(key, slotNo)` -/
  | load (key : K) (slotNo : Nat)
  /-- the call `cbReplaceValue(key, value, slotNo)` -/
  | replace (key : K) (value : Option V) (slotNo : Nat)
  deriving DecidableEq, Repr

/-- The callback fields of the source `CAR`. A load callback returns a value that may
depend on its arguments and on the calls made so far; `none` is an unset callback. A
replacement callback returns nothing, so only whether it is set matters. -/
structure Callbacks (K V : Type) where
  cbLoadValue : Option (List (Call K V) → K → Nat → Option V)
  cbReplaceValue : Bool

/-- Source `CAR`, without the callback fields and the mutex, with the record of calls. -/
structure CAR (K V : Type) where
  c : Int
  p : Int
  t1 : clock K V
  t2 : clock K V
  b1 : lru K
  b2 : lru K
  full : Bool
  slotNo : Nat
  calls : List (Call K V)
  deriving DecidableEq, Repr

/-- Source `NewCAR`. -/
def NewCAR {K V : Type} (n : Int) : CAR K V :=
  { c := n, p := 0, t1 := clock.newClock, t2 := clock.newClock,
    b1 := lru.newLru, b2 := lru.newLru, full := false, slotNo := 0, calls := [] }

namespace CAR

variable {K V : Type} [DecidableEq K]

/-- The call of the replacement callback in `replaceT1` and `replaceT2`, made only when
the callback is set. -/
def notifyReplace (cb : Callbacks K V) (c : CAR K V) (key : K) (s : slot V) : CAR K V :=
  if cb.cbReplaceValue then { c with calls := c.calls ++ [Call.replace key s.value s.slotNo] }
  else c

/-- The loop of source `CAR.replaceT1`, on a budget of passes. -/
def replaceT1Loop (cb : Callbacks K V) : Nat → CAR K V → Outcome (slot V × CAR K V)
  | 0, _ => .fuel
  | n + 1, c =>
    match c.t1.removeHead with
    | .fuel => .fuel
    | .panic => .panic
    | .done (none, _) => .panic
    | .done (some (_, none), _) => .panic
    | .done (some (key, some s), t1) =>
      if s.ref = refZero then
        .done (s, notifyReplace cb { c with t1 := t1, b1 := c.b1.insertHead key } key s)
      else
        match c.t2.insertTail key { s with ref := refZero } with
        | .fuel => .fuel
        | .panic => .panic
        | .done t2 => replaceT1Loop cb n { c with t1 := t1, t2 := t2 }

/-- Source `CAR.replaceT1`; every pass but the last takes an entry out of T1. -/
def replaceT1 (cb : Callbacks K V) (c : CAR K V) : Outcome (slot V × CAR K V) :=
  replaceT1Loop cb (c.t1.size + 1) c

/-- The loop of source `CAR.replaceT2`, on a budget of passes. -/
def replaceT2Loop (cb : Callbacks K V) : Nat → CAR K V → Outcome (slot V × CAR K V)
  | 0, _ => .fuel
  | n + 1, c =>
    match c.t2.getHead with
    | none => .panic
    | some (_, none) => .panic
    | some (key, some s) =>
      if s.ref = refZero then
        match c.t2.removeHead with
        | .fuel => .fuel
        | .panic => .panic
        | .done (_, t2) =>
          .done (s, notifyReplace cb { c with t2 := t2, b2 := c.b2.insertHead key } key s)
      else
        replaceT2Loop cb n
          { c with t2 := clock.next { c.t2 with slots := c.t2.slots.set key { s with ref := refZero } } }

/-- Source `CAR.replaceT2`; every pass but the last clears a set flag of T2. -/
def replaceT2 (cb : Callbacks K V) (c : CAR K V) : Outcome (slot V × CAR K V) :=
  replaceT2Loop cb (c.t2.size + 1) c

/-- Source `CAR.hit`: value, `ok`, and the cache with the reference flag set. -/
def hit (c : CAR K V) (key : K) : Option V × Bool × CAR K V :=
  match c.t1.getSlot key with
  | some s =>
    (s.value, true, { c with t1 := { c.t1 with slots := c.t1.slots.set key { s with ref := refOne } } })
  | none =>
    match c.t2.getSlot key with
    | some s =>
      (s.value, true, { c with t2 := { c.t2 with slots := c.t2.slots.set key { s with ref := refOne } } })
    | none => (none, false, c)

/-- Source `CAR.miss`, the block "cache directory replacement": for a key in neither
ghost list, the tail of B1 or of B2 is dropped when the directory is at its bound. -/
def trimDir (c : CAR K V) (inB1 inB2 : Bool) : Outcome (CAR K V) :=
  if !inB1 && !inB2 then
    if ((c.t1.size + c.b1.size : Nat) : Int) = c.c then
      match c.b1.removeTail with
      | .fuel => .fuel
      | .panic => .panic
      | .done b1 => .done { c with b1 := b1 }
    else if ((c.t1.size + c.t2.size + c.b1.size + c.b2.size : Nat) : Int) = 2 * c.c then
      match c.b2.removeTail with
      | .fuel => .fuel
      | .panic => .panic
      | .done b2 => .done { c with b2 := b2 }
    else .done c
  else .done c

/-- Source `CAR.miss`, first part: the replacement of a cache entry and of a directory
entry when the cache is full, a new slot otherwise. -/
def evict (cb : Callbacks K V) (c : CAR K V) (inB1 inB2 : Bool) : Outcome (slot V × CAR K V) :=
  let sizeT1 := c.t1.size
  let sizeT2 := c.t2.size
  if ((sizeT1 + sizeT2 : Nat) : Int) = c.c then
    match (if (sizeT1 : Int) ≥ max 1 c.p then replaceT1 cb { c with full := true }
           else replaceT2 cb { c with full := true }) with
    | .fuel => .fuel
    | .panic => .panic
    | .done (s, c1) =>
      match trimDir c1 inB1 inB2 with
      | .fuel => .fuel
      | .panic => .panic
      | .done c2 => .done (s, c2)
  else .done (newSlot c.slotNo, { c with slotNo := c.slotNo + 1 })

/-- Source `CAR.miss`, second part: the value of the slot is obtained from the load
callback, or is `nil` without one. -/
def loadValue (cb : Callbacks K V) (c : CAR K V) (key : K) (s : slot V) : slot V × CAR K V :=
  match cb.cbLoadValue with
  | some f => ({ s with value := f c.calls key s.slotNo },
               { c with calls := c.calls ++ [Call.load key s.slotNo] })
  | none => ({ s with value := none }, c)

/-- Source `CAR.miss`, third part: the update of `p` and the placement of the key. An
integer division by zero panics. -/
def place (c : CAR K V) (key : K) (s : slot V) (inB1 inB2 : Bool) : Outcome (CAR K V) :=
  if inB1 then
    if c.b1.size = 0 then .panic
    else
      let div : Int := ((c.b2.size / c.b1.size : Nat) : Int)
      match c.b1.remove key with
      | .fuel => .fuel
      | .panic => .panic
      | .done b1 =>
        match c.t2.insertTail key s with
        | .fuel => .fuel
        | .panic => .panic
        | .done t2 => .done { c with p := min (c.p + max 1 div) c.c, b1 := b1, t2 := t2 }
  else if inB2 then
    if c.b2.size = 0 then .panic
    else
      let div : Int := ((c.b1.size / c.b2.size : Nat) : Int)
      match c.b2.remove key with
      | .fuel => .fuel
      | .panic => .panic
      | .done b2 =>
        match c.t2.insertTail key s with
        | .fuel => .fuel
        | .panic => .panic
        | .done t2 => .done { c with p := max (c.p - max 1 div) 0, b2 := b2, t2 := t2 }
  else
    match c.t1.insertTail key s with
    | .fuel => .fuel
    | .panic => .panic
    | .done t1 => .done { c with t1 := t1 }

/-- Source `CAR.miss`: returned value and new cache. -/
def miss (cb : Callbacks K V) (c : CAR K V) (key : K) : Outcome (Option V × CAR K V) :=
  let inB1 := c.b1.exist key
  let inB2 := c.b2.exist key
  match evict cb c inB1 inB2 with
  | .fuel => .fuel
  | .panic => .panic
  | .done (s, c1) =>
    match place (loadValue cb c1 key s).2 key (loadValue cb c1 key s).1 inB1 inB2 with
    | .fuel => .fuel
    | .panic => .panic
    | .done c2 => .done ((loadValue cb c1 key s).1.value, c2)

/-- Source `CAR.Load`, run by one goroutine: the hit test, repeated under the write
lock, then the miss. -/
def Load (cb : Callbacks K V) (c : CAR K V) (key : K) : Outcome (Option V × CAR K V) :=
  match hit c key with
  | (value, true, c1) => .done (value, c1)
  | (_, false, c1) =>
    match hit c1 key with
    | (value, true, c2) => .done (value, c2)
    | (_, false, c2) => miss cb c2 key

/-- No callback is set: the cache as `NewCAR` returns it. -/
def noCallbacks : Callbacks K V := { cbLoadValue := none, cbReplaceValue := false }

/-- Both callbacks are set, `f` being the load callback. -/
def bothCallbacks (f : List (Call K V) → K → Nat → Option V) : Callbacks K V :=
  { cbLoadValue := some f, cbReplaceValue := true }

/-- Successive `Load` calls for a list of keys: the returned values, in order, and the
cache after the last call. -/
def loadsLog (cb : Callbacks K V) : CAR K V → List K → Outcome (List (Option V) × CAR K V)
  | c, [] => .done ([], c)
  | c, key :: rest =>
    match Load cb c key with
    | .fuel => .fuel
    | .panic => .panic
    | .done (v, c1) =>
      match loadsLog cb c1 rest with
      | .fuel => .fuel
      | .panic => .panic
      | .done (vs, c2) => .done (v :: vs, c2)

/-- Successive `Load` calls for a list of keys: the cache after the last one. -/
def loads (cb : Callbacks K V) : CAR K V → List K → Outcome (CAR K V)
  | c, [] => .done c
  | c, key :: rest =>
    match Load cb c key with
    | .fuel => .fuel
    | .panic => .panic
    | .done (_, c1) => loads cb c1 rest

/-! ## Well-formed states -/

/-- The slot of a resident key: the lookup of `hit`, without the flag write. -/
def resident (c : CAR K V) (key : K) : Option (slot V) :=
  match c.t1.getSlot key with
  | some s => some s
  | none => c.t2.getSlot key

/-- The directory of the cache: the keys of T1, T2, B1 and B2, in this order. -/
def dir (c : CAR K V) : List K := c.t1.ring ++ c.t2.ring ++ c.b1.l ++ c.b2.l

end CAR

/-- Source `slot.setRef`, on the slot record. -/
def slot.setRef {V : Type} (s : slot V) (v : Int) : slot V := { s with ref := v }

/-- Slot number and value of a slot: what a slot holds apart from its reference flag. -/
def slot.info {V : Type} (s : slot V) : Nat × Option V := (s.slotNo, s.value)

/-- The map of a clock and its ring hold the same keys. -/
def clock.WF {K V : Type} (cl : clock K V) : Prop := cl.slots.keys.Perm cl.ring

/-- The slot numbers held in a clock. -/
def clock.slotNos {K V : Type} (cl : clock K V) : List Nat := cl.slots.map (fun e => e.2.slotNo)

/-- The key set of a ghost list and its list hold the same keys. -/
def lru.WF {K : Type} (b : lru K) : Prop := b.keys.keys.Perm b.l

namespace CAR

variable {K V : Type} [DecidableEq K]

/-- The invariant of the cache. The slot numbers in `held` are those of slots taken out
of the clocks and not yet put back: none between two `Load` calls, one inside a miss. -/
structure InvG (held : List Nat) (c : CAR K V) : Prop where
  wt1 : c.t1.WF
  wt2 : c.t2.WF
  wb1 : c.b1.WF
  wb2 : c.b2.WF
  nodup : c.dir.Nodup
  nos : (held ++ (c.t1.slotNos ++ c.t2.slotNos)).Perm (List.range c.slotNo)
  cpos : 1 ≤ c.c
  p0 : 0 ≤ c.p
  pc : c.p ≤ c.c
  i1 : ((c.t1.ring.length + c.t2.ring.length + held.length : Nat) : Int) ≤ c.c
  i2 : ((c.t1.ring.length + c.b1.l.length : Nat) : Int) ≤ c.c
  i4 : ((c.t1.ring.length + c.t2.ring.length + c.b1.l.length + c.b2.l.length : Nat) : Int)
        ≤ 2 * c.c
  i7 : c.full = true →
        ((c.t1.ring.length + c.t2.ring.length + held.length : Nat) : Int) = c.c
  ghost : c.full = false → c.b1.l = [] ∧ c.b2.l = []

/-- The invariant of the cache between two `Load` calls. -/
def Inv (c : CAR K V) : Prop := InvG [] c

/-- The cache `c1` holds the resident entries of `c`, with their slot numbers and values,
possibly moved between T1 and T2, reordered, or with another reference flag; the rest
of the state is the same. -/
structure Shuffle (c c1 : CAR K V) : Prop where
  wt1 : c1.t1.WF
  wt2 : c1.t2.WF
  res : (c1.t1.ring ++ c1.t2.ring).Perm (c.t1.ring ++ c.t2.ring)
  t1le : c1.t1.ring.length ≤ c.t1.ring.length
  nos : (c1.t1.slotNos ++ c1.t2.slotNos).Perm (c.t1.slotNos ++ c.t2.slotNos)
  info : ∀ k, (c1.resident k).map slot.info = (c.resident k).map slot.info
  b1_eq : c1.b1 = c.b1
  b2_eq : c1.b2 = c.b2
  c_eq : c1.c = c.c
  p_eq : c1.p = c.p
  full_eq : c1.full = c.full
  slotNo_eq : c1.slotNo = c.slotNo
  calls_eq : c1.calls = c.calls

/-- The state of a miss on `key` after its first part, with the slot `s` in hand. -/
structure Ready (key : K) (inB1 inB2 : Bool) (s : slot V) (c : CAR K V) : Prop where
  inv : InvG [s.slotNo] c
  nt1 : key ∉ c.t1.ring
  nt2 : key ∉ c.t2.ring
  mb1 : inB1 = true → key ∈ c.b1.l
  mb2 : inB2 = true → key ∈ c.b2.l
  nb : inB1 = false → inB2 = false → key ∉ c.b1.l ∧ key ∉ c.b2.l
  room1 : inB1 = false → inB2 = false →
    ((c.t1.ring.length + c.b1.l.length + 1 : Nat) : Int) ≤ c.c
  room2 : inB1 = false → inB2 = false →
    ((c.t1.ring.length + c.t2.ring.length + c.b1.l.length + c.b2.l.length + 1 : Nat) : Int)
      ≤ 2 * c.c

/-- Example state: capacity 2, no callbacks, after the `Load` calls for keys 1, 2, 1, 3. -/
def demoA : CAR Nat Nat :=
  { c := 2, p := 0,
    t1 := { slots := [(3, { ref := 0, slotNo := 1, value := none })], ring := [3] },
    t2 := { slots := [(1, { ref := 0, slotNo := 0, value := none })], ring := [1] },
    b1 := { keys := [(2, ())], l := [2] },
    b2 := { keys := [], l := [] },
    full := true, slotNo := 2, calls := [] }

/-- Example state: `demoA` after the `Load` call for key 2, a key of B1. -/
def demoB : CAR Nat Nat :=
  { c := 2, p := 1,
    t1 := { slots := [], ring := [] },
    t2 := { slots := [(1, { ref := 0, slotNo := 0, value := none }),
                      (2, { ref := 0, slotNo := 1, value := none })], ring := [1, 2] },
    b1 := { keys := [(3, ())], l := [3] },
    b2 := { keys := [], l := [] },
    full := true, slotNo := 2, calls := [] }

/-- The values of `example_test.go`. -/
def exampleText : List String :=
  ["Clock with adaptive replacement (CAR)", "Golang", "Hello World",
   "Cache replacement policy"]

/-- The load callback of `example_test.go`: the text at index `key`. -/
def exampleLoad (_ : List (Call Nat String)) (key : Nat) (_ : Nat) : Option String :=
  exampleText.get? key

/-- Example state: capacity 3, the callbacks of `example_test.go`, after the `Load`
calls for keys 0, 1, 2. -/
def exampleFull : CAR Nat String :=
  { c := 3, p := 0,
    t1 := { slots := [(0, { ref := 0, slotNo := 0,
                            value := some "Clock with adaptive replacement (CAR)" }),
                      (1, { ref := 0, slotNo := 1, value := some "Golang" }),
                      (2, { ref := 0, slotNo := 2, value := some "Hello World" })],
            ring := [0, 1, 2] },
    t2 := { slots := [], ring := [] },
    b1 := { keys := [], l := [] },
    b2 := { keys := [], l := [] },
    full := false, slotNo := 3,
    calls := [Call.load 0 0, Call.load 1 1, Call.load 2 2] }

/-- Example state: `exampleFull` after the first part of the miss on key 3. -/
def exampleEvicted : CAR Nat String :=
  { c := 3, p := 0,
    t1 := { slots := [(1, { ref := 0, slotNo := 1, value := some "Golang" }),
                      (2, { ref := 0, slotNo := 2, value := some "Hello World" })],
            ring := [1, 2] },
    t2 := { slots := [], ring := [] },
    b1 := { keys := [], l := [] },
    b2 := { keys := [], l := [] },
    full := true, slotNo := 3,
    calls := [Call.load 0 0, Call.load 1 1, Call.load 2 2,
              Call.replace 0 (some "Clock with adaptive replacement (CAR)") 0] }

/-- Example state: `exampleFull` after the `Load` call for key 3. -/
def exampleEnd : CAR Nat String :=
  { c := 3, p := 0,
    t1 := { slots := [(1, { ref := 0, slotNo := 1, value := some "Golang" }),
                      (2, { ref := 0, slotNo := 2, value := some "Hello World" }),
                      (3, { ref := 0, slotNo := 0, value := some "Cache replacement policy" })],
            ring := [1, 2, 3] },
    t2 := { slots := [], ring := [] },
    b1 := { keys := [], l := [] },
    b2 := { keys := [], l := [] },
    full := true, slotNo := 3,
    calls := [Call.load 0 0, Call.load 1 1, Call.load 2 2,
              Call.replace 0 (some "Clock with adaptive replacement (CAR)") 0,
              Call.load 3 0] }

/-- Example state: capacity 3, no callbacks, after the `Load` calls for keys 1, 2, 3. -/
def scanFull : CAR Nat Nat :=
  { c := 3, p := 0,
    t1 := { slots := [(1, { ref := 0, slotNo := 0, value := none }),
                      (2, { ref := 0, slotNo := 1, value := none }),
                      (3, { ref := 0, slotNo := 2, value := none })],
            ring := [1, 2, 3] },
    t2 := { slots := [], ring := [] },
    b1 := { keys := [], l := [] },
    b2 := { keys := [], l := [] },
    full := false, slotNo := 3, calls := [] }

/-- Example state: `scanFull` after `replaceT1`, in the miss on key 4. -/
def scanEvicted : CAR Nat Nat :=
  { c := 3, p := 0,
    t1 := { slots := [(2, { ref := 0, slotNo := 1, value := none }),
                      (3, { ref := 0, slotNo := 2, value := none })],
            ring := [2, 3] },
    t2 := { slots := [], ring := [] },
    b1 := { keys := [(1, ())], l := [1] },
    b2 := { keys := [], l := [] },
    full := true, slotNo := 3, calls := [] }

/-- Example state: `scanFull` after the `Load` call for key 4. -/
def scanEnd : CAR Nat Nat :=
  { c := 3, p := 0,
    t1 := { slots := [(2, { ref := 0, slotNo := 1, value := none }),
                      (3, { ref := 0, slotNo := 2, value := none }),
                      (4, { ref := 0, slotNo := 0, value := none })],
            ring := [2, 3, 4] },
    t2 := { slots := [], ring := [] },
    b1 := { keys := [], l := [] },
    b2 := { keys := [], l := [] },
    full := true, slotNo := 3, calls := [] }

/-- Example state: capacity 3, no callbacks, after the `Load` calls for keys
0, 0, 0, 1, 1, 2, 4, 0, 2. -/
def rotA : CAR Nat Nat :=
  { c := 3, p := 1,
    t1 := { slots := [], ring := [] },
    t2 := { slots := [(0, { ref := 1, slotNo := 0, value := none }),
                      (1, { ref := 0, slotNo := 1, value := none }),
                      (2, { ref := 0, slotNo := 2, value := none })],
            ring := [0, 1, 2] },
    b1 := { keys := [(4, ())], l := [4] },
    b2 := { keys := [], l := [] },
    full := true, slotNo := 3, calls := [] }

/-- Example state: `rotA` after the `Load` call for key 4, a key of B1. -/
def rotB : CAR Nat Nat :=
  { c := 3, p := 2,
    t1 := { slots := [], ring := [] },
    t2 := { slots := [(0, { ref := 0, slotNo := 0, value := none }),
                      (2, { ref := 0, slotNo := 2, value := none }),
                      (4, { ref := 0, slotNo := 1, value := none })],
            ring := [2, 0, 4] },
    b1 := { keys := [], l := [] },
    b2 := { keys := [(1, ())], l := [1] },
    full := true, slotNo := 3, calls := [] }

/-- The cache while the distinct keys `pre` are being loaded into it, fewer than its
capacity allows, with both callbacks set: all of them are in T1, in order, with unset
reference flags; key number `i` was loaded by call number `i` of the load callback. -/
structure Filling (f : List (Call K V) → K → Nat → Option V) (c : CAR K V) (pre : List K) :
    Prop where
  ring : c.t1.ring = pre
  keys : c.t1.slots.keys = pre
  t2 : c.t2 = clock.newClock
  b1 : c.b1 = lru.newLru
  b2 : c.b2 = lru.newLru
  full : c.full = false
  p : c.p = 0
  slotNo : c.slotNo = pre.length
  refs : ∀ k s, c.t1.slots.get k = some s → s.ref = refZero
  calls : c.calls = pre.enum.map (fun e => Call.load e.2 e.1)
  head : ∀ k0 rest, pre = k0 :: rest →
    c.t1.slots.get k0 = some { ref := 0, slotNo := 0, value := f [] k0 0 }

/-- The invariants I1 to I7 of the spec, on the sizes the `size` methods return (the
lower bounds `0 ≤` hold of every size). -/
structure SizeInvariants (c : CAR K V) : Prop where
  i1 : ((c.t1.size + c.t2.size : Nat) : Int) ≤ c.c
  i2 : ((c.t1.size + c.b1.size : Nat) : Int) ≤ c.c
  i3 : ((c.t2.size + c.b2.size : Nat) : Int) ≤ 2 * c.c
  i4 : ((c.t1.size + c.t2.size + c.b1.size + c.b2.size : Nat) : Int) ≤ 2 * c.c
  i5 : ((c.t1.size + c.t2.size : Nat) : Int) < c.c → c.b1.size + c.b2.size = 0
  i6 : c.c ≤ ((c.t1.size + c.t2.size + c.b1.size + c.b2.size : Nat) : Int) →
        ((c.t1.size + c.t2.size : Nat) : Int) = c.c
  i7 : c.full = true → ((c.t1.size + c.t2.size : Nat) : Int) = c.c

/-- The last pass of `replaceT1`: the head `key` of T1, with slot `s`, goes to B1. -/
def evictT1 (cb : Callbacks K V) (c : CAR K V) (key : K) (s : slot V) : CAR K V :=
  notifyReplace cb
    { c with t1 := { slots := c.t1.slots.delete key, ring := c.t1.ring.tail },
             b1 := c.b1.insertHead key } key s

/-- The last pass of `replaceT2`: the head `key` of T2, with slot `s`, goes to B2. -/
def evictT2 (cb : Callbacks K V) (c : CAR K V) (key : K) (s : slot V) : CAR K V :=
  notifyReplace cb
    { c with t2 := { slots := c.t2.slots.delete key, ring := c.t2.ring.tail },
             b2 := c.b2.insertHead key } key s

end CAR



/-! ## The replace() procedure of the CAR paper -/

namespace CAR

variable {K V : Type} [DecidableEq K]

/-- The loop of the procedure replace() of the CAR paper, on a budget of passes, with
the operations of the source on clocks and ghost lists: before every pass the test
`|T1| ≥ max(1, p)`; when it holds the head of T1 is taken, demoted to the head of B1 if
its flag is unset, moved to the tail of T2 with the flag cleared otherwise; when it
fails the head of T2 is taken, demoted to the head of B2 if its flag is unset, cleared
and made the tail of T2 otherwise. -/
def paperReplaceLoop (cb : Callbacks K V) : Nat → CAR K V → Outcome (slot V × CAR K V)
  | 0, _ => .fuel
  | n + 1, c =>
    if (c.t1.size : Int) ≥ max 1 c.p then
      match c.t1.removeHead with
      | .fuel => .fuel
      | .panic => .panic
      | .done (none, _) => .panic
      | .done (some (_, none), _) => .panic
      | .done (some (key, some s), t1) =>
        if s.ref = refZero then
          .done (s, notifyReplace cb { c with t1 := t1, b1 := c.b1.insertHead key } key s)
        else
          match c.t2.insertTail key { s with ref := refZero } with
          | .fuel => .fuel
          | .panic => .panic
          | .done t2 => paperReplaceLoop cb n { c with t1 := t1, t2 := t2 }
    else
      match c.t2.getHead with
      | none => .panic
      | some (_, none) => .panic
      | some (key, some s) =>
        if s.ref = refZero then
          match c.t2.removeHead with
          | .fuel => .fuel
          | .panic => .panic
          | .done (_, t2) =>
            .done (s, notifyReplace cb { c with t2 := t2, b2 := c.b2.insertHead key } key s)
        else
          paperReplaceLoop cb n
            { c with t2 := clock.next { c.t2 with slots := c.t2.slots.set key { s with ref := refZero } } }

/-- The procedure replace() of the CAR paper; every pass but the last clears a set flag
of T1 or of T2. -/
def paperReplace (cb : Callbacks K V) (c : CAR K V) : Outcome (slot V × CAR K V) :=
  paperReplaceLoop cb (c.t1.size + c.t2.size + 1) c

/-- The eviction step of source `CAR.miss` on a full cache: `replaceT1` or `replaceT2`,
chosen once. -/
def codeReplace (cb : Callbacks K V) (c : CAR K V) : Outcome (slot V × CAR K V) :=
  if (c.t1.size : Int) ≥ max 1 c.p then replaceT1 cb { c with full := true }
  else replaceT2 cb { c with full := true }

end CAR

/-- Example state: capacity 4, no callbacks, after the `Load` calls for keys
0, 4, 6, 0, 2, 3, 4, 6, 5, 3. -/
def driftA : CAR Nat Nat :=
  { c := 4, p := 2,
    t1 := { slots := [(3, { ref := 1, slotNo := 1, value := none }),
                      (5, { ref := 0, slotNo := 0, value := none })],
            ring := [3, 5] },
    t2 := { slots := [(4, { ref := 0, slotNo := 2, value := none }),
                      (6, { ref := 0, slotNo := 3, value := none })],
            ring := [4, 6] },
    b1 := { keys := [(2, ())], l := [2] },
    b2 := { keys := [(0, ())], l := [0] },
    full := true, slotNo := 4, calls := [] }

/-- Example state: `driftA` after `replaceT1`. -/
def driftCode : CAR Nat Nat :=
  { c := 4, p := 2,
    t1 := { slots := [], ring := [] },
    t2 := { slots := [(4, { ref := 0, slotNo := 2, value := none }),
                      (6, { ref := 0, slotNo := 3, value := none }),
                      (3, { ref := 0, slotNo := 1, value := none })],
            ring := [4, 6, 3] },
    b1 := { keys := [(2, ()), (5, ())], l := [5, 2] },
    b2 := { keys := [(0, ())], l := [0] },
    full := true, slotNo := 4, calls := [] }

/-- Example state: `driftA` after the procedure replace() of the CAR paper. -/
def driftPaper : CAR Nat Nat :=
  { c := 4, p := 2,
    t1 := { slots := [(5, { ref := 0, slotNo := 0, value := none })], ring := [5] },
    t2 := { slots := [(6, { ref := 0, slotNo := 3, value := none }),
                      (3, { ref := 0, slotNo := 1, value := none })],
            ring := [6, 3] },
    b1 := { keys := [(2, ())], l := [2] },
    b2 := { keys := [(0, ()), (4, ())], l := [4, 0] },
    full := true, slotNo := 4, calls := [] }

/-- Example state: capacity 1, no callbacks, after the `Load` calls for keys 1, 1. -/
def stuckA : CAR Nat Nat :=
  { c := 1, p := 0,
    t1 := { slots := [(1, { ref := 1, slotNo := 0, value := none })], ring := [1] },
    t2 := { slots := [], ring := [] },
    b1 := { keys := [], l := [] }, b2 := { keys := [], l := [] },
    full := false, slotNo := 1, calls := [] }

/-- Example state: `stuckA` after the procedure replace() of the CAR paper. -/
def stuckPaper : CAR Nat Nat :=
  { c := 1, p := 0,
    t1 := { slots := [], ring := [] },
    t2 := { slots := [], ring := [] },
    b1 := { keys := [], l := [] }, b2 := { keys := [(1, ())], l := [1] },
    full := true, slotNo := 1, calls := [] }

/-! ## Callbacks set between two calls -/

/-- Successive `Load` calls, each run with the callbacks that are set when it is made:
source `SetLoadValue` and `SetReplaceValue` only store the callback and may be called
between two `Load` calls. -/
def CAR.loadsWith {K V : Type} [DecidableEq K] :
    CAR K V → List (Callbacks K V × K) → Outcome (CAR K V)
  | c, [] => .done c
  | c, (cb, key) :: rest =>
    match CAR.Load cb c key with
    | .fuel => .fuel
    | .panic => .panic
    | .done (_, c1) => CAR.loadsWith c1 rest

/-- The callbacks of `example_test.go` after `SetLoadValue(nil)`: no load callback, the
replacement callback still set. -/
def loadUnset : Callbacks Nat String := { cbLoadValue := none, cbReplaceValue := true }

/-- Example state: `exampleFull` after the `Load` call for key 3 made with the load
callback unset. -/
def exampleUnset : CAR Nat String :=
  { c := 3, p := 0,
    t1 := { slots := [(1, { ref := 0, slotNo := 1, value := some "Golang" }),
                      (2, { ref := 0, slotNo := 2, value := some "Hello World" }),
                      (3, { ref := 0, slotNo := 0, value := none })],
            ring := [1, 2, 3] },
    t2 := { slots := [], ring := [] },
    b1 := { keys := [], l := [] },
    b2 := { keys := [], l := [] },
    full := true, slotNo := 3,
    calls := [Call.load 0 0, Call.load 1 1, Call.load 2 2,
              Call.replace 0 (some "Clock with adaptive replacement (CAR)") 0] }

/-! ## Capacities below one -/

/-- Example state: capacity -1, no callbacks, after the `Load` calls for keys
1, 2, 3, 1. -/
def negA : CAR Nat Nat :=
  { c := -1, p := 0,
    t1 := { slots := [(1, { ref := 1, slotNo := 0, value := none }),
                      (2, { ref := 0, slotNo := 1, value := none }),
                      (3, { ref := 0, slotNo := 2, value := none })],
            ring := [1, 2, 3] },
    t2 := { slots := [], ring := [] },
    b1 := { keys := [], l := [] }, b2 := { keys := [], l := [] },
    full := false, slotNo := 3, calls := [] }

/-- The states of a cache of negative capacity: every key loaded is in T1, nothing else
is in use, and the slot counter is the size of T1. -/
structure Unbounded {K V : Type} [DecidableEq K] (c : CAR K V) : Prop where
  cneg : c.c < 0
  p0 : c.p = 0
  wt1 : c.t1.WF
  nodup : c.t1.ring.Nodup
  t2 : c.t2 = clock.newClock
  b1 : c.b1 = lru.newLru
  b2 : c.b2 = lru.newLru
  full : c.full = false
  slotNo : c.slotNo = c.t1.size

/-! ## The policy state -/

/-- The outcome with a function applied to the result of a normal return. -/
def Outcome.map {α β : Type} (f : α → β) : Outcome α → Outcome β
  | .done a => .done (f a)
  | .panic => .panic
  | .fuel => .fuel

/-- The policy part of a slot: the reference flag and the slot number. -/
def slot.policy {V : Type} (s : slot V) : slot Unit :=
  { ref := s.ref, slotNo := s.slotNo, value := none }

/-- The policy part of a clock: the ring, and the map with the policy part of every
slot. -/
def clock.policy {K V : Type} (cl : clock K V) : clock K Unit :=
  { slots := cl.slots.map (fun e => (e.1, e.2.policy)), ring := cl.ring }

/-- The policy part of a callback call: a replacement call without its value; a load
call has none. -/
def Call.policy {K V : Type} : Call K V → Option (Call K Unit)
  | .load _ _ => none
  | .replace key _ slotNo => some (.replace key none slotNo)

/-- The policy part of the callbacks: whether a replacement callback is set. -/
def Callbacks.policy {K V : Type} (cb : Callbacks K V) : Callbacks K Unit :=
  { cbLoadValue := none, cbReplaceValue := cb.cbReplaceValue }

/-- The policy state of a cache: everything but the values, with the evictions
reported to the replacement callback. -/
def CAR.policy {K V : Type} (c : CAR K V) : CAR K Unit :=
  { c := c.c, p := c.p, t1 := c.t1.policy, t2 := c.t2.policy, b1 := c.b1, b2 := c.b2,
    full := c.full, slotNo := c.slotNo, calls := c.calls.filterMap Call.policy }

/-- The policy part of an outcome of `replaceT1`, `replaceT2` or the first part of a
miss. -/
def Outcome.policySlot {K V : Type} : Outcome (slot V × CAR K V) → Outcome (slot Unit × CAR K Unit)
  | .done (s, c) => .done (s.policy, c.policy)
  | .panic => .panic
  | .fuel => .fuel

/-- The policy part of an outcome of `Load`: whether it completes, and the policy state
it leaves. -/
def Outcome.policyLoad {K V : Type} : Outcome (Option V × CAR K V) → Outcome (Option Unit × CAR K Unit)
  | .done (_, c) => .done (none, c.policy)
  | .panic => .panic
  | .fuel => .fuel

/-- The policy part of an outcome of a sequence of `Load` calls. -/
def Outcome.policy {K V : Type} : Outcome (CAR K V) → Outcome (CAR K Unit)
  | .done c => .done c.policy
  | .panic => .panic
  | .fuel => .fuel

/-- The keys that are resident in `c` and not in `c2`, in the order of the rings of
`c`: the keys evicted between the two states. -/
def CAR.evictedKeys {K V : Type} [DecidableEq K] (c c2 : CAR K V) : List K :=
  (c.t1.ring ++ c.t2.ring).filter (fun k => decide (k ∉ c2.t1.ring ++ c2.t2.ring))

end Car

/-! ## Lemmas and theorems -/

set_option linter.unusedSectionVars false

/-! ### Go maps -/

namespace Car
namespace GoMap
variable {K α : Type} [DecidableEq K]

@[simp] theorem keys_nil : keys ([] : GoMap K α) = [] := rfl

@[simp] theorem keys_cons (e : K × α) (m : GoMap K α) : keys (e :: m) = e.1 :: keys m := rfl

theorem len_eq_keys_length (m : GoMap K α) : len m = (keys m).length := by
  simp [len, keys]

theorem get_eq_none_iff (m : GoMap K α) (key : K) : get m key = none ↔ key ∉ keys m := by
  induction m with
  | nil => simp [get]
  | cons e m ih =>
    obtain ⟨k, v⟩ := e
    by_cases h : k = key
    · simp [get, h]
    · simp [get, h, ih, Ne.symm h]

theorem get_isSome_iff (m : GoMap K α) (key : K) : (get m key).isSome = true ↔ key ∈ keys m := by
  rw [← not_iff_not, ← get_eq_none_iff]
  cases get m key <;> simp

theorem mem_keys_of_get {m : GoMap K α} {key : K} {v : α} (h : get m key = some v) :
    key ∈ keys m := by
  by_contra hk
  rw [← get_eq_none_iff] at hk
  simp [hk] at h

theorem get_set (m : GoMap K α) (key : K) (v : α) (k : K) :
    get (set m key v) k = if key = k then some v else get m k := by
  induction m with
  | nil => simp [set, get]
  | cons e m ih =>
    obtain ⟨k0, w⟩ := e
    by_cases h : k0 = key
    · subst h
      by_cases h2 : k0 = k <;> simp [set, get, h2]
    · by_cases h2 : k0 = k
      · subst h2
        simp [set, get, h, Ne.symm h]
      · simp [set, get, h, h2, ih]

theorem get_delete (m : GoMap K α) (key : K) (k : K) :
    get (delete m key) k = if key = k then none else get m k := by
  induction m with
  | nil => simp [delete, get]
  | cons e m ih =>
    obtain ⟨k0, w⟩ := e
    by_cases h : k0 = key
    · subst h
      by_cases h2 : k0 = k
      · subst h2
        simpa [delete, get] using ih
      · simp [delete, get, h2, ih]
    · by_cases h2 : k0 = k
      · subst h2
        simp [delete, get, h, Ne.symm h]
      · simp [delete, get, h, h2, ih]

theorem keys_set_of_mem {m : GoMap K α} {key : K} (v : α) (h : key ∈ keys m) :
    keys (set m key v) = keys m := by
  induction m with
  | nil => simp at h
  | cons e m ih =>
    obtain ⟨k0, w⟩ := e
    by_cases h1 : k0 = key
    · simp [set, h1]
    · have : key ∈ keys m := by
        simp at h
        rcases h with h | h
        · exact absurd h.symm h1
        · exact h
      simp [set, h1, ih this]

theorem set_of_not_mem {m : GoMap K α} {key : K} (v : α) (h : key ∉ keys m) :
    set m key v = m ++ [(key, v)] := by
  induction m with
  | nil => simp [set]
  | cons e m ih =>
    obtain ⟨k0, w⟩ := e
    simp at h
    have h1 : ¬ k0 = key := fun e => h.1 e.symm
    simp [set, h1, ih h.2]

theorem keys_set_of_not_mem {m : GoMap K α} {key : K} (v : α) (h : key ∉ keys m) :
    keys (set m key v) = keys m ++ [key] := by
  rw [set_of_not_mem v h]; simp [keys]

theorem keys_delete (m : GoMap K α) (key : K) :
    keys (delete m key) = (keys m).filter (fun k => k ≠ key) := by
  induction m with
  | nil => simp [delete]
  | cons e m ih =>
    obtain ⟨k0, w⟩ := e
    by_cases h : k0 = key <;> simp [delete, List.filter_cons, h, ih]

theorem delete_of_not_mem {m : GoMap K α} {key : K} (h : key ∉ keys m) : delete m key = m := by
  induction m with
  | nil => simp [delete]
  | cons e m ih =>
    obtain ⟨k0, w⟩ := e
    simp at h
    have h1 : ¬ k0 = key := fun e => h.1 e.symm
    simp [delete, h1, ih h.2]

theorem perm_cons_delete {m : GoMap K α} {key : K} {v : α} (hn : (keys m).Nodup)
    (h : get m key = some v) : m.Perm ((key, v) :: delete m key) := by
  induction m with
  | nil => simp [get] at h
  | cons e m ih =>
    obtain ⟨k0, w⟩ := e
    simp at hn
    by_cases h1 : k0 = key
    · subst h1
      simp [get] at h
      subst h
      have hk : k0 ∉ keys m := by simpa [keys] using hn.1
      simp [delete, delete_of_not_mem hk]
    · simp [get, h1] at h
      have hd : delete ((k0, w) :: m) key = (k0, w) :: delete m key := by
        simp [delete, h1]
      rw [hd]
      exact ((ih hn.2 h).cons _).trans (List.Perm.swap _ _ _)

end GoMap
end Car

/-! ### Clocks and ghost lists -/

namespace Car

theorem perm_of_count {α : Type} [DecidableEq α] {l₁ l₂ : List α}
    (h : ∀ a, l₁.count a = l₂.count a) : l₁.Perm l₂ := List.perm_iff_count.mpr h

namespace clock
variable {K V : Type} [DecidableEq K]

theorem WF.size_eq {cl : clock K V} (h : cl.WF) : cl.size = cl.ring.length := by
  rw [size, GoMap.len_eq_keys_length]; exact h.length_eq

theorem WF.mem_iff {cl : clock K V} (h : cl.WF) (k : K) : k ∈ cl.slots.keys ↔ k ∈ cl.ring :=
  List.Perm.mem_iff h

theorem WF.get_eq_none {cl : clock K V} (h : cl.WF) (k : K) :
    cl.slots.get k = none ↔ k ∉ cl.ring := by
  rw [GoMap.get_eq_none_iff, h.mem_iff]

theorem WF.get_of_mem {cl : clock K V} (h : cl.WF) {k : K} (hk : k ∈ cl.ring) :
    ∃ s, cl.slots.get k = some s := by
  cases hg : cl.slots.get k with
  | none => exact absurd hk ((h.get_eq_none k).mp hg)
  | some s => exact ⟨s, rfl⟩

theorem WF.mem_of_get {cl : clock K V} (h : cl.WF) {k : K} {s : slot V}
    (hg : cl.slots.get k = some s) : k ∈ cl.ring :=
  (h.mem_iff k).mp (GoMap.mem_keys_of_get hg)

theorem WF.keys_nodup {cl : clock K V} (h : cl.WF) (hn : cl.ring.Nodup) : cl.slots.keys.Nodup :=
  h.nodup_iff.mpr hn

theorem wf_newClock : (newClock : clock K V).WF := by
  simp [WF, newClock]

/-- On a well-formed clock `removeHead` takes the first key of the ring. -/
theorem WF.removeHead_cons {cl : clock K V} (h : cl.WF) {key : K} {r : List K}
    (hr : cl.ring = key :: r) :
    cl.removeHead = .done (some (key, cl.slots.get key),
      { slots := cl.slots.delete key, ring := r }) := by
  have hlen : cl.slots.len = r.length + 1 := by
    have := h.size_eq; simpa [size, hr] using this
  unfold removeHead
  cases r with
  | nil => simp [hlen, hr]
  | cons y r => simp [hlen, hr]

theorem WF.removeHead_nil {cl : clock K V} (h : cl.WF) (hr : cl.ring = []) :
    cl.removeHead = .done (none, cl) := by
  have hlen : cl.slots.len = 0 := by
    have := h.size_eq; simpa [size, hr] using this
  simp [removeHead, hlen]

/-- On a well-formed clock `insertTail` appends the key to the ring. -/
theorem WF.insertTail_eq {cl : clock K V} (h : cl.WF) (key : K) (s : slot V) :
    cl.insertTail key s = .done { slots := cl.slots.set key s, ring := cl.ring ++ [key] } := by
  have hlen : cl.slots.len = cl.ring.length := h.size_eq
  unfold insertTail
  cases hr : cl.ring with
  | nil => simp [hlen, hr]
  | cons y r => simp [hlen, hr]

theorem WF.delete_head {cl : clock K V} (h : cl.WF) (hn : cl.ring.Nodup) {key : K} {r : List K}
    (hr : cl.ring = key :: r) :
    WF ({ slots := cl.slots.delete key, ring := r } : clock K V) := by
  unfold WF at *
  simp only [GoMap.keys_delete]
  rw [hr] at h hn
  have h2 := h.filter (fun k => decide (k ≠ key))
  have hk : key ∉ r := (List.nodup_cons.mp hn).1
  have h3 : (key :: r).filter (fun k => decide (k ≠ key)) = r := by
    rw [List.filter_cons]
    simp only [ne_eq, not_true_eq_false, decide_False, Bool.false_eq_true, ↓reduceIte]
    rw [List.filter_eq_self]
    intro a ha
    simp only [ne_eq, decide_not, Bool.not_eq_true', decide_eq_false_iff_not]
    rintro rfl
    exact hk ha
  rw [h3] at h2
  exact h2

theorem WF.set_tail {cl : clock K V} (h : cl.WF) {key : K} (hk : key ∉ cl.ring) (s : slot V) :
    WF ({ slots := cl.slots.set key s, ring := cl.ring ++ [key] } : clock K V) := by
  unfold WF at *
  have hk2 : key ∉ cl.slots.keys := fun hm => hk (h.mem_iff.mp hm)
  simp only [GoMap.keys_set_of_not_mem s hk2]
  exact h.append_right _

theorem WF.set_mem {cl : clock K V} (h : cl.WF) {key : K} (hk : key ∈ cl.ring) (s : slot V) :
    WF ({ cl with slots := cl.slots.set key s } : clock K V) := by
  unfold WF at *
  have hk2 : key ∈ cl.slots.keys := h.mem_iff.mpr hk
  simp only [GoMap.keys_set_of_mem s hk2]
  exact h

theorem WF.next {cl : clock K V} (h : cl.WF) : cl.next.WF := by
  unfold WF clock.next at *
  cases hr : cl.ring with
  | nil => simpa [hr] using h
  | cons k r =>
    simp only
    rw [hr] at h
    exact h.trans (List.perm_append_singleton k r).symm

theorem slotNos_set_of_not_mem {cl : clock K V} {key : K} (hk : key ∉ cl.slots.keys) (s : slot V) :
    slotNos ({ slots := cl.slots.set key s, ring := cl.ring ++ [key] } : clock K V)
      = cl.slotNos ++ [s.slotNo] := by
  simp [slotNos, GoMap.set_of_not_mem s hk]

theorem slotNos_delete {cl : clock K V} (hn : cl.slots.keys.Nodup) {key : K} {s : slot V}
    (hg : cl.slots.get key = some s) (r : List K) :
    cl.slotNos.Perm
      (s.slotNo :: slotNos ({ slots := cl.slots.delete key, ring := r } : clock K V)) := by
  have := (GoMap.perm_cons_delete hn hg).map (fun e => e.2.slotNo)
  simpa [slotNos] using this

end clock

namespace GoMap
variable {K α : Type} [DecidableEq K]

/-- Overwriting an element by one with the same image under `f` keeps the images. -/
theorem map_set_of_get {β : Type} (f : K × α → β) {m : GoMap K α} {key : K} {v w : α}
    (hg : get m key = some v) (hf : f (key, w) = f (key, v)) :
    (set m key w).map f = m.map f := by
  induction m with
  | nil => simp [get] at hg
  | cons e m ih =>
    obtain ⟨k0, u⟩ := e
    by_cases h1 : k0 = key
    · subst h1
      simp [get] at hg
      subst hg
      simp [set, hf]
    · simp [get, h1] at hg
      simp [set, h1, ih hg]

end GoMap

namespace lru
variable {K : Type} [DecidableEq K]

theorem WF.size_eq_length {b : lru K} (h : b.WF) : b.size = b.l.length := by
  rw [size, GoMap.len_eq_keys_length]; exact h.length_eq

theorem WF.exist_iff {b : lru K} (h : b.WF) (k : K) : b.exist k = true ↔ k ∈ b.l := by
  rw [exist, GoMap.get_isSome_iff, h.mem_iff]

theorem wf_newLru : (newLru : lru K).WF := by
  simp [WF, newLru]

theorem WF.insertHead {b : lru K} (h : b.WF) {key : K} (hk : key ∉ b.l) :
    (b.insertHead key).WF := by
  unfold WF lru.insertHead at *
  have hk2 : key ∉ b.keys.keys := fun hm => hk (h.mem_iff.mp hm)
  simp only [GoMap.keys_set_of_not_mem () hk2]
  exact (List.perm_append_singleton key _).trans (h.cons key)

theorem filter_ne_eq_erase {l : List K} (hn : l.Nodup) (key : K) :
    l.filter (fun k => decide (k ≠ key)) = l.erase key := by
  rw [hn.erase_eq_filter]
  congr 1
  funext k
  by_cases hk : k = key <;> simp [hk]

theorem WF.remove_eq {b : lru K} (h : b.WF) {key : K} (hk : key ∈ b.l) :
    b.remove key = .done { keys := b.keys.delete key, l := b.l.erase key } := by
  have hlen : b.keys.len ≠ 0 := by
    have := h.size_eq_length
    rw [size] at this
    rw [this]
    exact List.length_pos.mpr (List.ne_nil_of_mem hk) |>.ne'
  simp [remove, hlen, hk]

theorem WF.remove_wf {b : lru K} (h : b.WF) (hn : b.l.Nodup) (key : K) :
    WF ({ keys := b.keys.delete key, l := b.l.erase key } : lru K) := by
  unfold WF at *
  simp only [GoMap.keys_delete]
  rw [← filter_ne_eq_erase hn]
  exact h.filter _

theorem WF.removeTail_eq {b : lru K} (h : b.WF) (hne : b.l ≠ []) :
    b.removeTail = .done { keys := b.keys.delete (b.l.getLast hne), l := b.l.dropLast } := by
  have hlen : b.keys.len ≠ 0 := by
    have := h.size_eq_length
    rw [size] at this
    rw [this]
    exact (List.length_pos.mpr hne).ne'
  simp [removeTail, hlen, List.getLast?_eq_getLast _ hne]

theorem filter_ne_getLast {l : List K} (hn : l.Nodup) (hne : l ≠ []) :
    l.filter (fun k => decide (k ≠ l.getLast hne)) = l.dropLast := by
  rcases List.eq_nil_or_concat l with h | ⟨init, x, h⟩
  · exact absurd h hne
  · rw [List.concat_eq_append] at h
    subst h
    have hx : x ∉ init := by
      intro hm
      have := List.nodup_append.mp hn
      exact this.2.2 hm (List.mem_singleton_self _)
    rw [filter_ne_eq_erase hn]
    simp [List.erase_append_right _ hx]

theorem WF.removeTail_wf {b : lru K} (h : b.WF) (hn : b.l.Nodup) (hne : b.l ≠ []) :
    WF ({ keys := b.keys.delete (b.l.getLast hne), l := b.l.dropLast } : lru K) := by
  unfold WF at *
  simp only [GoMap.keys_delete]
  have h2 := h.filter (fun k => decide (k ≠ b.l.getLast hne))
  rw [filter_ne_getLast hn hne] at h2
  exact h2

end lru
end Car

/-! ### The loops of replaceT1 and replaceT2 -/

namespace Car
namespace CAR
variable {K V : Type} [DecidableEq K]

theorem Shuffle.refl {c : CAR K V} (h1 : c.t1.WF) (h2 : c.t2.WF) : Shuffle c c :=
  { wt1 := h1, wt2 := h2, res := List.Perm.refl _, t1le := le_refl _, nos := List.Perm.refl _,
    info := fun _ => rfl, b1_eq := rfl, b2_eq := rfl, c_eq := rfl, p_eq := rfl,
    full_eq := rfl, slotNo_eq := rfl, calls_eq := rfl }

theorem Shuffle.trans {a b c : CAR K V} (h1 : Shuffle a b) (h2 : Shuffle b c) : Shuffle a c :=
  { wt1 := h2.wt1, wt2 := h2.wt2, res := h2.res.trans h1.res,
    t1le := le_trans h2.t1le h1.t1le, nos := h2.nos.trans h1.nos,
    info := fun k => (h2.info k).trans (h1.info k),
    b1_eq := h2.b1_eq.trans h1.b1_eq, b2_eq := h2.b2_eq.trans h1.b2_eq,
    c_eq := h2.c_eq.trans h1.c_eq, p_eq := h2.p_eq.trans h1.p_eq,
    full_eq := h2.full_eq.trans h1.full_eq, slotNo_eq := h2.slotNo_eq.trans h1.slotNo_eq,
    calls_eq := h2.calls_eq.trans h1.calls_eq }

theorem Shuffle.nodup {a b : CAR K V} (h : Shuffle a b) (hn : (a.t1.ring ++ a.t2.ring).Nodup) :
    (b.t1.ring ++ b.t2.ring).Nodup := h.res.nodup_iff.mpr hn

/-- A pass of `replaceT1` that finds the flag set: the head of T1 goes to the tail of T2. -/
theorem shuffle_demote {c : CAR K V} (h1 : c.t1.WF) (h2 : c.t2.WF)
    (hn : (c.t1.ring ++ c.t2.ring).Nodup) {key : K} {r : List K} {s : slot V}
    (hr : c.t1.ring = key :: r) (hg : c.t1.slots.get key = some s) :
    Shuffle c { c with t1 := { slots := c.t1.slots.delete key, ring := r },
                       t2 := { slots := c.t2.slots.set key { s with ref := refZero },
                               ring := c.t2.ring ++ [key] } } := by
  have hn1 : c.t1.ring.Nodup := (List.nodup_append.mp hn).1
  have hk2 : key ∉ c.t2.ring := by
    intro hm
    exact (List.nodup_append.mp hn).2.2 (by simp [hr]) hm
  have hk2' : key ∉ c.t2.slots.keys := fun hm => hk2 ((h2.mem_iff key).mp hm)
  refine { wt1 := h1.delete_head hn1 hr, wt2 := h2.set_tail hk2 _, res := ?_, t1le := ?_,
           nos := ?_, info := ?_, b1_eq := rfl, b2_eq := rfl, c_eq := rfl, p_eq := rfl,
           full_eq := rfl, slotNo_eq := rfl, calls_eq := rfl }
  · simp only [hr]
    apply perm_of_count
    intro a
    simp only [List.count_append, List.count_cons, List.count_nil]
    omega
  · simp [hr]
  · simp only [clock.slotNos_set_of_not_mem hk2']
    have hp := clock.slotNos_delete (h1.keys_nodup hn1) hg r
    have e : (c.t1.slotNos ++ c.t2.slotNos).Perm
        ((s.slotNo :: clock.slotNos ({ slots := c.t1.slots.delete key, ring := r } : clock K V))
          ++ c.t2.slotNos) := hp.append_right _
    refine List.Perm.trans ?_ e.symm
    apply perm_of_count
    intro a
    simp only [List.count_append, List.count_cons, List.count_nil, List.cons_append]
    omega
  · intro k
    simp only [resident, clock.getSlot, GoMap.get_delete, GoMap.get_set]
    by_cases hk : key = k
    · subst hk
      simp [hg, slot.info]
    · simp [hk]

/-- A pass of `replaceT2` that finds the flag set: the flag is cleared and the head of T2
becomes its tail. -/
theorem shuffle_rotate {c : CAR K V} (h1 : c.t1.WF) (h2 : c.t2.WF)
    {key : K} {r : List K} {s : slot V}
    (hr : c.t2.ring = key :: r) (hg : c.t2.slots.get key = some s) :
    Shuffle c
      { c with t2 := clock.next { c.t2 with slots := c.t2.slots.set key { s with ref := refZero } } } := by
  have hk : key ∈ c.t2.ring := by simp [hr]
  have hw : clock.WF ({ c.t2 with slots := c.t2.slots.set key { s with ref := refZero } } :
      clock K V) := h2.set_mem hk _
  refine { wt1 := h1, wt2 := hw.next, res := ?_, t1le := le_refl _,
           nos := ?_, info := ?_, b1_eq := rfl, b2_eq := rfl, c_eq := rfl, p_eq := rfl,
           full_eq := rfl, slotNo_eq := rfl, calls_eq := rfl }
  · simp only [clock.next, hr]
    apply perm_of_count
    intro a
    simp only [List.count_append, List.count_cons, List.count_nil]
    omega
  · have e : clock.slotNos (clock.next
        ({ c.t2 with slots := c.t2.slots.set key { s with ref := refZero } } : clock K V))
        = c.t2.slotNos := by
      simp only [clock.next, hr, clock.slotNos]
      exact GoMap.map_set_of_get _ hg rfl
    simp only [e]
    exact List.Perm.refl _
  · intro k
    have e : (clock.next
        ({ c.t2 with slots := c.t2.slots.set key { s with ref := refZero } } : clock K V)).slots
        = c.t2.slots.set key { s with ref := refZero } := by
      simp only [clock.next, hr]
    simp only [resident, clock.getSlot, e, GoMap.get_set]
    by_cases hk : key = k
    · subst hk
      cases c.t1.slots.get key <;> simp [hg, slot.info]
    · simp [hk]

/-- What `replaceT1` returns: the resident entries are shuffled, then the head of T1,
whose flag is unset, is moved to B1. -/
theorem replaceT1Loop_done (cb : Callbacks K V) (n : Nat) :
    ∀ (c : CAR K V), c.t1.WF → c.t2.WF → (c.t1.ring ++ c.t2.ring).Nodup →
    ∀ s c1, replaceT1Loop cb n c = .done (s, c1) →
    ∃ c0 ek, Shuffle c c0 ∧ c0.t1.ring.head? = some ek ∧ c0.t1.slots.get ek = some s ∧
      s.ref = refZero ∧ c1 = evictT1 cb c0 ek s := by
  induction n with
  | zero => intro c _ _ _ s c1 h; simp [replaceT1Loop] at h
  | succ n ih =>
    intro c h1 h2 hn s c1 h
    cases hr : c.t1.ring with
    | nil =>
      rw [replaceT1Loop, h1.removeHead_nil hr] at h
      simp at h
    | cons key r =>
      rw [replaceT1Loop, h1.removeHead_cons hr] at h
      obtain ⟨s0, hg⟩ := h1.get_of_mem (k := key) (by simp [hr])
      simp only [hg] at h
      by_cases hz : s0.ref = refZero
      · simp only [hz, ↓reduceIte, Outcome.done.injEq, Prod.mk.injEq] at h
        obtain ⟨rfl, rfl⟩ := h
        refine ⟨c, key, Shuffle.refl h1 h2, by simp [hr], hg, hz, ?_⟩
        simp [evictT1, hr]
      · simp only [hz, ↓reduceIte, h2.insertTail_eq] at h
        have hsh := shuffle_demote h1 h2 hn hr hg
        obtain ⟨c0, ek, hs, rest⟩ := ih _ hsh.wt1 hsh.wt2 (hsh.nodup hn) s c1 h
        exact ⟨c0, ek, hsh.trans hs, rest⟩

end CAR

theorem GoMap.len_delete_lt {K α : Type} [DecidableEq K] {m : GoMap K α} {key : K} {v : α}
    (h : GoMap.get m key = some v) : (GoMap.delete m key).len < m.len := by
  induction m with
  | nil => simp [GoMap.get] at h
  | cons e m ih =>
    obtain ⟨k0, w⟩ := e
    have hle : ∀ (m : GoMap K α), (GoMap.delete m key).len ≤ m.len := by
      intro m
      induction m with
      | nil => simp [GoMap.delete]
      | cons e m ih2 =>
        obtain ⟨k1, w1⟩ := e
        by_cases h1 : k1 = key
        · simp only [GoMap.delete, h1, ↓reduceIte, GoMap.len, List.length_cons] at *
          omega
        · simp only [GoMap.delete, h1, ↓reduceIte, GoMap.len, List.length_cons] at *
          omega
    by_cases h1 : k0 = key
    · have := hle m
      simp only [GoMap.delete, h1, ↓reduceIte, GoMap.len, List.length_cons] at *
      omega
    · simp only [GoMap.get, h1, ↓reduceIte] at h
      have := ih h
      simp only [GoMap.delete, h1, ↓reduceIte, GoMap.len, List.length_cons] at *
      omega

theorem clock.removeHead_cases {K V : Type} [DecidableEq K] (cl : clock K V) :
    cl.removeHead = .panic ∨ (cl.removeHead = .done (none, cl) ∧ cl.slots.len = 0) ∨
    ∃ key r, cl.removeHead = .done (some (key, cl.slots.get key),
      { slots := cl.slots.delete key, ring := r }) := by
  unfold clock.removeHead
  split
  · right; left; simp_all
  · split
    · left; rfl
    · right; right; exact ⟨_, _, rfl⟩
  · split
    · left; rfl
    · right; right; exact ⟨_, _, rfl⟩
    · right; right; exact ⟨_, _, rfl⟩

theorem clock.insertTail_cases {K V : Type} [DecidableEq K] (cl : clock K V) (key : K) (s : slot V) :
    cl.insertTail key s = .panic ∨
    ∃ r, cl.insertTail key s = .done { slots := cl.slots.set key s, ring := r } := by
  unfold clock.insertTail
  split
  · right; exact ⟨_, rfl⟩
  · split
    · left; rfl
    · right; exact ⟨_, rfl⟩

/-- Clearing a set flag lowers the number of slots whose reference flag is set. -/
theorem GoMap.countSet_set {K V : Type} [DecidableEq K] {m : GoMap K (slot V)} {key : K} {s : slot V}
    (hg : GoMap.get m key = some s) (hz : s.ref ≠ refZero) :
    ((GoMap.set m key { s with ref := refZero }).filter (fun e => decide (e.2.ref ≠ refZero))).length
      < (m.filter (fun e => decide (e.2.ref ≠ refZero))).length := by
  induction m with
  | nil => simp [GoMap.get] at hg
  | cons e m ih =>
    obtain ⟨k0, w⟩ := e
    by_cases h1 : k0 = key
    · subst h1
      simp only [GoMap.get, ↓reduceIte, Option.some.injEq] at hg
      subst hg
      simp [GoMap.set, List.filter_cons, hz]
    · simp only [GoMap.get, h1, ↓reduceIte] at hg
      have := ih hg
      simp only [GoMap.set, h1, ↓reduceIte, List.filter_cons]
      split <;> simp_all

namespace CAR
variable {K V : Type} [DecidableEq K]

/-- The pass budget of `replaceT1` is never used up, in any state. -/
theorem replaceT1Loop_ne_fuel (cb : Callbacks K V) (n : Nat) :
    ∀ (c : CAR K V), c.t1.slots.len < n → replaceT1Loop cb n c ≠ .fuel := by
  induction n with
  | zero => intro c h; omega
  | succ n ih =>
    intro c hlt
    rw [replaceT1Loop]
    rcases clock.removeHead_cases c.t1 with h | ⟨h, _⟩ | ⟨key, r, h⟩
    · simp [h]
    · simp [h]
    · rw [h]
      cases hg : c.t1.slots.get key with
      | none => simp
      | some s =>
        simp only
        by_cases hz : s.ref = refZero
        · simp [hz]
        · simp only [hz, ↓reduceIte]
          rcases clock.insertTail_cases c.t2 key { s with ref := refZero } with h2 | ⟨r2, h2⟩
          · simp [h2]
          · rw [h2]
            simp only
            apply ih
            have := GoMap.len_delete_lt hg
            simp only
            omega

theorem replaceT1_ne_fuel (cb : Callbacks K V) (c : CAR K V) : replaceT1 cb c ≠ .fuel :=
  replaceT1Loop_ne_fuel cb _ c (by simp [clock.size])

/-- What `replaceT2` returns: the resident entries are shuffled, then the head of T2,
whose flag is unset, is moved to B2. -/
theorem replaceT2Loop_done (cb : Callbacks K V) (n : Nat) :
    ∀ (c : CAR K V), c.t1.WF → c.t2.WF →
    ∀ s c1, replaceT2Loop cb n c = .done (s, c1) →
    ∃ c0 ek, Shuffle c c0 ∧ c0.t2.ring.head? = some ek ∧ c0.t2.slots.get ek = some s ∧
      s.ref = refZero ∧ c1 = evictT2 cb c0 ek s := by
  induction n with
  | zero => intro c _ _ s c1 h; simp [replaceT2Loop] at h
  | succ n ih =>
    intro c h1 h2 s c1 h
    cases hr : c.t2.ring with
    | nil =>
      simp [replaceT2Loop, clock.getHead, hr] at h
    | cons key r =>
      obtain ⟨s0, hg⟩ := h2.get_of_mem (k := key) (by simp [hr])
      have hh : c.t2.getHead = some (key, some s0) := by simp [clock.getHead, hr, hg]
      rw [replaceT2Loop] at h
      simp only [hh] at h
      by_cases hz : s0.ref = refZero
      · simp only [hz, ↓reduceIte, h2.removeHead_cons hr, Outcome.done.injEq,
          Prod.mk.injEq] at h
        obtain ⟨rfl, rfl⟩ := h
        refine ⟨c, key, Shuffle.refl h1 h2, by simp [hr], hg, hz, ?_⟩
        simp [evictT2, hr]
      · simp only [hz, ↓reduceIte] at h
        have hsh := shuffle_rotate h1 h2 hr hg
        obtain ⟨c0, ek, hs, rest⟩ := ih _ hsh.wt1 hsh.wt2 s c1 h
        exact ⟨c0, ek, hsh.trans hs, rest⟩

/-- The pass budget of `replaceT2` is never used up, in any state. -/
theorem replaceT2Loop_ne_fuel (cb : Callbacks K V) (n : Nat) :
    ∀ (c : CAR K V),
      (c.t2.slots.filter (fun e => decide (e.2.ref ≠ refZero))).length < n →
      replaceT2Loop cb n c ≠ .fuel := by
  induction n with
  | zero => intro c h; omega
  | succ n ih =>
    intro c hlt
    rw [replaceT2Loop]
    cases hh : c.t2.getHead with
    | none => simp
    | some p =>
      obtain ⟨key, os⟩ := p
      cases os with
      | none => simp
      | some s =>
        have hg : c.t2.slots.get key = some s := by
          unfold clock.getHead at hh
          split at hh
          · simp at hh
          · simp only [Option.some.injEq, Prod.mk.injEq] at hh
            rw [← hh.1]; exact hh.2
        simp only
        by_cases hz : s.ref = refZero
        · simp only [hz, ↓reduceIte]
          rcases clock.removeHead_cases c.t2 with h | ⟨h, _⟩ | ⟨k2, r, h⟩
          · simp [h]
          · simp [h]
          · simp [h]
        · simp only [hz, ↓reduceIte]
          apply ih
          have := GoMap.countSet_set hg hz
          have e : (clock.next ({ c.t2 with slots := c.t2.slots.set key { s with ref := refZero } } :
              clock K V)).slots = c.t2.slots.set key { s with ref := refZero } := by
            unfold clock.next
            split <;> rfl
          simp only [e]
          omega

theorem replaceT2_ne_fuel (cb : Callbacks K V) (c : CAR K V) : replaceT2 cb c ≠ .fuel := by
  apply replaceT2Loop_ne_fuel
  have := List.length_filter_le (fun e => decide (e.2.ref ≠ refZero)) c.t2.slots
  simp only [clock.size, GoMap.len]
  omega

end CAR
end Car

/-! ### The invariant through an eviction -/

namespace Car
namespace CAR
variable {K V : Type} [DecidableEq K]

@[simp] theorem notifyReplace_t1 (cb : Callbacks K V) (c : CAR K V) (k : K) (s : slot V) :
    (notifyReplace cb c k s).t1 = c.t1 := by unfold notifyReplace; split <;> rfl
@[simp] theorem notifyReplace_t2 (cb : Callbacks K V) (c : CAR K V) (k : K) (s : slot V) :
    (notifyReplace cb c k s).t2 = c.t2 := by unfold notifyReplace; split <;> rfl
@[simp] theorem notifyReplace_b1 (cb : Callbacks K V) (c : CAR K V) (k : K) (s : slot V) :
    (notifyReplace cb c k s).b1 = c.b1 := by unfold notifyReplace; split <;> rfl
@[simp] theorem notifyReplace_b2 (cb : Callbacks K V) (c : CAR K V) (k : K) (s : slot V) :
    (notifyReplace cb c k s).b2 = c.b2 := by unfold notifyReplace; split <;> rfl
@[simp] theorem notifyReplace_c (cb : Callbacks K V) (c : CAR K V) (k : K) (s : slot V) :
    (notifyReplace cb c k s).c = c.c := by unfold notifyReplace; split <;> rfl
@[simp] theorem notifyReplace_p (cb : Callbacks K V) (c : CAR K V) (k : K) (s : slot V) :
    (notifyReplace cb c k s).p = c.p := by unfold notifyReplace; split <;> rfl
@[simp] theorem notifyReplace_full (cb : Callbacks K V) (c : CAR K V) (k : K) (s : slot V) :
    (notifyReplace cb c k s).full = c.full := by unfold notifyReplace; split <;> rfl
@[simp] theorem notifyReplace_slotNo (cb : Callbacks K V) (c : CAR K V) (k : K) (s : slot V) :
    (notifyReplace cb c k s).slotNo = c.slotNo := by unfold notifyReplace; split <;> rfl

theorem notifyReplace_calls (cb : Callbacks K V) (c : CAR K V) (k : K) (s : slot V) :
    (notifyReplace cb c k s).calls
      = c.calls ++ (if cb.cbReplaceValue then [Call.replace k s.value s.slotNo] else []) := by
  unfold notifyReplace; split <;> simp

/-- The invariant only reads the directory, the slot numbers and the counters. -/
theorem InvG.congr {held : List Nat} {c c1 : CAR K V} (h : InvG held c)
    (e1 : c1.t1 = c.t1) (e2 : c1.t2 = c.t2) (e3 : c1.b1 = c.b1) (e4 : c1.b2 = c.b2)
    (e5 : c1.c = c.c) (e6 : c1.p = c.p) (e7 : c1.full = c.full) (e8 : c1.slotNo = c.slotNo) :
    InvG held c1 := by
  obtain ⟨a1, a2, a3, a4, a5, a6, a7, a8, a9, a10, a11, a12, a13, a14⟩ := h
  constructor <;> simp only [dir, e1, e2, e3, e4, e5, e6, e7, e8] at * <;> assumption

theorem InvG.notify {held : List Nat} {c : CAR K V} (h : InvG held c) (cb : Callbacks K V)
    (k : K) (s : slot V) : InvG held (notifyReplace cb c k s) :=
  h.congr (by simp) (by simp) (by simp) (by simp) (by simp) (by simp) (by simp) (by simp)

theorem InvG.nodup12 {held : List Nat} {c : CAR K V} (h : InvG held c) :
    (c.t1.ring ++ c.t2.ring).Nodup := by
  have := h.nodup
  simp only [dir, List.append_assoc] at this
  rw [← List.append_assoc] at this
  exact (List.nodup_append.mp this).1

theorem Shuffle.invG {held : List Nat} {c c0 : CAR K V} (h : InvG held c) (hs : Shuffle c c0) :
    InvG held c0 := by
  have hlen := hs.res.length_eq
  simp only [List.length_append] at hlen
  have ht := hs.t1le
  refine { wt1 := hs.wt1, wt2 := hs.wt2, wb1 := by rw [hs.b1_eq]; exact h.wb1,
           wb2 := by rw [hs.b2_eq]; exact h.wb2, nodup := ?_, nos := ?_,
           cpos := by rw [hs.c_eq]; exact h.cpos, p0 := by rw [hs.p_eq]; exact h.p0,
           pc := by rw [hs.p_eq, hs.c_eq]; exact h.pc, i1 := ?_, i2 := ?_, i4 := ?_,
           i7 := ?_, ghost := by rw [hs.b1_eq, hs.b2_eq, hs.full_eq]; exact h.ghost }
  · have hp : c0.dir.Perm c.dir := by
      simp only [dir, hs.b1_eq, hs.b2_eq]
      exact (hs.res.append_right _).append_right _
    exact hp.nodup_iff.mpr h.nodup
  · rw [hs.slotNo_eq]
    exact (hs.nos.append_left held).trans h.nos
  · have := h.i1; rw [hs.c_eq]; omega
  · have := h.i2; rw [hs.c_eq, hs.b1_eq]; omega
  · have := h.i4; rw [hs.c_eq, hs.b1_eq, hs.b2_eq]; omega
  · have := h.i7; rw [hs.c_eq, hs.full_eq]; intro hf; have := this hf; omega

/-- The last pass of `replaceT1` from a full cache leaves the invariant with one slot held. -/
theorem evictT1_invG (cb : Callbacks K V) {c : CAR K V} (h : InvG [] c) {ek : K} {s : slot V}
    (hh : c.t1.ring.head? = some ek) (hg : c.t1.slots.get ek = some s)
    (hc : ((c.t1.ring.length + c.t2.ring.length : Nat) : Int) = c.c) (hf : c.full = true) :
    InvG [s.slotNo] (evictT1 cb c ek s) := by
  obtain ⟨r, hr⟩ : ∃ r, c.t1.ring = ek :: r := by
    cases hr : c.t1.ring with
    | nil => simp [hr] at hh
    | cons a r => simp [hr] at hh; exact ⟨r, by rw [hh]⟩
  have hnd := h.nodup
  have hn1 : c.t1.ring.Nodup := (List.nodup_append.mp h.nodup12).1
  have hkb : ek ∉ c.b1.l := by
    simp only [dir, hr] at hnd
    intro hm
    have := List.nodup_append.mp (List.nodup_append.mp hnd).1
    exact this.2.2 (by simp) hm
  apply InvG.notify
  have i1 := h.i1; have i2 := h.i2; have i4 := h.i4; have i7 := h.i7
  simp only [hr, List.length_cons, List.length_nil] at i1 i2 i4 i7 hc
  refine { wt1 := ?_, wt2 := h.wt2, wb1 := h.wb1.insertHead hkb, wb2 := h.wb2, nodup := ?_,
           nos := ?_, cpos := h.cpos, p0 := h.p0, pc := h.pc, i1 := ?_, i2 := ?_, i4 := ?_,
           i7 := ?_, ghost := ?_ }
  · simp only [hr, List.tail_cons]; exact h.wt1.delete_head hn1 hr
  · refine (List.Perm.nodup_iff ?_).mpr hnd
    simp only [dir, hr, List.tail_cons, lru.insertHead]
    apply perm_of_count
    intro a
    simp only [List.count_append, List.count_cons, List.count_nil]
    omega
  · have hp := clock.slotNos_delete (h.wt1.keys_nodup hn1) hg c.t1.ring.tail
    have h0 := h.nos
    simp only [List.nil_append] at h0
    refine List.Perm.trans ?_ h0
    dsimp only
    simp only [List.singleton_append, List.cons_append]
    exact (hp.append_right _).symm
  · simp only [List.tail_cons, hr, List.length_cons, List.length_nil]; omega
  · simp only [List.tail_cons, hr, List.length_cons, lru.insertHead]; omega
  · simp only [List.tail_cons, hr, List.length_cons, lru.insertHead]; omega
  · intro _; simp only [List.tail_cons, hr, List.length_cons, List.length_nil]; omega
  · intro hf2
    have hf3 : c.full = false := hf2
    rw [hf] at hf3
    exact absurd hf3 (by simp)

/-- The last pass of `replaceT2` from a full cache leaves the invariant with one slot held. -/
theorem evictT2_invG (cb : Callbacks K V) {c : CAR K V} (h : InvG [] c) {ek : K} {s : slot V}
    (hh : c.t2.ring.head? = some ek) (hg : c.t2.slots.get ek = some s)
    (hc : ((c.t1.ring.length + c.t2.ring.length : Nat) : Int) = c.c) (hf : c.full = true) :
    InvG [s.slotNo] (evictT2 cb c ek s) := by
  obtain ⟨r, hr⟩ : ∃ r, c.t2.ring = ek :: r := by
    cases hr : c.t2.ring with
    | nil => simp [hr] at hh
    | cons a r => simp [hr] at hh; exact ⟨r, by rw [hh]⟩
  have hnd := h.nodup
  have hn2 : c.t2.ring.Nodup := (List.nodup_append.mp h.nodup12).2.1
  have hkb : ek ∉ c.b2.l := by
    simp only [dir, hr] at hnd
    intro hm
    have h3 := (List.nodup_append.mp hnd).2.2
    exact h3 (by simp) hm
  apply InvG.notify
  have i1 := h.i1; have i2 := h.i2; have i4 := h.i4; have i7 := h.i7
  simp only [hr, List.length_cons, List.length_nil] at i1 i2 i4 i7 hc
  refine { wt1 := h.wt1, wt2 := ?_, wb1 := h.wb1, wb2 := h.wb2.insertHead hkb, nodup := ?_,
           nos := ?_, cpos := h.cpos, p0 := h.p0, pc := h.pc, i1 := ?_, i2 := ?_, i4 := ?_,
           i7 := ?_, ghost := ?_ }
  · simp only [hr, List.tail_cons]; exact h.wt2.delete_head hn2 hr
  · refine (List.Perm.nodup_iff ?_).mpr hnd
    simp only [dir, hr, List.tail_cons, lru.insertHead]
    apply perm_of_count
    intro a
    simp only [List.count_append, List.count_cons, List.count_nil]
    omega
  · have hp := clock.slotNos_delete (h.wt2.keys_nodup hn2) hg c.t2.ring.tail
    have h0 := h.nos
    simp only [List.nil_append] at h0
    refine List.Perm.trans ?_ h0
    dsimp only
    refine List.Perm.trans ?_ (hp.symm.append_left _)
    apply perm_of_count
    intro a
    simp only [List.count_append, List.count_cons, List.count_nil]
    omega
  · simp only [List.tail_cons, hr, List.length_cons, List.length_nil]; omega
  · simp only [List.tail_cons, hr, List.length_cons, lru.insertHead]; omega
  · simp only [List.tail_cons, hr, List.length_cons, lru.insertHead]; omega
  · intro _; simp only [List.tail_cons, hr, List.length_cons, List.length_nil]; omega
  · intro hf2
    have hf3 : c.full = false := hf2
    rw [hf] at hf3
    exact absurd hf3 (by simp)

/-- Dropping the tail of B1 keeps the invariant. -/
theorem InvG.trimB1 {held : List Nat} {c : CAR K V} (h : InvG held c) (hne : c.b1.l ≠ []) :
    InvG held { c with b1 := { keys := c.b1.keys.delete (c.b1.l.getLast hne), l := c.b1.l.dropLast } } := by
  have hnd := h.nodup
  have hb1 : c.b1.l.Nodup := by
    simp only [dir] at hnd
    exact (List.nodup_append.mp (List.nodup_append.mp hnd).1).2.1
  have hlen : c.b1.l.dropLast.length + 1 = c.b1.l.length := by
    have := List.length_pos.mpr hne
    simp only [List.length_dropLast]; omega
  have i2 := h.i2; have i4 := h.i4
  refine { wt1 := h.wt1, wt2 := h.wt2, wb1 := h.wb1.removeTail_wf hb1 hne, wb2 := h.wb2,
           nodup := ?_, nos := h.nos, cpos := h.cpos, p0 := h.p0, pc := h.pc, i1 := h.i1,
           i2 := ?_, i4 := ?_, i7 := h.i7, ghost := ?_ }
  · refine List.Nodup.sublist ?_ hnd
    simp only [dir]
    exact ((List.Sublist.refl _).append (List.dropLast_sublist _)).append (List.Sublist.refl _)
  · dsimp only; omega
  · dsimp only; omega
  · intro hf
    have := h.ghost hf
    exact absurd this.1 hne

/-- Dropping the tail of B2 keeps the invariant. -/
theorem InvG.trimB2 {held : List Nat} {c : CAR K V} (h : InvG held c) (hne : c.b2.l ≠ []) :
    InvG held { c with b2 := { keys := c.b2.keys.delete (c.b2.l.getLast hne), l := c.b2.l.dropLast } } := by
  have hnd := h.nodup
  have hb2 : c.b2.l.Nodup := by
    simp only [dir] at hnd
    exact (List.nodup_append.mp hnd).2.1
  have hlen : c.b2.l.dropLast.length + 1 = c.b2.l.length := by
    have := List.length_pos.mpr hne
    simp only [List.length_dropLast]; omega
  have i2 := h.i2; have i4 := h.i4
  refine { wt1 := h.wt1, wt2 := h.wt2, wb1 := h.wb1, wb2 := h.wb2.removeTail_wf hb2 hne,
           nodup := ?_, nos := h.nos, cpos := h.cpos, p0 := h.p0, pc := h.pc, i1 := h.i1,
           i2 := h.i2, i4 := ?_, i7 := h.i7, ghost := ?_ }
  · refine List.Nodup.sublist ?_ hnd
    simp only [dir]
    exact (List.Sublist.refl _).append (List.dropLast_sublist _)
  · dsimp only; omega
  · intro hf
    have := h.ghost hf
    exact absurd this.2 hne

end CAR
end Car

/-! ### The first part of a miss -/

namespace Car
namespace CAR
variable {K V : Type} [DecidableEq K]

/-- The directory replacement never panics after an eviction, keeps the invariant, and
makes room for a key that is in neither ghost list. -/
theorem trimDir_done {n : Nat} {c : CAR K V} (h : InvG [n] c) (inB1 inB2 : Bool) :
    ∃ c1, trimDir c inB1 inB2 = .done c1 ∧ InvG [n] c1 ∧
      c1.t1 = c.t1 ∧ c1.t2 = c.t2 ∧ c1.calls = c.calls ∧ c1.c = c.c ∧ c1.p = c.p ∧
      c1.full = c.full ∧ c1.slotNo = c.slotNo ∧
      c1.b1.l.Sublist c.b1.l ∧ c1.b2.l.Sublist c.b2.l ∧
      ((inB1 = true ∨ inB2 = true) → c1 = c) ∧
      (inB1 = false → inB2 = false →
        ((c1.t1.ring.length + c1.b1.l.length + 1 : Nat) : Int) ≤ c1.c ∧
        ((c1.t1.ring.length + c1.t2.ring.length + c1.b1.l.length + c1.b2.l.length + 1 : Nat) : Int)
          ≤ 2 * c1.c) := by
  have i1 := h.i1; have i2 := h.i2; have i4 := h.i4
  simp only [List.length_singleton] at i1
  unfold trimDir
  simp only [h.wt1.size_eq, h.wt2.size_eq, h.wb1.size_eq_length, h.wb2.size_eq_length]
  by_cases hb : (!inB1 && !inB2) = true
  · have hb1 : inB1 = false := by cases inB1 <;> simp_all
    have hb2 : inB2 = false := by cases inB2 <;> simp_all
    simp only [hb, ↓reduceIte]
    by_cases hc1 : ((c.t1.ring.length + c.b1.l.length : Nat) : Int) = c.c
    · have hne : c.b1.l ≠ [] := by
        intro he
        rw [he] at hc1
        simp only [List.length_nil] at hc1
        omega
      have hlen : c.b1.l.dropLast.length + 1 = c.b1.l.length := by
        have := List.length_pos.mpr hne
        simp only [List.length_dropLast]; omega
      simp only [hc1, ↓reduceIte, h.wb1.removeTail_eq hne]
      refine ⟨_, rfl, h.trimB1 hne, rfl, rfl, rfl, rfl, rfl, rfl, rfl,
        List.dropLast_sublist _, List.Sublist.refl _, ?_, ?_⟩
      · intro hh; rcases hh with hh | hh <;> simp_all
      · intro _ _; dsimp only; constructor <;> omega
    · simp only [hc1, ↓reduceIte]
      by_cases hc2 : ((c.t1.ring.length + c.t2.ring.length + c.b1.l.length + c.b2.l.length : Nat)
          : Int) = 2 * c.c
      · have hne : c.b2.l ≠ [] := by
          intro he
          rw [he] at hc2
          simp only [List.length_nil] at hc2
          omega
        have hlen : c.b2.l.dropLast.length + 1 = c.b2.l.length := by
          have := List.length_pos.mpr hne
          simp only [List.length_dropLast]; omega
        simp only [hc2, ↓reduceIte, h.wb2.removeTail_eq hne]
        refine ⟨_, rfl, h.trimB2 hne, rfl, rfl, rfl, rfl, rfl, rfl, rfl,
          List.Sublist.refl _, List.dropLast_sublist _, ?_, ?_⟩
        · intro hh; rcases hh with hh | hh <;> simp_all
        · intro _ _; dsimp only; constructor <;> omega
      · simp only [hc2, ↓reduceIte]
        refine ⟨_, rfl, h, rfl, rfl, rfl, rfl, rfl, rfl, rfl,
          List.Sublist.refl _, List.Sublist.refl _, fun _ => rfl, ?_⟩
        intro _ _; constructor <;> omega
  · simp only [hb, Bool.false_eq_true, ↓reduceIte]
    refine ⟨_, rfl, h, rfl, rfl, rfl, rfl, rfl, rfl, rfl,
      List.Sublist.refl _, List.Sublist.refl _, fun _ => rfl, ?_⟩
    intro h1 h2
    simp [h1, h2] at hb

/-- The invariant with `full` set, on a cache whose clocks hold `c` entries. -/
theorem InvG.setFull {c : CAR K V} (h : InvG [] c)
    (hc : ((c.t1.ring.length + c.t2.ring.length : Nat) : Int) = c.c) :
    InvG [] { c with full := true } := by
  refine { wt1 := h.wt1, wt2 := h.wt2, wb1 := h.wb1, wb2 := h.wb2, nodup := h.nodup,
           nos := h.nos, cpos := h.cpos, p0 := h.p0, pc := h.pc, i1 := h.i1, i2 := h.i2,
           i4 := h.i4, i7 := ?_, ghost := ?_ }
  · intro _; simpa using hc
  · intro hf; simp at hf

/-- The shape of a completed first part of a miss: either the clocks are not full and a
new slot is made, or the resident entries are shuffled, the head of T1 or of T2 is
evicted, and the directory is trimmed. -/
theorem evict_cases (cb : Callbacks K V) {c : CAR K V} (h : Inv c) {inB1 inB2 : Bool}
    {s : slot V} {c2 : CAR K V} (he : evict cb c inB1 inB2 = .done (s, c2)) :
    (((c.t1.ring.length + c.t2.ring.length : Nat) : Int) ≠ c.c ∧ s = newSlot c.slotNo ∧
      c2 = { c with slotNo := c.slotNo + 1 }) ∨
    (((c.t1.ring.length + c.t2.ring.length : Nat) : Int) = c.c ∧ s.ref = refZero ∧
      ∃ c0 ek c1, Shuffle { c with full := true } c0 ∧
        ((c0.t1.ring.head? = some ek ∧ c0.t1.slots.get ek = some s ∧ c1 = evictT1 cb c0 ek s) ∨
         (c0.t2.ring.head? = some ek ∧ c0.t2.slots.get ek = some s ∧ c1 = evictT2 cb c0 ek s)) ∧
        trimDir c1 inB1 inB2 = .done c2) := by
  unfold evict at he
  simp only [h.wt1.size_eq, h.wt2.size_eq] at he
  by_cases hc : ((c.t1.ring.length + c.t2.ring.length : Nat) : Int) = c.c
  · right
    simp only [hc, ↓reduceIte] at he
    refine ⟨hc, ?_⟩
    have hfull := InvG.setFull h hc
    split at he
    · simp at he
    · simp at he
    · rename_i s1 c1 hrep
      split at he
      · simp at he
      · simp at he
      · rename_i c3 htrim
        simp only [Outcome.done.injEq, Prod.mk.injEq] at he
        obtain ⟨rfl, rfl⟩ := he
        split at hrep
        · obtain ⟨c0, ek, hs, hh, hg, hz, rfl⟩ :=
            replaceT1Loop_done cb _ _ hfull.wt1 hfull.wt2 hfull.nodup12 _ _ hrep
          exact ⟨hz, c0, ek, _, hs, Or.inl ⟨hh, hg, rfl⟩, htrim⟩
        · obtain ⟨c0, ek, hs, hh, hg, hz, rfl⟩ :=
            replaceT2Loop_done cb _ _ hfull.wt1 hfull.wt2 _ _ hrep
          exact ⟨hz, c0, ek, _, hs, Or.inr ⟨hh, hg, rfl⟩, htrim⟩
  · left
    simp only [hc, ↓reduceIte, Outcome.done.injEq, Prod.mk.injEq] at he
    exact ⟨hc, he.1.symm, he.2.symm⟩

end CAR
end Car

/-! ### The state before the placement -/

namespace Car
namespace CAR
variable {K V : Type} [DecidableEq K]

theorem Shuffle.mem_res {c c0 : CAR K V} (hs : Shuffle c c0) (k : K) :
    (k ∈ c0.t1.ring ∨ k ∈ c0.t2.ring) ↔ (k ∈ c.t1.ring ∨ k ∈ c.t2.ring) := by
  have := hs.res.mem_iff (a := k)
  simpa only [List.mem_append] using this

theorem Shuffle.len_res {c c0 : CAR K V} (hs : Shuffle c c0) :
    c0.t1.ring.length + c0.t2.ring.length = c.t1.ring.length + c.t2.ring.length := by
  have := hs.res.length_eq
  simpa only [List.length_append] using this

theorem mem_of_head? {α : Type} {l : List α} {a : α} (h : l.head? = some a) :
    l = a :: l.tail := by
  cases l with
  | nil => simp at h
  | cons b r => simp at h; simp [h]

/-- After the first part of a miss on a key that is not resident, the cache is ready
for the placement of the key. -/
theorem evict_ready (cb : Callbacks K V) {c : CAR K V} (h : Inv c) {key : K}
    (h1 : key ∉ c.t1.ring) (h2 : key ∉ c.t2.ring) {s : slot V} {c2 : CAR K V}
    (he : evict cb c (c.b1.exist key) (c.b2.exist key) = .done (s, c2)) :
    Ready key (c.b1.exist key) (c.b2.exist key) s c2 := by
  have hx1 := h.wb1.exist_iff key
  have hx2 := h.wb2.exist_iff key
  rcases evict_cases cb h he with ⟨hc, rfl, rfl⟩ | ⟨hc, hz, c0, ek, c1, hs, hev, htrim⟩
  · -- a new slot
    have i1 := h.i1; have i2 := h.i2; have i4 := h.i4
    simp only [List.length_nil] at i1
    have hnf : c.full = false := by
      cases hf : c.full with
      | false => rfl
      | true => have := h.i7 hf; simp only [List.length_nil] at this; omega
    have hg := h.ghost hnf
    refine { inv := ?_, nt1 := h1, nt2 := h2, mb1 := ?_, mb2 := ?_, nb := ?_, room1 := ?_,
             room2 := ?_ }
    · refine { wt1 := h.wt1, wt2 := h.wt2, wb1 := h.wb1, wb2 := h.wb2, nodup := h.nodup,
               nos := ?_, cpos := h.cpos, p0 := h.p0, pc := h.pc, i1 := ?_, i2 := h.i2,
               i4 := h.i4, i7 := ?_, ghost := h.ghost }
      · have h0 := h.nos
        simp only [List.nil_append] at h0
        simp only [newSlot, List.range_succ, List.singleton_append]
        exact (List.perm_append_singleton _ _).symm.trans (h0.append_right _)
      · simp only [newSlot, List.length_singleton]; omega
      · intro hf; dsimp only at hf; rw [hnf] at hf; simp at hf
    · intro hb; exact hx1.mp hb
    · intro hb; exact hx2.mp hb
    · intro _ _; simp [hg.1, hg.2]
    · intro _ _; simp only [hg.1, List.length_nil]; omega
    · intro _ _; simp only [hg.1, hg.2, List.length_nil]; omega
  · -- an eviction
    have hfull := InvG.setFull h hc
    have h0 : InvG [] c0 := hs.invG hfull
    have hlen := hs.len_res
    dsimp only at hlen
    have hc0 : ((c0.t1.ring.length + c0.t2.ring.length : Nat) : Int) = c0.c := by
      rw [hs.c_eq, hlen]; exact hc
    have hf0 : c0.full = true := by rw [hs.full_eq]
    have hres := hs.mem_res
    dsimp only at hres
    have hk0 : key ∉ c0.t1.ring ∧ key ∉ c0.t2.ring := by
      have := (hres key).not.mpr (by simp [h1, h2])
      simpa using this
    -- the state after the eviction
    have h1' : InvG [s.slotNo] c1 ∧ key ∉ c1.t1.ring ∧ key ∉ c1.t2.ring ∧
        (key ∈ c.b1.l → key ∈ c1.b1.l) ∧ (key ∈ c.b2.l → key ∈ c1.b2.l) ∧
        (key ∉ c.b1.l → key ∉ c1.b1.l) ∧ (key ∉ c.b2.l → key ∉ c1.b2.l) := by
      rcases hev with ⟨hh, hg, rfl⟩ | ⟨hh, hg, rfl⟩
      · have hne : ek ≠ key := by
          rintro rfl
          exact hk0.1 (by rw [mem_of_head? hh]; simp)
        refine ⟨evictT1_invG cb h0 hh hg hc0 hf0, ?_, ?_, ?_, ?_, ?_, ?_⟩
        · simp only [evictT1, notifyReplace_t1]
          exact fun hm => hk0.1 (List.mem_of_mem_tail hm)
        · simp only [evictT1, notifyReplace_t2]; exact hk0.2
        · simp only [evictT1, notifyReplace_b1, lru.insertHead, hs.b1_eq]
          intro hm; exact List.mem_cons_of_mem _ hm
        · simp only [evictT1, notifyReplace_b2, hs.b2_eq]; exact id
        · simp only [evictT1, notifyReplace_b1, lru.insertHead, hs.b1_eq, List.mem_cons, not_or]
          intro hm; exact ⟨Ne.symm hne, hm⟩
        · simp only [evictT1, notifyReplace_b2, hs.b2_eq]; exact id
      · have hne : ek ≠ key := by
          rintro rfl
          exact hk0.2 (by rw [mem_of_head? hh]; simp)
        refine ⟨evictT2_invG cb h0 hh hg hc0 hf0, ?_, ?_, ?_, ?_, ?_, ?_⟩
        · simp only [evictT2, notifyReplace_t1]; exact hk0.1
        · simp only [evictT2, notifyReplace_t2]
          exact fun hm => hk0.2 (List.mem_of_mem_tail hm)
        · simp only [evictT2, notifyReplace_b1, hs.b1_eq]; exact id
        · simp only [evictT2, notifyReplace_b2, lru.insertHead, hs.b2_eq]
          intro hm; exact List.mem_cons_of_mem _ hm
        · simp only [evictT2, notifyReplace_b1, hs.b1_eq]; exact id
        · simp only [evictT2, notifyReplace_b2, lru.insertHead, hs.b2_eq, List.mem_cons, not_or]
          intro hm; exact ⟨Ne.symm hne, hm⟩
    obtain ⟨hinv1, hn1, hn2, hm1, hm2, hnm1, hnm2⟩ := h1'
    obtain ⟨c2', htr, hinv2, e1, e2, _, _, _, _, _, sb1, sb2, hsame, hroom⟩ :=
      trimDir_done hinv1 (c.b1.exist key) (c.b2.exist key)
    rw [htrim] at htr
    simp only [Outcome.done.injEq] at htr
    subst htr
    refine { inv := hinv2, nt1 := by rw [e1]; exact hn1, nt2 := by rw [e2]; exact hn2,
             mb1 := ?_, mb2 := ?_, nb := ?_, room1 := ?_, room2 := ?_ }
    · intro hb
      rw [hsame (Or.inl hb)]
      exact hm1 (hx1.mp hb)
    · intro hb
      rw [hsame (Or.inr hb)]
      exact hm2 (hx2.mp hb)
    · intro hb1 hb2
      have k1 : key ∉ c.b1.l := fun hm => by rw [hx1.mpr hm] at hb1; simp at hb1
      have k2 : key ∉ c.b2.l := fun hm => by rw [hx2.mpr hm] at hb2; simp at hb2
      exact ⟨fun hm => hnm1 k1 (sb1.subset hm), fun hm => hnm2 k2 (sb2.subset hm)⟩
    · intro hb1 hb2; exact (hroom hb1 hb2).1
    · intro hb1 hb2; exact (hroom hb1 hb2).2

end CAR
end Car

/-! ### The placement -/

namespace Car
namespace CAR
variable {K V : Type} [DecidableEq K]

theorem min_bounds {a b : Int} (ha : 0 ≤ a) (hb : 0 ≤ b) : 0 ≤ min a b ∧ min a b ≤ b := by
  unfold min; split <;> constructor <;> omega

theorem max_zero_bounds {a b : Int} (ha : a ≤ b) (hb : 0 ≤ b) :
    0 ≤ max a 0 ∧ max a 0 ≤ b := by
  unfold max; split <;> constructor <;> omega

theorem one_le_max_one (a : Int) : 1 ≤ max 1 a := by
  unfold max; split <;> omega

/-- The placement of the key never panics after the first part of a miss, and it
establishes the invariant. -/
theorem place_done {c : CAR K V} {key : K} {s : slot V} {inB1 inB2 : Bool}
    (hr : Ready key inB1 inB2 s c) :
    ∃ c2, place c key s inB1 inB2 = .done c2 ∧ Inv c2 := by
  have h := hr.inv
  have i1 := h.i1; have i2 := h.i2; have i4 := h.i4; have i7 := h.i7
  simp only [List.length_singleton] at i1 i7
  have hnd := h.nodup
  have hb1n : c.b1.l.Nodup := by
    simp only [dir] at hnd
    exact (List.nodup_append.mp (List.nodup_append.mp hnd).1).2.1
  have hb2n : c.b2.l.Nodup := by
    simp only [dir] at hnd
    exact (List.nodup_append.mp hnd).2.1
  have hnos : ∀ (n1 n2 : List Nat), (n1 ++ n2).Perm (c.t1.slotNos ++ c.t2.slotNos ++ [s.slotNo]) →
      ([] ++ (n1 ++ n2)).Perm (List.range c.slotNo) := by
    intro n1 n2 hp
    refine List.Perm.trans ?_ h.nos
    simp only [List.nil_append]
    refine hp.trans ?_
    simp only [List.singleton_append]
    exact List.perm_append_singleton _ _
  unfold place
  cases hB1 : inB1 with
  | true =>
    have hk : key ∈ c.b1.l := hr.mb1 hB1
    have hsz : c.b1.size ≠ 0 := by
      rw [h.wb1.size_eq_length]; exact (List.length_pos.mpr (List.ne_nil_of_mem hk)).ne'
    have hfull : c.full = true := by
      cases hf : c.full with
      | true => rfl
      | false => have := (h.ghost hf).1; rw [this] at hk; simp at hk
    have hpe := List.perm_cons_erase hk
    have hlen : (c.b1.l.erase key).length + 1 = c.b1.l.length := by
      have := hpe.length_eq; simp only [List.length_cons] at this; omega
    simp only [↓reduceIte, hsz, h.wb1.remove_eq hk, h.wt2.insertTail_eq]
    refine ⟨_, rfl, ?_⟩
    have hp := min_bounds (a := c.p + max 1 ((c.b2.size / c.b1.size : Nat) : Int)) (b := c.c)
      (by have := one_le_max_one ((c.b2.size / c.b1.size : Nat) : Int); have := h.p0; omega)
      (by have := h.cpos; omega)
    refine { wt1 := h.wt1, wt2 := h.wt2.set_tail hr.nt2 s, wb1 := h.wb1.remove_wf hb1n key,
             wb2 := h.wb2, nodup := ?_, nos := ?_, cpos := h.cpos, p0 := hp.1, pc := hp.2,
             i1 := ?_, i2 := ?_, i4 := ?_, i7 := ?_, ghost := ?_ }
    · refine (List.Perm.nodup_iff ?_).mpr hnd
      simp only [dir]
      apply perm_of_count
      intro a
      have := List.perm_iff_count.mp hpe a
      simp only [List.count_append, List.count_cons, List.count_nil] at this ⊢
      omega
    · apply hnos
      have hk2 : key ∉ c.t2.slots.keys := fun hm => hr.nt2 ((h.wt2.mem_iff key).mp hm)
      simp only [clock.slotNos_set_of_not_mem hk2, List.append_assoc]
      exact List.Perm.refl _
    · simp only [List.length_append, List.length_singleton, List.length_nil]; omega
    · dsimp only; omega
    · simp only [List.length_append, List.length_singleton]; omega
    · intro _; simp only [List.length_append, List.length_singleton, List.length_nil]
      have := i7 hfull; omega
    · intro hf; dsimp only at hf; rw [hfull] at hf; simp at hf
  | false =>
    cases hB2 : inB2 with
    | true =>
      have hk : key ∈ c.b2.l := hr.mb2 hB2
      have hsz : c.b2.size ≠ 0 := by
        rw [h.wb2.size_eq_length]; exact (List.length_pos.mpr (List.ne_nil_of_mem hk)).ne'
      have hfull : c.full = true := by
        cases hf : c.full with
        | true => rfl
        | false => have := (h.ghost hf).2; rw [this] at hk; simp at hk
      have hpe := List.perm_cons_erase hk
      have hlen : (c.b2.l.erase key).length + 1 = c.b2.l.length := by
        have := hpe.length_eq; simp only [List.length_cons] at this; omega
      simp only [Bool.false_eq_true, ↓reduceIte, hsz, h.wb2.remove_eq hk, h.wt2.insertTail_eq]
      refine ⟨_, rfl, ?_⟩
      have hp := max_zero_bounds (a := c.p - max 1 ((c.b1.size / c.b2.size : Nat) : Int))
        (b := c.c)
        (by have := one_le_max_one ((c.b1.size / c.b2.size : Nat) : Int); have := h.pc; omega)
        (by have := h.cpos; omega)
      refine { wt1 := h.wt1, wt2 := h.wt2.set_tail hr.nt2 s, wb1 := h.wb1,
               wb2 := h.wb2.remove_wf hb2n key, nodup := ?_, nos := ?_, cpos := h.cpos,
               p0 := hp.1, pc := hp.2, i1 := ?_, i2 := ?_, i4 := ?_, i7 := ?_, ghost := ?_ }
      · refine (List.Perm.nodup_iff ?_).mpr hnd
        simp only [dir]
        apply perm_of_count
        intro a
        have := List.perm_iff_count.mp hpe a
        simp only [List.count_append, List.count_cons, List.count_nil] at this ⊢
        omega
      · apply hnos
        have hk2 : key ∉ c.t2.slots.keys := fun hm => hr.nt2 ((h.wt2.mem_iff key).mp hm)
        simp only [clock.slotNos_set_of_not_mem hk2, List.append_assoc]
        exact List.Perm.refl _
      · simp only [List.length_append, List.length_singleton, List.length_nil]; omega
      · dsimp only; omega
      · simp only [List.length_append, List.length_singleton]; omega
      · intro _; simp only [List.length_append, List.length_singleton, List.length_nil]
        have := i7 hfull; omega
      · intro hf; dsimp only at hf; rw [hfull] at hf; simp at hf
    | false =>
      have hnb := hr.nb hB1 hB2
      have r1 := hr.room1 hB1 hB2
      have r2 := hr.room2 hB1 hB2
      simp only [Bool.false_eq_true, ↓reduceIte, h.wt1.insertTail_eq]
      refine ⟨_, rfl, ?_⟩
      refine { wt1 := h.wt1.set_tail hr.nt1 s, wt2 := h.wt2, wb1 := h.wb1, wb2 := h.wb2,
               nodup := ?_, nos := ?_, cpos := h.cpos, p0 := h.p0, pc := h.pc,
               i1 := ?_, i2 := ?_, i4 := ?_, i7 := ?_, ghost := h.ghost }
      · have hp : (dir ({ c with t1 := { slots := c.t1.slots.set key s, ring := c.t1.ring ++ [key] } } :
            CAR K V)).Perm (key :: c.dir) := by
          simp only [dir]
          apply perm_of_count
          intro a
          simp only [List.count_append, List.count_cons, List.count_nil]
          omega
        refine hp.nodup_iff.mpr (List.nodup_cons.mpr ⟨?_, hnd⟩)
        simp only [dir, List.mem_append, not_or]
        exact ⟨⟨⟨hr.nt1, hr.nt2⟩, hnb.1⟩, hnb.2⟩
      · apply hnos
        have hk1 : key ∉ c.t1.slots.keys := fun hm => hr.nt1 ((h.wt1.mem_iff key).mp hm)
        simp only [clock.slotNos_set_of_not_mem hk1]
        apply perm_of_count
        intro a
        simp only [List.count_append, List.count_cons, List.count_nil]
        omega
      · simp only [List.length_append, List.length_singleton, List.length_nil]; omega
      · simp only [List.length_append, List.length_singleton]; omega
      · simp only [List.length_append, List.length_singleton]; omega
      · intro hf; simp only [List.length_append, List.length_singleton, List.length_nil]
        have := i7 hf; omega

end CAR
end Car

/-! ### Miss, hit and Load keep the invariant -/

namespace Car

theorem lru.removeTail_ne_fuel {K : Type} [DecidableEq K] (b : lru K) : b.removeTail ≠ .fuel := by
  unfold lru.removeTail
  split
  · simp
  · split <;> simp

theorem lru.remove_ne_fuel {K : Type} [DecidableEq K] (b : lru K) (key : K) : b.remove key ≠ .fuel := by
  unfold lru.remove
  split
  · simp
  · split <;> simp

theorem clock.insertTail_ne_fuel {K V : Type} [DecidableEq K] (cl : clock K V) (key : K) (s : slot V) :
    cl.insertTail key s ≠ .fuel := by
  rcases clock.insertTail_cases cl key s with h | ⟨r, h⟩ <;> simp [h]

namespace CAR
variable {K V : Type} [DecidableEq K]

@[simp] theorem loadValue_slotNo (cb : Callbacks K V) (c : CAR K V) (key : K) (s : slot V) :
    (loadValue cb c key s).1.slotNo = s.slotNo := by unfold loadValue; split <;> rfl
@[simp] theorem loadValue_ref (cb : Callbacks K V) (c : CAR K V) (key : K) (s : slot V) :
    (loadValue cb c key s).1.ref = s.ref := by unfold loadValue; split <;> rfl
@[simp] theorem loadValue_t1 (cb : Callbacks K V) (c : CAR K V) (key : K) (s : slot V) :
    (loadValue cb c key s).2.t1 = c.t1 := by unfold loadValue; split <;> rfl
@[simp] theorem loadValue_t2 (cb : Callbacks K V) (c : CAR K V) (key : K) (s : slot V) :
    (loadValue cb c key s).2.t2 = c.t2 := by unfold loadValue; split <;> rfl
@[simp] theorem loadValue_b1 (cb : Callbacks K V) (c : CAR K V) (key : K) (s : slot V) :
    (loadValue cb c key s).2.b1 = c.b1 := by unfold loadValue; split <;> rfl
@[simp] theorem loadValue_b2 (cb : Callbacks K V) (c : CAR K V) (key : K) (s : slot V) :
    (loadValue cb c key s).2.b2 = c.b2 := by unfold loadValue; split <;> rfl
@[simp] theorem loadValue_c (cb : Callbacks K V) (c : CAR K V) (key : K) (s : slot V) :
    (loadValue cb c key s).2.c = c.c := by unfold loadValue; split <;> rfl
@[simp] theorem loadValue_p (cb : Callbacks K V) (c : CAR K V) (key : K) (s : slot V) :
    (loadValue cb c key s).2.p = c.p := by unfold loadValue; split <;> rfl
@[simp] theorem loadValue_full (cb : Callbacks K V) (c : CAR K V) (key : K) (s : slot V) :
    (loadValue cb c key s).2.full = c.full := by unfold loadValue; split <;> rfl
@[simp] theorem loadValue_slotNo2 (cb : Callbacks K V) (c : CAR K V) (key : K) (s : slot V) :
    (loadValue cb c key s).2.slotNo = c.slotNo := by unfold loadValue; split <;> rfl

theorem Ready.load {key : K} {inB1 inB2 : Bool} {s : slot V} {c : CAR K V}
    (hr : Ready key inB1 inB2 s c) (cb : Callbacks K V) :
    Ready key inB1 inB2 (loadValue cb c key s).1 (loadValue cb c key s).2 := by
  obtain ⟨a1, a2, a3, a4, a5, a6, a7, a8⟩ := hr
  refine { inv := ?_, nt1 := by simpa using a2, nt2 := by simpa using a3,
           mb1 := by simpa using a4, mb2 := by simpa using a5, nb := by simpa using a6,
           room1 := by simpa using a7, room2 := by simpa using a8 }
  rw [loadValue_slotNo]
  exact a1.congr (by simp) (by simp) (by simp) (by simp) (by simp) (by simp) (by simp) (by simp)

/-- A completed miss on a key that is not resident establishes the invariant. -/
theorem miss_inv (cb : Callbacks K V) {c : CAR K V} (h : Inv c) {key : K}
    (h1 : key ∉ c.t1.ring) (h2 : key ∉ c.t2.ring) {v : Option V} {c2 : CAR K V}
    (hm : miss cb c key = .done (v, c2)) : Inv c2 := by
  unfold miss at hm
  dsimp only at hm
  split at hm
  · simp at hm
  · simp at hm
  · rename_i s c1 he
    have hr := (evict_ready cb h h1 h2 he).load cb
    obtain ⟨c3, hp, hinv⟩ := place_done hr
    rw [hp] at hm
    simp only [Outcome.done.injEq, Prod.mk.injEq] at hm
    rw [← hm.2]
    exact hinv

theorem trimDir_ne_fuel (c : CAR K V) (inB1 inB2 : Bool) : trimDir c inB1 inB2 ≠ .fuel := by
  unfold trimDir
  split
  · split
    · have := lru.removeTail_ne_fuel c.b1
      split <;> simp_all
    · split
      · have := lru.removeTail_ne_fuel c.b2
        split <;> simp_all
      · simp
  · simp

theorem evict_ne_fuel (cb : Callbacks K V) (c : CAR K V) (inB1 inB2 : Bool) :
    evict cb c inB1 inB2 ≠ .fuel := by
  unfold evict
  dsimp only
  split
  · split
    · rename_i h
      split at h
      · exact absurd h (replaceT1_ne_fuel cb _)
      · exact absurd h (replaceT2_ne_fuel cb _)
    · simp
    · rename_i s c1 _
      have := trimDir_ne_fuel c1 inB1 inB2
      split <;> simp_all
  · simp

theorem place_ne_fuel (c : CAR K V) (key : K) (s : slot V) (inB1 inB2 : Bool) :
    place c key s inB1 inB2 ≠ .fuel := by
  unfold place
  split
  · split
    · simp
    · have h1 := lru.remove_ne_fuel c.b1 key
      split
      · simp_all
      · simp
      · have h2 := clock.insertTail_ne_fuel c.t2 key s
        split <;> simp_all
  · split
    · split
      · simp
      · have h1 := lru.remove_ne_fuel c.b2 key
        split
        · simp_all
        · simp
        · have h2 := clock.insertTail_ne_fuel c.t2 key s
          split <;> simp_all
    · have h2 := clock.insertTail_ne_fuel c.t1 key s
      split <;> simp_all

/-- A miss never uses up a pass budget, in any state. -/
theorem miss_ne_fuel (cb : Callbacks K V) (c : CAR K V) (key : K) : miss cb c key ≠ .fuel := by
  unfold miss
  dsimp only
  have h1 := evict_ne_fuel cb c (c.b1.exist key) (c.b2.exist key)
  split
  · simp_all
  · simp
  · rename_i s c1 _
    have h2 := place_ne_fuel (loadValue cb c1 key s).2 key (loadValue cb c1 key s).1
      (c.b1.exist key) (c.b2.exist key)
    split <;> simp_all

theorem hit_of_not_ok {c : CAR K V} {key : K} (h : (hit c key).2.1 = false) :
    hit c key = (none, false, c) := by
  unfold hit at *
  split at h
  · simp at h
  · split at h
    · simp at h
    · rename_i h1 _ h2; simp [h1, h2]

theorem hit_ok_iff {c : CAR K V} (w1 : c.t1.WF) (w2 : c.t2.WF) (key : K) :
    (hit c key).2.1 = true ↔ (key ∈ c.t1.ring ∨ key ∈ c.t2.ring) := by
  unfold hit
  simp only [clock.getSlot]
  cases h1 : c.t1.slots.get key with
  | some s => simp [w1.mem_of_get h1]
  | none =>
    have n1 := (w1.get_eq_none key).mp h1
    cases h2 : c.t2.slots.get key with
    | some s => simp [w2.mem_of_get h2]
    | none => simp [n1, (w2.get_eq_none key).mp h2]

/-- A hit only sets a reference flag. -/
theorem hit_shuffle {c : CAR K V} (w1 : c.t1.WF) (w2 : c.t2.WF) (key : K) :
    Shuffle c (hit c key).2.2 := by
  unfold hit
  simp only [clock.getSlot]
  cases h1 : c.t1.slots.get key with
  | some s =>
    dsimp only
    refine { wt1 := w1.set_mem (w1.mem_of_get h1) _, wt2 := w2, res := List.Perm.refl _,
             t1le := le_refl _, nos := ?_, info := ?_, b1_eq := rfl, b2_eq := rfl, c_eq := rfl,
             p_eq := rfl, full_eq := rfl, slotNo_eq := rfl, calls_eq := rfl }
    · have e : clock.slotNos ({ c.t1 with slots := c.t1.slots.set key { s with ref := refOne } } :
          clock K V) = c.t1.slotNos := by
        simp only [clock.slotNos]
        exact GoMap.map_set_of_get _ h1 rfl
      simp only [e]; exact List.Perm.refl _
    · intro k
      simp only [resident, clock.getSlot, GoMap.get_set]
      by_cases hk : key = k
      · subst hk; simp [h1, slot.info]
      · simp [hk]
  | none =>
    cases h2 : c.t2.slots.get key with
    | some s =>
      dsimp only
      refine { wt1 := w1, wt2 := w2.set_mem (w2.mem_of_get h2) _, res := List.Perm.refl _,
               t1le := le_refl _, nos := ?_, info := ?_, b1_eq := rfl, b2_eq := rfl, c_eq := rfl,
               p_eq := rfl, full_eq := rfl, slotNo_eq := rfl, calls_eq := rfl }
      · have e : clock.slotNos ({ c.t2 with slots := c.t2.slots.set key { s with ref := refOne } } :
            clock K V) = c.t2.slotNos := by
          simp only [clock.slotNos]
          exact GoMap.map_set_of_get _ h2 rfl
        simp only [e]; exact List.Perm.refl _
      · intro k
        simp only [resident, clock.getSlot, GoMap.get_set]
        by_cases hk : key = k
        · subst hk; simp [h1, h2, slot.info]
        · simp [hk]
    | none => exact Shuffle.refl w1 w2

/-- `Load` is the hit when the key is resident, the miss otherwise. -/
theorem Load_eq (cb : Callbacks K V) (c : CAR K V) (key : K) :
    Load cb c key = if (hit c key).2.1 = true then .done ((hit c key).1, (hit c key).2.2)
      else miss cb c key := by
  unfold Load
  cases hb : (hit c key).2.1 with
  | true =>
    rcases hh : hit c key with ⟨v, b, c1⟩
    simp only [hh] at hb
    subst hb
    simp
  | false =>
    have := hit_of_not_ok hb
    simp [this]

theorem Load_inv (cb : Callbacks K V) {c : CAR K V} (h : Inv c) {key : K} {v : Option V}
    {c1 : CAR K V} (hl : Load cb c key = .done (v, c1)) : Inv c1 := by
  rw [Load_eq] at hl
  by_cases hb : (hit c key).2.1 = true
  · simp only [hb, ↓reduceIte, Outcome.done.injEq, Prod.mk.injEq] at hl
    rw [← hl.2]
    exact (hit_shuffle h.wt1 h.wt2 key).invG h
  · simp only [hb, Bool.false_eq_true, ↓reduceIte] at hl
    have hn := (hit_ok_iff h.wt1 h.wt2 key).not.mp hb
    simp only [not_or] at hn
    exact miss_inv cb h hn.1 hn.2 hl

/-- `Load` never uses up a pass budget, in any state. -/
theorem Load_ne_fuel (cb : Callbacks K V) (c : CAR K V) (key : K) : Load cb c key ≠ .fuel := by
  rw [Load_eq]
  split
  · simp
  · exact miss_ne_fuel cb c key

theorem NewCAR_inv {n : Int} (hn : 1 ≤ n) : Inv (NewCAR n : CAR K V) := by
  refine { wt1 := clock.wf_newClock, wt2 := clock.wf_newClock, wb1 := lru.wf_newLru,
           wb2 := lru.wf_newLru, nodup := ?_, nos := ?_, cpos := hn, p0 := le_refl _,
           pc := ?_, i1 := ?_, i2 := ?_, i4 := ?_, i7 := ?_, ghost := ?_ }
  all_goals simp [NewCAR, dir, clock.newClock, lru.newLru, clock.slotNos]
  all_goals omega

theorem loads_inv (cb : Callbacks K V) (keys : List K) :
    ∀ {c c1 : CAR K V}, Inv c → loads cb c keys = .done c1 → Inv c1 := by
  induction keys with
  | nil => intro c c1 h hl; simp only [loads, Outcome.done.injEq] at hl; rw [← hl]; exact h
  | cons k rest ih =>
    intro c c1 h hl
    rw [loads] at hl
    split at hl
    · simp at hl
    · simp at hl
    · rename_i v c2 hld
      exact ih (Load_inv cb h hld) hl

end CAR
end Car

/-! ### Resident entries through a miss -/

namespace Car
namespace CAR
variable {K V : Type} [DecidableEq K]

theorem resident_congr {c c1 : CAR K V} (e1 : c1.t1 = c.t1) (e2 : c1.t2 = c.t2) (k : K) :
    resident c1 k = resident c k := by
  simp only [resident, e1, e2]

theorem resident_eq_none {c : CAR K V} (w1 : c.t1.WF) (w2 : c.t2.WF) (k : K) :
    resident c k = none ↔ (k ∉ c.t1.ring ∧ k ∉ c.t2.ring) := by
  simp only [resident, clock.getSlot]
  cases h1 : c.t1.slots.get k with
  | some s => simp [w1.mem_of_get h1]
  | none =>
    simp only [(w1.get_eq_none k).mp h1, not_false_eq_true, true_and]
    exact w2.get_eq_none k

theorem resident_evictT1 (cb : Callbacks K V) {c : CAR K V} (w2 : c.t2.WF)
    (hn : (c.t1.ring ++ c.t2.ring).Nodup) {ek : K} (hh : c.t1.ring.head? = some ek)
    (s : slot V) (k : K) :
    resident (evictT1 cb c ek s) k = if k = ek then none else resident c k := by
  have hk2 : ek ∉ c.t2.ring := by
    intro hm
    exact (List.nodup_append.mp hn).2.2 (by rw [mem_of_head? hh]; simp) hm
  simp only [resident, evictT1, notifyReplace_t1, notifyReplace_t2, clock.getSlot,
    GoMap.get_delete]
  by_cases hk : k = ek
  · subst hk
    simp [(w2.get_eq_none k).mpr hk2]
  · simp [hk, Ne.symm hk]

theorem resident_evictT2 (cb : Callbacks K V) {c : CAR K V} (w1 : c.t1.WF)
    (hn : (c.t1.ring ++ c.t2.ring).Nodup) {ek : K} (hh : c.t2.ring.head? = some ek)
    (s : slot V) (k : K) :
    resident (evictT2 cb c ek s) k = if k = ek then none else resident c k := by
  have hk1 : ek ∉ c.t1.ring := by
    intro hm
    exact (List.nodup_append.mp hn).2.2 hm (by rw [mem_of_head? hh]; simp)
  simp only [resident, evictT2, notifyReplace_t1, notifyReplace_t2, clock.getSlot,
    GoMap.get_delete]
  by_cases hk : k = ek
  · subst hk
    simp [(w1.get_eq_none k).mpr hk1]
  · simp [hk, Ne.symm hk]

/-- What the placement of the key changes: the key becomes resident with the slot in
hand; the other resident entries, the counters and the record of calls are kept. -/
theorem place_spec {c : CAR K V} {key : K} {s : slot V} {inB1 inB2 : Bool}
    (hr : Ready key inB1 inB2 s c) {c2 : CAR K V} (hp : place c key s inB1 inB2 = .done c2) :
    c2.calls = c.calls ∧ c2.slotNo = c.slotNo ∧ c2.c = c.c ∧ c2.full = c.full ∧
    ∀ k, resident c2 k = if k = key then some s else resident c k := by
  have h := hr.inv
  have hg1 : c.t1.slots.get key = none := (h.wt1.get_eq_none key).mpr hr.nt1
  have hres : ∀ (t2 : clock K V), ∀ k,
      resident ({ c with t2 := { slots := c.t2.slots.set key s, ring := t2.ring } } : CAR K V) k
        = if k = key then some s else resident c k := by
    intro t2 k
    simp only [resident, clock.getSlot, GoMap.get_set]
    by_cases hk : k = key
    · subst hk; simp [hg1]
    · simp [hk, Ne.symm hk]
  unfold place at hp
  cases hB1 : inB1 with
  | true =>
    have hk : key ∈ c.b1.l := hr.mb1 hB1
    have hsz : c.b1.size ≠ 0 := by
      rw [h.wb1.size_eq_length]; exact (List.length_pos.mpr (List.ne_nil_of_mem hk)).ne'
    simp only [hB1, ↓reduceIte, hsz, h.wb1.remove_eq hk, h.wt2.insertTail_eq,
      Outcome.done.injEq] at hp
    subst hp
    refine ⟨rfl, rfl, rfl, rfl, ?_⟩
    intro k
    have := hres { slots := [], ring := c.t2.ring ++ [key] } k
    simpa only [resident] using this
  | false =>
    cases hB2 : inB2 with
    | true =>
      have hk : key ∈ c.b2.l := hr.mb2 hB2
      have hsz : c.b2.size ≠ 0 := by
        rw [h.wb2.size_eq_length]; exact (List.length_pos.mpr (List.ne_nil_of_mem hk)).ne'
      simp only [hB1, hB2, Bool.false_eq_true, ↓reduceIte, hsz, h.wb2.remove_eq hk,
        h.wt2.insertTail_eq, Outcome.done.injEq] at hp
      subst hp
      refine ⟨rfl, rfl, rfl, rfl, ?_⟩
      intro k
      have := hres { slots := [], ring := c.t2.ring ++ [key] } k
      simpa only [resident] using this
    | false =>
      simp only [hB1, hB2, Bool.false_eq_true, ↓reduceIte, h.wt1.insertTail_eq,
        Outcome.done.injEq] at hp
      subst hp
      refine ⟨rfl, rfl, rfl, rfl, ?_⟩
      intro k
      simp only [resident, clock.getSlot, GoMap.get_set]
      by_cases hk : k = key
      · subst hk; simp
      · simp [hk, Ne.symm hk]

/-- What the first part of a miss does to the resident entries and to the record of
calls. Either the clocks are not full: nothing changes but the slot counter, and the
slot in hand is new. Or one resident key `ek` is evicted: it is no longer resident, the
replacement callback is called for it, the slot in hand has its slot number and its
value, and the other resident entries keep slot number and value. -/
theorem evict_spec (cb : Callbacks K V) {c : CAR K V} (h : Inv c) {inB1 inB2 : Bool}
    {s : slot V} {c1 : CAR K V} (he : evict cb c inB1 inB2 = .done (s, c1)) :
    (((c.t1.size + c.t2.size : Nat) : Int) ≠ c.c ∧ s = newSlot c.slotNo ∧
      c1 = { c with slotNo := c.slotNo + 1 }) ∨
    (((c.t1.size + c.t2.size : Nat) : Int) = c.c ∧ s.ref = refZero ∧ c1.slotNo = c.slotNo ∧
      ∃ ek s0, resident c ek = some s0 ∧ s0.info = s.info ∧ resident c1 ek = none ∧
        c1.calls = c.calls ++
          (if cb.cbReplaceValue then [Call.replace ek s0.value s0.slotNo] else []) ∧
        ∀ k, k ≠ ek → (resident c1 k).map slot.info = (resident c k).map slot.info) := by
  rw [h.wt1.size_eq, h.wt2.size_eq]
  rcases evict_cases cb h he with ⟨hc, rfl, rfl⟩ | ⟨hc, hz, c0, ek, c2, hs, hev, htrim⟩
  · exact Or.inl ⟨hc, rfl, rfl⟩
  · right
    refine ⟨hc, hz, ?_⟩
    have hfull := InvG.setFull h hc
    have h0 : InvG [] c0 := hs.invG hfull
    have hinfo := hs.info
    have hres0 : ∀ k, resident ({ c with full := true } : CAR K V) k = resident c k :=
      fun k => resident_congr rfl rfl k
    -- the state after the eviction, before the directory replacement
    have key : c2.slotNo = c.slotNo ∧ ∃ s0, resident c ek = some s0 ∧ s0.info = s.info ∧
        resident c2 ek = none ∧
        c2.calls = c.calls ++
          (if cb.cbReplaceValue then [Call.replace ek s0.value s0.slotNo] else []) ∧
        ∀ k, k ≠ ek → (resident c2 k).map slot.info = (resident c k).map slot.info := by
      have hek : (resident c0 ek) = some s := by
        rcases hev with ⟨hh, hg, _⟩ | ⟨hh, hg, _⟩
        · simp only [resident, clock.getSlot, hg]
        · have hk1 : ek ∉ c0.t1.ring := by
            intro hm
            exact (List.nodup_append.mp h0.nodup12).2.2 hm (by rw [mem_of_head? hh]; simp)
          simp only [resident, clock.getSlot, (h0.wt1.get_eq_none ek).mpr hk1, hg]
      have hek2 := hinfo ek
      rw [hek, hres0] at hek2
      cases hce : resident c ek with
      | none => rw [hce] at hek2; simp at hek2
      | some s0 =>
        rw [hce] at hek2
        simp only [Option.map_some', Option.some.injEq] at hek2
        have hv : s0.value = s.value := by
          have := congrArg Prod.snd hek2; simpa [slot.info] using this.symm
        have hno : s0.slotNo = s.slotNo := by
          have := congrArg Prod.fst hek2; simpa [slot.info] using this.symm
        have hres2 : ∀ k, resident c2 k = if k = ek then none else resident c0 k := by
          rcases hev with ⟨hh, hg, rfl⟩ | ⟨hh, hg, rfl⟩
          · exact resident_evictT1 cb h0.wt2 h0.nodup12 hh s
          · exact resident_evictT2 cb h0.wt1 h0.nodup12 hh s
        have hcalls : c2.calls = c.calls ++
            (if cb.cbReplaceValue then [Call.replace ek s0.value s0.slotNo] else []) := by
          rw [hv, hno]
          rcases hev with ⟨_, _, rfl⟩ | ⟨_, _, rfl⟩
          · simp only [evictT1, notifyReplace_calls, hs.calls_eq]
          · simp only [evictT2, notifyReplace_calls, hs.calls_eq]
        have hsn : c2.slotNo = c.slotNo := by
          rcases hev with ⟨_, _, rfl⟩ | ⟨_, _, rfl⟩
          · simp only [evictT1, notifyReplace_slotNo, hs.slotNo_eq]
          · simp only [evictT2, notifyReplace_slotNo, hs.slotNo_eq]
        refine ⟨hsn, s0, rfl, hek2.symm, ?_, hcalls, ?_⟩
        · simp [hres2]
        · intro k hk
          rw [hres2, if_neg hk, hinfo k, hres0]
    -- the directory replacement keeps the clocks and the record
    have hinv2 : InvG [s.slotNo] c2 := by
      have hlen := hs.len_res
      dsimp only at hlen
      have hc0 : ((c0.t1.ring.length + c0.t2.ring.length : Nat) : Int) = c0.c := by
        rw [hs.c_eq, hlen]; exact hc
      have hf0 : c0.full = true := by rw [hs.full_eq]
      rcases hev with ⟨hh, hg, rfl⟩ | ⟨hh, hg, rfl⟩
      · exact evictT1_invG cb h0 hh hg hc0 hf0
      · exact evictT2_invG cb h0 hh hg hc0 hf0
    obtain ⟨c3, htr, _, e1, e2, ecalls, _, _, _, esn, _⟩ := trimDir_done hinv2 inB1 inB2
    rw [htrim] at htr
    simp only [Outcome.done.injEq] at htr
    subst htr
    obtain ⟨hsn, s0, a1, a2, a3, a4, a5⟩ := key
    refine ⟨by rw [esn, hsn], ek, s0, a1, a2, ?_, ?_, ?_⟩
    · rw [resident_congr e1 e2]; exact a3
    · rw [ecalls]; exact a4
    · intro k hk; rw [resident_congr e1 e2]; exact a5 k hk

end CAR
end Car

/-! ### States reached from a fresh cache -/

namespace Car
namespace CAR
variable {K V : Type} [DecidableEq K]

/-- A miss on a key that is not resident completes as soon as its first part does. -/
theorem miss_of_evict (cb : Callbacks K V) {c : CAR K V} (h : Inv c) {key : K}
    (h1 : key ∉ c.t1.ring) (h2 : key ∉ c.t2.ring) {s : slot V} {c1 : CAR K V}
    (he : evict cb c (c.b1.exist key) (c.b2.exist key) = .done (s, c1)) :
    ∃ c2, miss cb c key = .done ((loadValue cb c1 key s).1.value, c2) ∧
      place (loadValue cb c1 key s).2 key (loadValue cb c1 key s).1
        (c.b1.exist key) (c.b2.exist key) = .done c2 := by
  have hr := (evict_ready cb h h1 h2 he).load cb
  obtain ⟨c2, hp, _⟩ := place_done hr
  refine ⟨c2, ?_, hp⟩
  unfold miss
  simp only [he, hp]

/-- The three parts of a completed miss on a key that is not resident, and what the miss
changes: the key becomes resident with the slot of the first part, holding the loaded
value; the other resident entries are those the first part left. -/
theorem miss_spec (cb : Callbacks K V) {c : CAR K V} (h : Inv c) {key : K}
    (h1 : key ∉ c.t1.ring) (h2 : key ∉ c.t2.ring) {v : Option V} {c2 : CAR K V}
    (hm : miss cb c key = .done (v, c2)) :
    ∃ s c1, evict cb c (c.b1.exist key) (c.b2.exist key) = .done (s, c1) ∧
      place (loadValue cb c1 key s).2 key (loadValue cb c1 key s).1
        (c.b1.exist key) (c.b2.exist key) = .done c2 ∧
      resident c1 key = none ∧
      v = (loadValue cb c1 key s).1.value ∧
      c2.calls = (loadValue cb c1 key s).2.calls ∧ c2.slotNo = c1.slotNo ∧ c2.c = c1.c ∧
      ∀ k, resident c2 k = if k = key then some (loadValue cb c1 key s).1 else resident c1 k := by
  have hm0 := hm
  unfold miss at hm
  dsimp only at hm
  split at hm
  · simp at hm
  · simp at hm
  · rename_i s c1 he
    have hr0 := evict_ready cb h h1 h2 he
    have hr := hr0.load cb
    obtain ⟨c3, hp, _⟩ := place_done hr
    rw [hp] at hm
    simp only [Outcome.done.injEq, Prod.mk.injEq] at hm
    obtain ⟨rfl, rfl⟩ := hm
    obtain ⟨e1, e2, e3, _, e5⟩ := place_spec hr hp
    refine ⟨s, c1, he, hp, ?_, rfl, e1, ?_, ?_, ?_⟩
    · exact (resident_eq_none hr0.inv.wt1 hr0.inv.wt2 key).mpr ⟨hr0.nt1, hr0.nt2⟩
    · rw [e2]; simp
    · rw [e3]; simp
    · intro k
      rw [e5 k]
      split
      · rfl
      · exact resident_congr (by simp) (by simp) k

theorem reach_inv {n : Int} (hn : 1 ≤ n) (cb : Callbacks K V) {keys : List K} {c : CAR K V}
    (h : loads cb (NewCAR n) keys = .done c) : Inv c :=
  loads_inv cb keys (NewCAR_inv hn) h

theorem loads_append (cb : Callbacks K V) (ks1 ks2 : List K) (c : CAR K V) :
    loads cb c (ks1 ++ ks2) =
      match loads cb c ks1 with
      | .done c1 => loads cb c1 ks2
      | .panic => .panic
      | .fuel => .fuel := by
  induction ks1 generalizing c with
  | nil => simp [loads]
  | cons k rest ih =>
    simp only [List.cons_append, loads]
    cases Load cb c k with
    | done r => exact ih r.2
    | panic => rfl
    | fuel => rfl

theorem Inv.sizes {c : CAR K V} (h : Inv c) : SizeInvariants c := by
  have i1 := h.i1; have i2 := h.i2; have i4 := h.i4; have i7 := h.i7
  simp only [List.length_nil] at i1 i7
  have hg : c.full = false → c.b1.l.length = 0 ∧ c.b2.l.length = 0 := by
    intro hf; have := h.ghost hf; simp [this.1, this.2]
  have hc := h.cpos
  constructor <;> simp only [h.wt1.size_eq, h.wt2.size_eq, h.wb1.size_eq_length, h.wb2.size_eq_length]
  · omega
  · exact i2
  · omega
  · exact i4
  · intro hlt
    cases hf : c.full with
    | true => have := i7 hf; omega
    | false => have := hg hf; omega
  · intro hge
    cases hf : c.full with
    | true => have := i7 hf; omega
    | false => have := hg hf; omega
  · intro hf; have := i7 hf; omega

end CAR
end Car

/-! ### Slot numbers and capacity; claims C1 to C4 and C6 -/

namespace Car

theorem GoMap.set_get_self {K α : Type} [DecidableEq K] {m : GoMap K α} {key : K} {v : α}
    (h : GoMap.get m key = some v) : GoMap.set m key v = m := by
  induction m with
  | nil => simp [GoMap.get] at h
  | cons e m ih =>
    obtain ⟨k0, w⟩ := e
    by_cases h1 : k0 = key
    · subst h1
      simp only [GoMap.get, ↓reduceIte, Option.some.injEq] at h
      simp [GoMap.set, h]
    · simp only [GoMap.get, h1, ↓reduceIte] at h
      simp [GoMap.set, h1, ih h]

theorem GoMap.mem_entries_of_get {K α : Type} [DecidableEq K] {m : GoMap K α} {key : K} {v : α}
    (h : GoMap.get m key = some v) : (key, v) ∈ m := by
  induction m with
  | nil => simp [GoMap.get] at h
  | cons e m ih =>
    obtain ⟨k0, w⟩ := e
    by_cases h1 : k0 = key
    · subst h1
      simp only [GoMap.get, ↓reduceIte, Option.some.injEq] at h
      simp [h]
    · simp only [GoMap.get, h1, ↓reduceIte] at h
      exact List.mem_cons_of_mem _ (ih h)

namespace CAR
variable {K V : Type} [DecidableEq K]

theorem resident_mem {c : CAR K V} {k : K} {s : slot V} (h : resident c k = some s) :
    (k, s) ∈ c.t1.slots ++ c.t2.slots := by
  simp only [resident, clock.getSlot] at h
  cases h1 : c.t1.slots.get k with
  | some s1 =>
    rw [h1] at h
    simp only [Option.some.injEq] at h
    subst h
    exact List.mem_append_left _ (GoMap.mem_entries_of_get h1)
  | none =>
    rw [h1] at h
    exact List.mem_append_right _ (GoMap.mem_entries_of_get h)

theorem Inv.slotNos_nodup {c : CAR K V} (h : Inv c) : (c.t1.slotNos ++ c.t2.slotNos).Nodup := by
  have := h.nos
  simp only [List.nil_append] at this
  exact this.nodup_iff.mpr (List.nodup_range _)

/-- Two resident keys with the same slot number are the same key. -/
theorem Inv.slotNo_unique {c : CAR K V} (h : Inv c) {k1 k2 : K} {s1 s2 : slot V}
    (h1 : resident c k1 = some s1) (h2 : resident c k2 = some s2)
    (he : s1.slotNo = s2.slotNo) : k1 = k2 := by
  have hn := h.slotNos_nodup
  have e : c.t1.slotNos ++ c.t2.slotNos
      = (c.t1.slots ++ c.t2.slots).map (fun e => e.2.slotNo) := by
    simp [clock.slotNos]
  rw [e] at hn
  have := List.inj_on_of_nodup_map hn (resident_mem h1) (resident_mem h2) he
  exact congrArg Prod.fst this

/-- The first part of a miss keeps the capacity and the target size. -/
theorem evict_c_p (cb : Callbacks K V) {c : CAR K V} (h : Inv c) {inB1 inB2 : Bool}
    {s : slot V} {c1 : CAR K V} (he : evict cb c inB1 inB2 = .done (s, c1)) :
    c1.c = c.c ∧ c1.p = c.p := by
  rcases evict_cases cb h he with ⟨_, rfl, rfl⟩ | ⟨hc, _, c0, ek, c2, hs, hev, htrim⟩
  · exact ⟨rfl, rfl⟩
  · have hfull := InvG.setFull h hc
    have h0 : InvG [] c0 := hs.invG hfull
    have hlen := hs.len_res
    dsimp only at hlen
    have hc0 : ((c0.t1.ring.length + c0.t2.ring.length : Nat) : Int) = c0.c := by
      rw [hs.c_eq, hlen]; exact hc
    have hf0 : c0.full = true := by rw [hs.full_eq]
    have hinv2 : InvG [s.slotNo] c2 := by
      rcases hev with ⟨hh, hg, rfl⟩ | ⟨hh, hg, rfl⟩
      · exact evictT1_invG cb h0 hh hg hc0 hf0
      · exact evictT2_invG cb h0 hh hg hc0 hf0
    obtain ⟨c3, htr, _, _, _, _, ec, ep, _⟩ := trimDir_done hinv2 inB1 inB2
    rw [htrim] at htr
    simp only [Outcome.done.injEq] at htr
    subst htr
    have e2 : c2.c = c0.c ∧ c2.p = c0.p := by
      rcases hev with ⟨_, _, rfl⟩ | ⟨_, _, rfl⟩
      · simp [evictT1]
      · simp [evictT2]
    exact ⟨by rw [ec, e2.1, hs.c_eq], by rw [ep, e2.2, hs.p_eq]⟩

theorem Load_c (cb : Callbacks K V) {c : CAR K V} (h : Inv c) {key : K} {v : Option V}
    {c1 : CAR K V} (hl : Load cb c key = .done (v, c1)) : c1.c = c.c := by
  rw [Load_eq] at hl
  by_cases hb : (hit c key).2.1 = true
  · simp only [hb, ↓reduceIte, Outcome.done.injEq, Prod.mk.injEq] at hl
    rw [← hl.2]
    exact (hit_shuffle h.wt1 h.wt2 key).c_eq
  · simp only [hb, Bool.false_eq_true, ↓reduceIte] at hl
    have hn := (hit_ok_iff h.wt1 h.wt2 key).not.mp hb
    simp only [not_or] at hn
    obtain ⟨s1, c0, he, _, _, _, _, _, ec, _⟩ := miss_spec cb h hn.1 hn.2 hl
    rw [ec, (evict_c_p cb h he).1]

theorem loads_c (cb : Callbacks K V) (keys : List K) :
    ∀ {c c1 : CAR K V}, Inv c → loads cb c keys = .done c1 → c1.c = c.c := by
  induction keys with
  | nil => intro c c1 _ hl; simp only [loads, Outcome.done.injEq] at hl; rw [← hl]
  | cons k rest ih =>
    intro c c1 h hl
    rw [loads] at hl
    split at hl
    · simp at hl
    · simp at hl
    · rename_i v c2 hld
      rw [ih (Load_inv cb h hld) hl, Load_c cb h hld]

end CAR

/-! ## The claims -/

section Claims
variable {K V : Type} [DecidableEq K]
open CAR

/-- C1 (the code fails the claim). Capacity 1, no callbacks, keys 1, 1, 2: the first two
`Load` calls leave key 1 in T1 with its reference flag set; the third selects
`replaceT1`, which moves key 1 to T2, finds T1 empty, and dereferences the nil slot that
`removeHead` returns. The outcome is a panic, not a used-up pass budget. -/
theorem C1_replaceT1_panics_on_flagged_T1 :
    loads (noCallbacks : Callbacks Nat Nat) (NewCAR 1) [1, 1]
      = .done { c := 1, p := 0,
                t1 := { slots := [(1, { ref := 1, slotNo := 0, value := none })], ring := [1] },
                t2 := { slots := [], ring := [] },
                b1 := { keys := [], l := [] }, b2 := { keys := [], l := [] },
                full := false, slotNo := 1, calls := [] } ∧
    loads (noCallbacks : Callbacks Nat Nat) (NewCAR 1) [1, 1, 2] = .panic := by
  constructor <;> decide

/-- C2. After every completed sequence of `Load` calls on a fresh cache of capacity
`n ≥ 1` the size invariants I1 to I7 hold, and both ghost lists are empty as long as
`full` is false. -/
theorem C2_size_invariants (n : Int) (hn : 1 ≤ n) (cb : Callbacks K V) (keys : List K)
    (c : CAR K V) (h : loads cb (NewCAR n) keys = .done c) :
    SizeInvariants c ∧ (c.full = false → c.b1.size = 0 ∧ c.b2.size = 0) := by
  have hi := reach_inv hn cb h
  refine ⟨hi.sizes, ?_⟩
  intro hf
  have := hi.ghost hf
  rw [hi.wb1.size_eq_length, hi.wb2.size_eq_length, this.1, this.2]
  simp

/-- C3. After every completed sequence of `Load` calls on a fresh cache of capacity
`n ≥ 1`, the ring of T1, the ring of T2, the list of B1 and the list of B2 hold no key
twice, within one of them or across them; the same holds of their four maps. -/
theorem C3_no_duplicate_key (n : Int) (hn : 1 ≤ n) (cb : Callbacks K V) (keys : List K)
    (c : CAR K V) (h : loads cb (NewCAR n) keys = .done c) :
    (c.t1.ring ++ c.t2.ring ++ c.b1.l ++ c.b2.l).Nodup ∧
    (c.t1.slots.keys ++ c.t2.slots.keys ++ c.b1.keys.keys ++ c.b2.keys.keys).Nodup := by
  have hi := reach_inv hn cb h
  refine ⟨hi.nodup, ?_⟩
  have hp : (c.t1.slots.keys ++ c.t2.slots.keys ++ c.b1.keys.keys ++ c.b2.keys.keys).Perm
      (c.t1.ring ++ c.t2.ring ++ c.b1.l ++ c.b2.l) :=
    ((hi.wt1.append hi.wt2).append hi.wb1).append hi.wb2
  exact hp.nodup_iff.mpr hi.nodup

/-- C4. After every completed sequence of `Load` calls on a fresh cache of capacity
`n ≥ 1`: no two resident keys have the same slot number; the slot numbers held in T1 and
T2 are exactly the numbers below `|T1| + |T2|`, each once, so all are below the capacity;
and when a further `Load` admits a key that was not resident, every key that held the
new entry's slot number before that `Load` is no longer resident after it. -/
theorem C4_slot_numbers (n : Int) (hn : 1 ≤ n) (cb : Callbacks K V) (keys : List K)
    (c : CAR K V) (h : loads cb (NewCAR n) keys = .done c) :
    (∀ k1 k2 s1 s2, resident c k1 = some s1 → resident c k2 = some s2 →
        s1.slotNo = s2.slotNo → k1 = k2) ∧
    (c.t1.slotNos ++ c.t2.slotNos).Perm (List.range (c.t1.size + c.t2.size)) ∧
    (∀ k s, resident c k = some s → (s.slotNo : Int) < c.c) ∧
    (∀ key v c2 s2, resident c key = none → Load cb c key = .done (v, c2) →
        resident c2 key = some s2 →
        ∀ k s, resident c k = some s → s.slotNo = s2.slotNo → resident c2 k = none) := by
  have hi := reach_inv hn cb h
  have hnos := hi.nos
  simp only [List.nil_append] at hnos
  have hlen : c.slotNo = c.t1.size + c.t2.size := by
    have := hnos.length_eq
    simp only [List.length_append, List.length_range, clock.slotNos, List.length_map] at this
    simp only [clock.size, GoMap.len]
    omega
  refine ⟨fun k1 k2 s1 s2 h1 h2 he => hi.slotNo_unique h1 h2 he, ?_, ?_, ?_⟩
  · rw [← hlen]; exact hnos
  · intro k s hk
    have hm : s.slotNo ∈ c.t1.slotNos ++ c.t2.slotNos := by
      have := List.mem_map_of_mem (fun e : K × slot V => e.2.slotNo) (resident_mem hk)
      simpa [clock.slotNos] using this
    have hlt := List.mem_range.mp (hnos.mem_iff.mp hm)
    have i1 := hi.i1
    simp only [List.length_nil] at i1
    rw [hlen, hi.wt1.size_eq, hi.wt2.size_eq] at hlt
    omega
  · intro key v c2 s2 hnone hl hs2 k s hk hno
    have hnr := (resident_eq_none hi.wt1 hi.wt2 key).mp hnone
    rw [Load_eq] at hl
    have hb : ¬ (hit c key).2.1 = true := by
      rw [hit_ok_iff hi.wt1 hi.wt2]; simp [hnr.1, hnr.2]
    simp only [hb, ↓reduceIte] at hl
    have hi2 := miss_inv cb hi hnr.1 hnr.2 hl
    obtain ⟨s1, c1, he, _, _, _, _, _, _, hres⟩ := miss_spec cb hi hnr.1 hnr.2 hl
    have hkk : k ≠ key := by
      rintro rfl; rw [hnone] at hk; simp at hk
    by_contra hne
    obtain ⟨s3, hs3⟩ := Option.ne_none_iff_exists'.mp hne
    -- the entry of `k` kept its slot number through the miss
    have hkeep : s3.slotNo = s.slotNo := by
      have h3 := hres k
      rw [if_neg hkk, hs3] at h3
      rcases evict_spec cb hi he with ⟨_, _, rfl⟩ | ⟨_, _, _, ek, s0, _, _, hek, _, hinfo⟩
      · have : resident ({ c with slotNo := c.slotNo + 1 } : CAR K V) k = resident c k :=
          resident_congr rfl rfl k
        rw [this, hk] at h3
        simp only [Option.some.injEq] at h3
        rw [h3]
      · have hkek : k ≠ ek := by
          rintro rfl; rw [hek] at h3; simp at h3
        have := hinfo k hkek
        rw [← h3, hk] at this
        simp only [Option.map_some', Option.some.injEq, slot.info, Prod.mk.injEq] at this
        exact this.1
    exact hkk (hi2.slotNo_unique hs3 hs2 (by rw [hkeep, hno]))

/-- C6. After every completed sequence of `Load` calls on a fresh cache of capacity
`n ≥ 1` the target size `p` lies between 0 and the capacity. -/
theorem C6_target_in_range (n : Int) (hn : 1 ≤ n) (cb : Callbacks K V) (keys : List K)
    (c : CAR K V) (h : loads cb (NewCAR n) keys = .done c) :
    0 ≤ c.p ∧ c.p ≤ c.c ∧ c.c = n := by
  have hi := reach_inv hn cb h
  refine ⟨hi.p0, hi.pc, ?_⟩
  rw [loads_c cb keys (NewCAR_inv hn) h]
  rfl

end Claims
end Car

/-! ### Claim C5 and examples -/

namespace Car
section Claims
variable {K V : Type} [DecidableEq K]
open CAR

theorem C2_size_invariants_witness :
    (1 : Int) ≤ 2 ∧ loads noCallbacks (NewCAR 2) [1, 2, 1, 3, 2] = .done demoB ∧
    (SizeInvariants demoB ∧ (demoB.full = false → demoB.b1.size = 0 ∧ demoB.b2.size = 0)) :=
  ⟨by decide, by decide,
    C2_size_invariants 2 (by decide) noCallbacks [1, 2, 1, 3, 2] demoB (by decide)⟩

theorem C3_no_duplicate_key_witness :
    (1 : Int) ≤ 2 ∧ loads noCallbacks (NewCAR 2) [1, 2, 1, 3, 2] = .done demoB ∧
    ((demoB.t1.ring ++ demoB.t2.ring ++ demoB.b1.l ++ demoB.b2.l).Nodup ∧
     (demoB.t1.slots.keys ++ demoB.t2.slots.keys ++ demoB.b1.keys.keys
        ++ demoB.b2.keys.keys).Nodup) :=
  ⟨by decide, by decide,
    C3_no_duplicate_key 2 (by decide) noCallbacks [1, 2, 1, 3, 2] demoB (by decide)⟩

theorem C4_slot_numbers_witness :
    (1 : Int) ≤ 2 ∧ loads noCallbacks (NewCAR 2) [1, 2, 1, 3] = .done demoA ∧
    Load noCallbacks demoA 2 = .done (none, demoB) ∧
    resident demoA 3 = some { ref := 0, slotNo := 1, value := none } ∧
    resident demoB 2 = some { ref := 0, slotNo := 1, value := none } ∧
    resident demoB 3 = none :=
  ⟨by decide, by decide, by decide, by decide, by decide,
    (C4_slot_numbers 2 (by decide) noCallbacks [1, 2, 1, 3] demoA (by decide)).2.2.2
      2 none demoB { ref := 0, slotNo := 1, value := none } (by decide) (by decide) (by decide)
      3 { ref := 0, slotNo := 1, value := none } (by decide) rfl⟩

theorem C6_target_in_range_witness :
    (1 : Int) ≤ 2 ∧ loads noCallbacks (NewCAR 2) [1, 2, 1, 3, 2] = .done demoB ∧
    (0 ≤ demoB.p ∧ demoB.p ≤ demoB.c ∧ demoB.c = 2) :=
  ⟨by decide, by decide,
    C6_target_in_range 2 (by decide) noCallbacks [1, 2, 1, 3, 2] demoB (by decide)⟩

/-- C5. In every state reached by completed `Load` calls on a fresh cache of capacity
`n ≥ 1`, a `Load` of a resident key returns the value held in the slot of the key and
calls no callback. It leaves the rings of T1 and T2, the ghost lists, `c`, `p`, `full`
and the slot counter as they are, keeps the keys of both maps, and changes the slots
only in that the slot of the key has its reference flag set to `refOne`. The size of T1
and T2 is kept, and a second `Load` of the key returns the same value and changes
nothing at all. -/
theorem C5_hit_frame (n : Int) (hn : 1 ≤ n) (cb : Callbacks K V) (keys : List K)
    (c : CAR K V) (h : loads cb (NewCAR n) keys = .done c) (key : K) (s : slot V)
    (hres : resident c key = some s) :
    ∃ c2, Load cb c key = .done (s.value, c2) ∧
      c2.calls = c.calls ∧
      c2.t1.ring = c.t1.ring ∧ c2.t2.ring = c.t2.ring ∧ c2.b1 = c.b1 ∧ c2.b2 = c.b2 ∧
      c2.c = c.c ∧ c2.p = c.p ∧ c2.full = c.full ∧ c2.slotNo = c.slotNo ∧
      c2.t1.slots.keys = c.t1.slots.keys ∧ c2.t2.slots.keys = c.t2.slots.keys ∧
      (∀ k, c2.t1.getSlot k =
        if k = key then (c.t1.getSlot k).map (fun x => { x with ref := refOne })
        else c.t1.getSlot k) ∧
      (∀ k, c2.t2.getSlot k =
        if k = key then (c.t2.getSlot k).map (fun x => { x with ref := refOne })
        else c.t2.getSlot k) ∧
      c2.t1.size = c.t1.size ∧ c2.t2.size = c.t2.size ∧
      Load cb c2 key = .done (s.value, c2) := by
  have hi := reach_inv hn cb h
  simp only [Load_eq]
  simp only [resident, clock.getSlot] at hres
  cases h1 : c.t1.slots.get key with
  | some s1 =>
    rw [h1] at hres
    simp only [Option.some.injEq] at hres
    subst hres
    have hk1 : key ∈ c.t1.ring := hi.wt1.mem_of_get h1
    have hk2 : key ∉ c.t2.ring := fun hm => (List.nodup_append.mp hi.nodup12).2.2 hk1 hm
    have h2 : c.t2.slots.get key = none := (hi.wt2.get_eq_none key).mpr hk2
    have hkeys := GoMap.keys_set_of_mem { s1 with ref := refOne } (GoMap.mem_keys_of_get h1)
    have hh : hit c key = (s1.value, true,
        { c with t1 := { c.t1 with slots := c.t1.slots.set key { s1 with ref := refOne } } }) := by
      simp only [hit, clock.getSlot, h1]
    have hg2 : (c.t1.slots.set key { s1 with ref := refOne }).get key
        = some { s1 with ref := refOne } := by
      rw [GoMap.get_set]; simp
    have hh2 : hit ({ c with t1 := { c.t1 with slots := c.t1.slots.set key { s1 with ref := refOne } } } :
        CAR K V) key = (s1.value, true,
        { c with t1 := { c.t1 with slots := c.t1.slots.set key { s1 with ref := refOne } } }) := by
      simp only [hit, clock.getSlot, hg2]
      rw [GoMap.set_get_self hg2]
    refine ⟨{ c with t1 := { c.t1 with slots := c.t1.slots.set key { s1 with ref := refOne } } },
      by rw [hh]; rfl, rfl, rfl, rfl, rfl, rfl, rfl, rfl, rfl, rfl, hkeys, rfl, ?_, ?_,
      ?_, rfl, by rw [hh2]; rfl⟩
    · intro k
      simp only [clock.getSlot, GoMap.get_set]
      by_cases hk : k = key
      · subst hk; simp [h1]
      · simp [hk, Ne.symm hk]
    · intro k
      by_cases hk : k = key
      · subst hk; simp [clock.getSlot, h2]
      · simp [hk]
    · simp only [clock.size, GoMap.len_eq_keys_length, hkeys]
  | none =>
    rw [h1] at hres
    simp only at hres
    have hk2 : key ∈ c.t2.ring := hi.wt2.mem_of_get hres
    have hkeys := GoMap.keys_set_of_mem { s with ref := refOne } (GoMap.mem_keys_of_get hres)
    have hh : hit c key = (s.value, true,
        { c with t2 := { c.t2 with slots := c.t2.slots.set key { s with ref := refOne } } }) := by
      simp only [hit, clock.getSlot, h1, hres]
    have hg2 : (c.t2.slots.set key { s with ref := refOne }).get key
        = some { s with ref := refOne } := by
      rw [GoMap.get_set]; simp
    have hh2 : hit ({ c with t2 := { c.t2 with slots := c.t2.slots.set key { s with ref := refOne } } } :
        CAR K V) key = (s.value, true,
        { c with t2 := { c.t2 with slots := c.t2.slots.set key { s with ref := refOne } } }) := by
      simp only [hit, clock.getSlot, h1, hg2]
      rw [GoMap.set_get_self hg2]
    refine ⟨{ c with t2 := { c.t2 with slots := c.t2.slots.set key { s with ref := refOne } } },
      by rw [hh]; rfl, rfl, rfl, rfl, rfl, rfl, rfl, rfl, rfl, rfl, rfl, hkeys, ?_, ?_,
      rfl, ?_, by rw [hh2]; rfl⟩
    · intro k
      by_cases hk : k = key
      · subst hk; simp [clock.getSlot, h1]
      · simp [hk]
    · intro k
      simp only [clock.getSlot, GoMap.get_set]
      by_cases hk : k = key
      · subst hk; simp [hres]
      · simp [hk, Ne.symm hk]
    · simp only [clock.size, GoMap.len_eq_keys_length, hkeys]

theorem C5_hit_frame_witness :
    (1 : Int) ≤ 2 ∧ loads noCallbacks (NewCAR 2) [1, 2, 1, 3, 2] = .done demoB ∧
    resident demoB 1 = some { ref := 0, slotNo := 0, value := none } ∧
    ∃ c2, Load noCallbacks demoB 1 = .done (none, c2) ∧ c2.calls = demoB.calls ∧
      c2.t2.ring = demoB.t2.ring ∧ c2.t2.size = demoB.t2.size ∧
      Load noCallbacks c2 1 = .done (none, c2) := by
  refine ⟨by decide, by decide, by decide, ?_⟩
  obtain ⟨c2, h1, h2, _, h4, _, _, _, _, _, _, _, _, _, _, _, h16, h17⟩ :=
    C5_hit_frame 2 (by decide) noCallbacks [1, 2, 1, 3, 2] demoB (by decide) 1
      { ref := 0, slotNo := 0, value := none } (by decide)
  exact ⟨c2, h1, h2, h4, h16, h17⟩

end Claims
end Car

/-! ### Claim C8 -/

namespace Car
namespace CAR
variable {K V : Type} [DecidableEq K]

theorem loadValue_some {cb : Callbacks K V} {f : List (Call K V) → K → Nat → Option V}
    (hf : cb.cbLoadValue = some f) (c : CAR K V) (key : K) (s : slot V) :
    loadValue cb c key s =
      ({ s with value := f c.calls key s.slotNo },
       { c with calls := c.calls ++ [Call.load key s.slotNo] }) := by
  simp only [loadValue, hf]

theorem loadValue_none {cb : Callbacks K V} (hf : cb.cbLoadValue = none) (c : CAR K V)
    (key : K) (s : slot V) :
    loadValue cb c key s = ({ s with value := none }, c) := by
  simp only [loadValue, hf]

theorem loadValue_calls (cb : Callbacks K V) (c : CAR K V) (key : K) (s : slot V) :
    (loadValue cb c key s).2.calls =
      c.calls ++ (if cb.cbLoadValue.isSome then [Call.load key s.slotNo] else []) := by
  cases hf : cb.cbLoadValue with
  | none => simp [loadValue_none hf]
  | some f => simp [loadValue_some hf]

theorem Inv.slotNo_eq {c : CAR K V} (h : Inv c) : c.slotNo = c.t1.size + c.t2.size := by
  have hnos := h.nos
  simp only [List.nil_append] at hnos
  have := hnos.length_eq
  simp only [List.length_append, List.length_range, clock.slotNos, List.length_map] at this
  simp only [clock.size, GoMap.len]
  omega

/-- A `Load` of a key that is not resident is the miss. -/
theorem Load_of_not_resident (cb : Callbacks K V) {c : CAR K V} (h : Inv c) {key : K}
    (hnr : resident c key = none) :
    Load cb c key = miss cb c key ∧ key ∉ c.t1.ring ∧ key ∉ c.t2.ring := by
  have hn := (resident_eq_none h.wt1 h.wt2 key).mp hnr
  have hb : ¬ (hit c key).2.1 = true := by
    rw [hit_ok_iff h.wt1 h.wt2]; simp [hn.1, hn.2]
  rw [Load_eq, if_neg hb]
  exact ⟨rfl, hn⟩

end CAR

section Claims
variable {K V : Type} [DecidableEq K]
open CAR

/-- C8. In a state reached by completed `Load` calls on a fresh cache of capacity
`n ≥ 1`, let a `Load` of a key that is not resident complete. If it finds
`|T1| + |T2| = c`, exactly one resident key `ek` is evicted: it is no longer resident,
every other resident entry keeps slot number and value, and `|T1| + |T2|` is again `c`;
the calls added are the replacement callback (if set) with `ek`, the value and the slot
number it held, then the load callback (if set) with the new key and that same slot
number, which the new entry has; the slot counter is kept. If it finds
`|T1| + |T2| < c`, no resident entry changes, the only call added is that of the load
callback (if set) with the value of the slot counter, which the new entry has as slot
number, and the slot counter is incremented by one. -/
theorem C8_eviction_and_slot_reuse (n : Int) (hn : 1 ≤ n) (cb : Callbacks K V)
    (keys : List K) (c : CAR K V) (h : loads cb (NewCAR n) keys = .done c) (key : K)
    (hnr : resident c key = none) (v : Option V) (c2 : CAR K V)
    (hl : Load cb c key = .done (v, c2)) :
    (((c.t1.size + c.t2.size : Nat) : Int) = c.c →
      ∃ ek s0, resident c ek = some s0 ∧ resident c2 ek = none ∧
        (∀ k, k ≠ ek → k ≠ key →
          (resident c2 k).map slot.info = (resident c k).map slot.info) ∧
        c2.calls = c.calls
          ++ (if cb.cbReplaceValue then [Call.replace ek s0.value s0.slotNo] else [])
          ++ (if cb.cbLoadValue.isSome then [Call.load key s0.slotNo] else []) ∧
        (resident c2 key).map (fun s => s.slotNo) = some s0.slotNo ∧
        c2.slotNo = c.slotNo ∧
        c2.t1.size + c2.t2.size = c.t1.size + c.t2.size) ∧
    (((c.t1.size + c.t2.size : Nat) : Int) < c.c →
      (∀ k, k ≠ key → resident c2 k = resident c k) ∧
      c2.calls = c.calls ++ (if cb.cbLoadValue.isSome then [Call.load key c.slotNo] else []) ∧
      (resident c2 key).map (fun s => s.slotNo) = some c.slotNo ∧
      c2.slotNo = c.slotNo + 1 ∧
      c2.t1.size + c2.t2.size = c.t1.size + c.t2.size + 1) := by
  have hi := reach_inv hn cb h
  obtain ⟨hle, hk1, hk2⟩ := Load_of_not_resident cb hi hnr
  rw [hle] at hl
  have hi2 := miss_inv cb hi hk1 hk2 hl
  obtain ⟨s, c1, he, hp, hr1, hv, hcalls, hsn, _, hres⟩ := miss_spec cb hi hk1 hk2 hl
  rw [loadValue_calls] at hcalls
  have hkey : (resident c2 key).map (fun s => s.slotNo) = some s.slotNo := by
    rw [hres key, if_pos rfl]; simp
  constructor
  · intro hfull
    rcases evict_spec cb hi he with ⟨hne, _, _⟩ | ⟨_, _, hsn1, ek, s0, hek, hinfo0, hek1, hc, hinfo⟩
    · exact absurd hfull hne
    · have hno : s0.slotNo = s.slotNo := by
        have := congrArg Prod.fst hinfo0; simpa [slot.info] using this
      have hkek : ek ≠ key := by
        rintro rfl; rw [hnr] at hek; simp at hek
      refine ⟨ek, s0, hek, ?_, ?_, ?_, ?_, ?_, ?_⟩
      · rw [hres ek, if_neg hkek]; exact hek1
      · intro k hk hkk
        rw [hres k, if_neg hkk]; exact hinfo k hk
      · rw [hcalls, hc, hno]
      · rw [hkey, hno]
      · rw [hsn, hsn1]
      · rw [← hi2.slotNo_eq, ← hi.slotNo_eq, hsn, hsn1]
  · intro hlt
    rcases evict_spec cb hi he with ⟨_, rfl, rfl⟩ | ⟨heq, _⟩
    · refine ⟨?_, ?_, ?_, ?_, ?_⟩
      · intro k hk
        rw [hres k, if_neg hk]
        exact resident_congr rfl rfl k
      · rw [hcalls]; rfl
      · rw [hkey]; rfl
      · rw [hsn]
      · rw [← hi2.slotNo_eq, ← hi.slotNo_eq, hsn]
    · omega

end Claims
end Car

/-! ### Filling a fresh cache with distinct keys -/

namespace Car
namespace CAR
variable {K V : Type} [DecidableEq K]

theorem filling_new (f : List (Call K V) → K → Nat → Option V) (n : Int) :
    Filling f (NewCAR n : CAR K V) [] := by
  constructor <;> simp [NewCAR, clock.newClock, lru.newLru, GoMap.get]

/-- Loading one more distinct key below the capacity: the load callback is called with
the key and the slot counter, no entry is replaced, and the loaded value is returned. -/
theorem filling_step (f : List (Call K V) → K → Nat → Option V) {c : CAR K V}
    {pre : List K} (hf : Filling f c pre) {k : K} (hk : k ∉ pre)
    (hlt : (pre.length : Int) < c.c) :
    ∃ c1, Load (bothCallbacks f) c k = .done (f c.calls k pre.length, c1) ∧
      c1.calls = c.calls ++ [Call.load k pre.length] ∧ c1.c = c.c ∧
      Filling f c1 (pre ++ [k]) := by
  have hw : c.t1.WF := by rw [clock.WF, hf.keys, hf.ring]
  have hkk : k ∉ c.t1.slots.keys := by rw [hf.keys]; exact hk
  have hg1 : c.t1.slots.get k = none := (GoMap.get_eq_none_iff _ _).mpr hkk
  have hg2 : c.t2.slots.get k = none := by rw [hf.t2]; rfl
  have hhit : hit c k = (none, false, c) := by
    simp only [hit, clock.getSlot, hg1, hg2]
  have hs1 : c.t1.size = pre.length := by rw [hw.size_eq, hf.ring]
  have hs2 : c.t2.size = 0 := by rw [hf.t2]; rfl
  have hx1 : c.b1.exist k = false := by rw [hf.b1]; rfl
  have hx2 : c.b2.exist k = false := by rw [hf.b2]; rfl
  have hne : ¬ (((pre.length + 0 : Nat) : Int) = c.c) := by
    simp only [Nat.add_zero]; omega
  have hev : ∀ cb : Callbacks K V, evict cb c false false
      = .done (newSlot c.slotNo, { c with slotNo := c.slotNo + 1 }) := by
    intro cb
    simp only [evict, hs1, hs2, hne, ↓reduceIte]
  refine ⟨{ c with slotNo := c.slotNo + 1, calls := c.calls ++ [Call.load k c.slotNo],
                   t1 := { slots := c.t1.slots.set k { ref := 0, slotNo := c.slotNo,
                                                        value := f c.calls k c.slotNo },
                           ring := c.t1.ring ++ [k] } }, ?_, ?_, rfl, ?_⟩
  · rw [Load_eq, hhit]
    simp only [Bool.false_eq_true, ↓reduceIte]
    simp only [miss, hx1, hx2, hev, loadValue, bothCallbacks, place, Bool.false_eq_true,
      ↓reduceIte, newSlot, hw.insertTail_eq, hf.slotNo]
  · simp only [hf.slotNo]
  · refine { ring := by simp only [hf.ring], keys := ?_, t2 := hf.t2, b1 := hf.b1,
             b2 := hf.b2, full := hf.full, p := hf.p, slotNo := ?_, refs := ?_, calls := ?_,
             head := ?_ }
    · simp only [GoMap.keys_set_of_not_mem _ hkk, hf.keys]
    · simp only [hf.slotNo, List.length_append, List.length_singleton]
    · intro k' s hg
      simp only [GoMap.get_set] at hg
      split at hg
      · simp only [Option.some.injEq] at hg
        rw [← hg]; rfl
      · exact hf.refs k' s hg
    · simp only [hf.calls, hf.slotNo, List.enum_append, List.enumFrom_singleton, List.map_append,
        List.map_cons, List.map_nil]
    · intro k0 rest hpre
      simp only [GoMap.get_set]
      cases pre with
      | nil =>
        simp only [List.nil_append, List.cons.injEq] at hpre
        have hc0 : c.calls = [] := by rw [hf.calls]; rfl
        have hs0 : c.slotNo = 0 := by rw [hf.slotNo]; rfl
        simp only [hpre.1, ↓reduceIte, hc0, hs0]
      | cons a r =>
        simp only [List.cons_append, List.cons.injEq] at hpre
        have hak : ¬ k = k0 := by
          rintro rfl
          exact hk (by rw [hpre.1]; simp)
        simp only [hak, ↓reduceIte]
        rw [← hpre.1]
        exact hf.head a r rfl

/-- Loading distinct keys, at most as many as the capacity, into a fresh cache. -/
theorem filling_loads (f : List (Call K V) → K → Nat → Option V) (n : Int) (pre : List K) :
    pre.Nodup → (pre.length : Int) ≤ n →
    ∃ c, loads (bothCallbacks f) (NewCAR n) pre = .done c ∧ c.c = n ∧ Filling f c pre := by
  induction pre using List.reverseRecOn with
  | nil => intro _ _; exact ⟨_, rfl, rfl, filling_new f n⟩
  | append_singleton pre k ih =>
    intro hnd hlen
    have hnd2 := List.nodup_append.mp hnd
    simp only [List.length_append, List.length_singleton] at hlen
    obtain ⟨c, hl, hc, hf⟩ := ih hnd2.1 (by push_cast at hlen; omega)
    have hk : k ∉ pre := fun hm => hnd2.2.2 hm (List.mem_singleton_self k)
    obtain ⟨c1, hld, _, hc1, hf1⟩ := filling_step f hf hk (by rw [hc]; push_cast at hlen; omega)
    refine ⟨c1, ?_, by rw [hc1, hc], hf1⟩
    rw [loads_append, hl]
    simp only [loads, hld]

end CAR
end Car

/-! ### Claim C9 -/

namespace Car
namespace CAR
variable {K V : Type} [DecidableEq K]

/-- When the head of T1 has its flag unset, `replaceT1` evicts it in its first pass. -/
theorem replaceT1_head_unset (cb : Callbacks K V) {c : CAR K V} (hw : c.t1.WF) {key : K}
    {r : List K} {s : slot V} (hr : c.t1.ring = key :: r)
    (hg : c.t1.slots.get key = some s) (hz : s.ref = refZero) :
    replaceT1 cb c = .done (s, evictT1 cb c key s) := by
  unfold replaceT1
  rw [replaceT1Loop, hw.removeHead_cons hr]
  simp only [hg, hz, ↓reduceIte, evictT1, hr, List.tail_cons]

/-- The `Load` of one more distinct key into a cache filled to its capacity with
distinct keys: the first key loaded is evicted, the replacement callback is called
with it, its value and slot number 0, then the load callback with the new key and slot
number 0. -/
theorem filled_step (f : List (Call K V) → K → Nat → Option V) {c : CAR K V} (hi : Inv c)
    {k0 : K} {rest : List K} (hf : Filling f c (k0 :: rest))
    (hc : c.c = ((rest.length + 1 : Nat) : Int)) {kl : K} (hk : kl ∉ k0 :: rest) :
    ∃ c2, Load (bothCallbacks f) c kl
        = .done (f (c.calls ++ [Call.replace k0 (f [] k0 0) 0]) kl 0, c2) ∧
      c2.calls = c.calls ++ [Call.replace k0 (f [] k0 0) 0, Call.load kl 0] := by
  have hnr : resident c kl = none := by
    rw [resident_eq_none hi.wt1 hi.wt2, hf.ring, hf.t2]
    exact ⟨hk, by simp [clock.newClock]⟩
  obtain ⟨hle, hk1, hk2⟩ := Load_of_not_resident (bothCallbacks f) hi hnr
  have hx1 : c.b1.exist kl = false := by rw [hf.b1]; rfl
  have hx2 : c.b2.exist kl = false := by rw [hf.b2]; rfl
  have hs1 : c.t1.size = rest.length + 1 := by rw [hi.wt1.size_eq, hf.ring]; rfl
  have hs2 : c.t2.size = 0 := by rw [hf.t2]; rfl
  have hfullc : ((c.t1.ring.length + c.t2.ring.length : Nat) : Int) = c.c := by
    rw [← hi.wt1.size_eq, ← hi.wt2.size_eq, hs1, hs2, hc]
  have hfull := InvG.setFull hi hfullc
  have hg := hf.head k0 rest rfl
  have hrep := replaceT1_head_unset (bothCallbacks f) (c := { c with full := true })
    hi.wt1 hf.ring hg rfl
  have hh0 : ({ c with full := true } : CAR K V).t1.ring.head? = some k0 := by
    simp only [hf.ring, List.head?_cons]
  have hinv1 := evictT1_invG (bothCallbacks f) hfull hh0 hg hfullc rfl
  obtain ⟨c1, htr, _, _, _, hcalls, _⟩ := trimDir_done hinv1 false false
  have hcond1 : ((c.t1.size + c.t2.size : Nat) : Int) = c.c := by
    rw [hs1, hs2, hc]
  have hcond2 : (c.t1.size : Int) ≥ max 1 c.p := by
    rw [hs1, hf.p]; unfold max; split <;> omega
  have hev : evict (bothCallbacks f) c (c.b1.exist kl) (c.b2.exist kl)
      = .done ({ ref := 0, slotNo := 0, value := f [] k0 0 }, c1) := by
    rw [hx1, hx2]
    simp only [evict, hcond1, hcond2, ↓reduceIte, hrep, htr]
  obtain ⟨c2, hm, _⟩ := miss_of_evict (bothCallbacks f) hi hk1 hk2 hev
  obtain ⟨s', c1', he', _, _, _, hcalls2, _⟩ := miss_spec (bothCallbacks f) hi hk1 hk2 hm
  rw [hev] at he'
  simp only [Outcome.done.injEq, Prod.mk.injEq] at he'
  obtain ⟨rfl, rfl⟩ := he'
  have hc1 : c1.calls = c.calls ++ [Call.replace k0 (f [] k0 0) 0] := by
    rw [hcalls]
    simp only [evictT1, notifyReplace_calls, bothCallbacks, ↓reduceIte]
  have hlv : loadValue (bothCallbacks f) c1 kl { ref := 0, slotNo := 0, value := f [] k0 0 }
      = ({ ref := 0, slotNo := 0, value := f c1.calls kl 0 },
         { c1 with calls := c1.calls ++ [Call.load kl 0] }) := loadValue_some rfl _ _ _
  refine ⟨c2, ?_, ?_⟩
  · rw [hle, hm, hlv, hc1]
  · rw [hcalls2, hlv]
    simp only [hc1, List.append_assoc, List.singleton_append]

end CAR

section Claims
variable {K V : Type} [DecidableEq K]
open CAR

/-- C9. Capacity `n ≥ 1`, both callbacks set, `n + 1` pairwise distinct keys
`k0 :: rest ++ [kl]` loaded in order into a fresh cache. Every `Load` among the first
`n`, say of key `k` after the keys `pre`, completes, calls the load callback with
`(k, pre.length)` and nothing else, and returns what the callback returns. The `Load`
of `kl` completes; it calls the replacement callback once, with `k0`, the value loaded
for `k0` and slot number 0, then the load callback with `(kl, 0)`, and returns what the
load callback returns. -/
theorem C9_fill_then_replace (n : Nat) (f : List (Call K V) → K → Nat → Option V)
    (k0 : K) (rest : List K) (kl : K) (hlen : rest.length + 1 = n)
    (hnd : (k0 :: rest ++ [kl]).Nodup) :
    (∀ pre k post, k0 :: rest = pre ++ k :: post →
      ∃ ci ci1, loads (bothCallbacks f) (NewCAR (n : Int)) pre = .done ci ∧
        ci.calls = pre.enum.map (fun e => Call.load e.2 e.1) ∧
        Load (bothCallbacks f) ci k = .done (f ci.calls k pre.length, ci1) ∧
        ci1.calls = ci.calls ++ [Call.load k pre.length]) ∧
    (∃ cn c2, loads (bothCallbacks f) (NewCAR (n : Int)) (k0 :: rest) = .done cn ∧
      cn.calls = (k0 :: rest).enum.map (fun e => Call.load e.2 e.1) ∧
      resident cn k0 = some { ref := 0, slotNo := 0, value := f [] k0 0 } ∧
      Load (bothCallbacks f) cn kl
        = .done (f (cn.calls ++ [Call.replace k0 (f [] k0 0) 0]) kl 0, c2) ∧
      c2.calls = cn.calls ++ [Call.replace k0 (f [] k0 0) 0, Call.load kl 0]) := by
  have hnd2 := List.nodup_append.mp hnd
  have hn1 : (1 : Int) ≤ (n : Int) := by omega
  constructor
  · intro pre k post hsplit
    have hndp : (pre ++ k :: post).Nodup := by rw [← hsplit]; exact hnd2.1
    have hlenp : pre.length + 1 + post.length = n := by
      have := congrArg List.length hsplit
      simp only [List.length_cons, List.length_append] at this
      omega
    obtain ⟨ci, hl, hc, hf⟩ := filling_loads f (n : Int) pre (List.nodup_append.mp hndp).1
      (by omega)
    have hk : k ∉ pre := fun hm =>
      (List.nodup_append.mp hndp).2.2 hm (List.mem_cons_self k post)
    obtain ⟨ci1, hld, hcalls, _, _⟩ := filling_step f hf hk (by rw [hc]; omega)
    exact ⟨ci, ci1, hl, hf.calls, hld, hcalls⟩
  · obtain ⟨cn, hl, hc, hf⟩ := filling_loads f (n : Int) (k0 :: rest) hnd2.1
      (by simp only [List.length_cons]; omega)
    have hi : Inv cn := reach_inv hn1 (bothCallbacks f) hl
    have hk : kl ∉ k0 :: rest := fun hm => hnd2.2.2 hm (List.mem_singleton_self kl)
    obtain ⟨c2, hld, hcalls⟩ := filled_step f hi hf (by rw [hc, ← hlen]) hk
    refine ⟨cn, c2, hl, hf.calls, ?_, hld, hcalls⟩
    simp only [resident, clock.getSlot, hf.head k0 rest rfl]

end Claims
end Car

/-! ### Examples; claim C10 -/

namespace Car
section Claims
open CAR

theorem C8_eviction_and_slot_reuse_witness :
    (1 : Int) ≤ 3 ∧
    loads (bothCallbacks exampleLoad) (NewCAR 3) [0, 1, 2] = .done exampleFull ∧
    resident exampleFull 3 = none ∧
    Load (bothCallbacks exampleLoad) exampleFull 3
      = .done (some "Cache replacement policy", exampleEnd) ∧
    ((exampleFull.t1.size + exampleFull.t2.size : Nat) : Int) = exampleFull.c ∧
    ∃ ek s0, resident exampleFull ek = some s0 ∧ resident exampleEnd ek = none ∧
      (∀ k, k ≠ ek → k ≠ 3 →
        (resident exampleEnd k).map slot.info = (resident exampleFull k).map slot.info) ∧
      exampleEnd.calls = exampleFull.calls
        ++ (if (bothCallbacks exampleLoad).cbReplaceValue
              then [Call.replace ek s0.value s0.slotNo] else [])
        ++ (if (bothCallbacks exampleLoad).cbLoadValue.isSome
              then [Call.load 3 s0.slotNo] else []) ∧
      (resident exampleEnd 3).map (fun s => s.slotNo) = some s0.slotNo ∧
      exampleEnd.slotNo = exampleFull.slotNo ∧
      exampleEnd.t1.size + exampleEnd.t2.size = exampleFull.t1.size + exampleFull.t2.size :=
  ⟨by decide, by decide, by decide, by decide, by decide,
    (C8_eviction_and_slot_reuse 3 (by decide) (bothCallbacks exampleLoad) [0, 1, 2]
      exampleFull (by decide) 3 (by decide) (some "Cache replacement policy") exampleEnd
      (by decide)).1 (by decide)⟩

theorem C9_fill_then_replace_witness :
    [1, 2].length + 1 = 3 ∧ (0 :: [1, 2] ++ [3]).Nodup ∧
    loadsLog (bothCallbacks exampleLoad) (NewCAR 3) [0, 1, 2, 3]
      = .done ([some "Clock with adaptive replacement (CAR)", some "Golang",
                some "Hello World", some "Cache replacement policy"], exampleEnd) ∧
    ∃ cn c2, loads (bothCallbacks exampleLoad) (NewCAR ((3 : Nat) : Int)) (0 :: [1, 2]) = .done cn ∧
      cn.calls = (0 :: [1, 2]).enum.map (fun e => Call.load e.2 e.1) ∧
      resident cn 0 = some { ref := 0, slotNo := 0, value := exampleLoad [] 0 0 } ∧
      Load (bothCallbacks exampleLoad) cn 3
        = .done (exampleLoad (cn.calls ++ [Call.replace 0 (exampleLoad [] 0 0) 0]) 3 0, c2) ∧
      c2.calls = cn.calls ++ [Call.replace 0 (exampleLoad [] 0 0) 0, Call.load 3 0] :=
  ⟨by decide, by decide, by decide,
    (C9_fill_then_replace 3 exampleLoad 0 [1, 2] 3 (by decide) (by decide)).2⟩

/-- C10 (the claim as stated fails). After the `Load` calls for keys 1, 2, 3, 4 on a
fresh cache of capacity 3 without callbacks, B1 does not hold one key. -/
theorem C10_counterexample :
    ¬ ∃ c : CAR Nat Nat, loads noCallbacks (NewCAR 3) [1, 2, 3, 4] = .done c ∧
        c.t1.size + c.t2.size = 3 ∧ c.b1.size = 1 := by
  rintro ⟨c, h, _, hb⟩
  have e : loads (noCallbacks : Callbacks Nat Nat) (NewCAR 3) [1, 2, 3, 4] = .done scanEnd := by
    decide
  rw [e] at h
  simp only [Outcome.done.injEq] at h
  subst h
  revert hb
  decide

/-- C10 (amended). Capacity 3, no callbacks. The `Load` calls for keys 1, 2, 3 leave
T1 = [1, 2, 3] and both ghost lists empty. The `Load` of key 4 runs `replaceT1`, which
moves the head of T1, key 1, to B1; the directory replacement then finds
`|T1| + |B1| = c` for a key in neither ghost list and drops the tail of B1, which is
key 1; key 4 is admitted at the tail of T1 with the slot of key 1. The resulting state
has T1 = [2, 3, 4], `|T1| + |T2| = 3` and B1 empty. -/
theorem C10_scan_of_four_keys :
    loads noCallbacks (NewCAR 3) [1, 2, 3] = .done scanFull ∧
    scanFull.t1.ring = [1, 2, 3] ∧ scanFull.t2.ring = [] ∧
    scanFull.b1.l = [] ∧ scanFull.b2.l = [] ∧
    replaceT1 noCallbacks { scanFull with full := true }
      = .done ({ ref := 0, slotNo := 0, value := none }, scanEvicted) ∧
    scanEvicted.t1.ring = [2, 3] ∧ scanEvicted.b1.l = [1] ∧
    ((scanEvicted.t1.size + scanEvicted.b1.size : Nat) : Int) = scanEvicted.c ∧
    (∃ c1, trimDir scanEvicted false false = .done c1 ∧ c1.b1.l = [] ∧ c1.b1.size = 0) ∧
    Load noCallbacks scanFull 4 = .done (none, scanEnd) ∧
    loads noCallbacks (NewCAR 3) [1, 2, 3, 4] = .done scanEnd ∧
    scanEnd.t1.ring = [2, 3, 4] ∧
    resident scanEnd 4 = some { ref := 0, slotNo := 0, value := none } ∧
    scanEnd.t1.size + scanEnd.t2.size = 3 ∧
    scanEnd.b1.l = [] ∧ scanEnd.b1.size = 0 ∧ scanEnd.b2.size = 0 := by
  refine ⟨by decide, by decide, by decide, by decide, by decide, by decide, by decide,
    by decide, by decide, ?_, by decide, by decide, by decide, by decide, by decide,
    by decide, by decide, by decide⟩
  exact ⟨{ scanEvicted with b1 := { keys := [], l := [] } }, by decide, by decide, by decide⟩

end Claims
end Car

/-! ### The first part of a miss on a full cache; claim C20 -/

namespace Car
namespace CAR
variable {K V : Type} [DecidableEq K]

/-- After `replaceT1` or `replaceT2` has returned in a full cache, the invariant holds
with the returned slot held. -/
theorem replaced_invG (cb : Callbacks K V) {c : CAR K V} (h : Inv c)
    (hc : ((c.t1.ring.length + c.t2.ring.length : Nat) : Int) = c.c) {s : slot V}
    {c1 : CAR K V}
    (hrep : replaceT1 cb { c with full := true } = .done (s, c1) ∨
            replaceT2 cb { c with full := true } = .done (s, c1)) :
    InvG [s.slotNo] c1 := by
  have hfull := InvG.setFull h hc
  have key : ∀ c0 : CAR K V, Shuffle ({ c with full := true } : CAR K V) c0 →
      InvG [] c0 ∧ ((c0.t1.ring.length + c0.t2.ring.length : Nat) : Int) = c0.c ∧
      c0.full = true := by
    intro c0 hs
    have hlen := hs.len_res
    dsimp only at hlen
    exact ⟨hs.invG hfull, by rw [hs.c_eq, hlen]; exact hc, by rw [hs.full_eq]⟩
  rcases hrep with hrep | hrep
  · obtain ⟨c0, ek, hs, hh, hg, _, rfl⟩ :=
      replaceT1Loop_done cb _ _ hfull.wt1 hfull.wt2 hfull.nodup12 _ _ hrep
    obtain ⟨h0, hc0, hf0⟩ := key c0 hs
    exact evictT1_invG cb h0 hh hg hc0 hf0
  · obtain ⟨c0, ek, hs, hh, hg, _, rfl⟩ :=
      replaceT2Loop_done cb _ _ hfull.wt1 hfull.wt2 _ _ hrep
    obtain ⟨h0, hc0, hf0⟩ := key c0 hs
    exact evictT2_invG cb h0 hh hg hc0 hf0

/-- What the directory replacement does after an eviction: for a key of a ghost list
nothing; otherwise it drops the tail of a non-empty B1, or the tail of a non-empty B2,
or nothing. -/
theorem trimDir_shape {n : Nat} {c : CAR K V} (h : InvG [n] c) (inB1 inB2 : Bool) :
    ∃ c1, trimDir c inB1 inB2 = .done c1 ∧
      ((inB1 = true ∨ inB2 = true) → c1 = c) ∧
      (c1 = c ∨
       (inB1 = false ∧ inB2 = false ∧ c.b1.l ≠ [] ∧ c.b1.size ≠ 0 ∧
         c1.b1.l = c.b1.l.dropLast ∧ c1.b2 = c.b2) ∨
       (inB1 = false ∧ inB2 = false ∧ c.b2.l ≠ [] ∧ c.b2.size ≠ 0 ∧
         c1.b2.l = c.b2.l.dropLast ∧ c1.b1 = c.b1)) := by
  have i1 := h.i1; have i2 := h.i2; have i4 := h.i4
  simp only [List.length_singleton] at i1
  unfold trimDir
  simp only [h.wt1.size_eq, h.wt2.size_eq, h.wb1.size_eq_length, h.wb2.size_eq_length]
  by_cases hb : (!inB1 && !inB2) = true
  · have hb1 : inB1 = false := by cases inB1 <;> simp_all
    have hb2 : inB2 = false := by cases inB2 <;> simp_all
    simp only [hb, ↓reduceIte]
    by_cases hc1 : ((c.t1.ring.length + c.b1.l.length : Nat) : Int) = c.c
    · have hne : c.b1.l ≠ [] := by
        intro he
        rw [he] at hc1
        simp only [List.length_nil] at hc1
        omega
      have hsz : c.b1.l.length ≠ 0 := fun e => hne (List.length_eq_zero.mp e)
      simp only [hc1, ↓reduceIte, h.wb1.removeTail_eq hne]
      refine ⟨_, rfl, ?_, Or.inr (Or.inl ⟨hb1, hb2, hne, hsz, rfl, rfl⟩)⟩
      intro hh; rcases hh with hh | hh <;> simp_all
    · simp only [hc1, ↓reduceIte]
      by_cases hc2 : ((c.t1.ring.length + c.t2.ring.length + c.b1.l.length + c.b2.l.length : Nat)
          : Int) = 2 * c.c
      · have hne : c.b2.l ≠ [] := by
          intro he
          rw [he] at hc2
          simp only [List.length_nil] at hc2
          omega
        have hsz : c.b2.l.length ≠ 0 := fun e => hne (List.length_eq_zero.mp e)
        simp only [hc2, ↓reduceIte, h.wb2.removeTail_eq hne]
        refine ⟨_, rfl, ?_, Or.inr (Or.inr ⟨hb1, hb2, hne, hsz, rfl, rfl⟩)⟩
        intro hh; rcases hh with hh | hh <;> simp_all
      · simp only [hc2, ↓reduceIte]
        exact ⟨_, rfl, fun _ => rfl, Or.inl rfl⟩
  · simp only [hb, Bool.false_eq_true, ↓reduceIte]
    exact ⟨_, rfl, fun _ => rfl, Or.inl rfl⟩

/-- In a full cache the first part of a miss panics when the selected replacement
does. -/
theorem evict_full_panic (cb : Callbacks K V) {c : CAR K V}
    (hc : ((c.t1.size + c.t2.size : Nat) : Int) = c.c) (inB1 inB2 : Bool)
    (hrep : (if (c.t1.size : Int) ≥ max 1 c.p then replaceT1 cb { c with full := true }
             else replaceT2 cb { c with full := true }) = .panic) :
    evict cb c inB1 inB2 = .panic := by
  simp only [evict, hc, ↓reduceIte, hrep]

/-- In a full cache the first part of a miss is the selected replacement, then the
directory replacement. -/
theorem evict_full_done (cb : Callbacks K V) {c : CAR K V}
    (hc : ((c.t1.size + c.t2.size : Nat) : Int) = c.c) (inB1 inB2 : Bool)
    {s : slot V} {c1 c2 : CAR K V}
    (hrep : (if (c.t1.size : Int) ≥ max 1 c.p then replaceT1 cb { c with full := true }
             else replaceT2 cb { c with full := true }) = .done (s, c1))
    (htrim : trimDir c1 inB1 inB2 = .done c2) :
    evict cb c inB1 inB2 = .done (s, c2) := by
  simp only [evict, hc, ↓reduceIte, hrep, htrim]

theorem evict_notfull_eq (cb : Callbacks K V) {c : CAR K V}
    (hc : ((c.t1.size + c.t2.size : Nat) : Int) ≠ c.c) (inB1 inB2 : Bool) :
    evict cb c inB1 inB2 = .done (newSlot c.slotNo, { c with slotNo := c.slotNo + 1 }) := by
  simp only [evict, hc, ↓reduceIte]

end CAR

section Claims
variable {K V : Type} [DecidableEq K]
open CAR

/-- C20. After every completed sequence of `Load` calls on a fresh cache of capacity
`n ≥ 1` (the empty sequence included), in T1 and in T2 the ring has as many elements as
the map and every key of the ring is a key of the map; in B1 and in B2 the list has as
many elements as the key set and every key of the list is in the key set. -/
theorem C20_index_agrees_with_order (n : Int) (hn : 1 ≤ n) (cb : Callbacks K V)
    (keys : List K) (c : CAR K V) (h : loads cb (NewCAR n) keys = .done c) :
    (c.t1.ring.length = c.t1.slots.len ∧ ∀ k ∈ c.t1.ring, (c.t1.slots.get k).isSome = true) ∧
    (c.t2.ring.length = c.t2.slots.len ∧ ∀ k ∈ c.t2.ring, (c.t2.slots.get k).isSome = true) ∧
    (c.b1.l.length = c.b1.keys.len ∧ ∀ k ∈ c.b1.l, (c.b1.keys.get k).isSome = true) ∧
    (c.b2.l.length = c.b2.keys.len ∧ ∀ k ∈ c.b2.l, (c.b2.keys.get k).isSome = true) := by
  have hi := reach_inv hn cb h
  have key : ∀ {α : Type} (m : GoMap K α) (l : List K), m.keys.Perm l →
      l.length = m.len ∧ ∀ k ∈ l, (m.get k).isSome = true := by
    intro α m l hp
    refine ⟨by rw [GoMap.len_eq_keys_length]; exact hp.length_eq.symm, ?_⟩
    intro k hk
    rw [GoMap.get_isSome_iff]
    exact hp.mem_iff.mpr hk
  exact ⟨key _ _ hi.wt1, key _ _ hi.wt2, key _ _ hi.wb1, key _ _ hi.wb2⟩

theorem C20_index_agrees_with_order_witness :
    (1 : Int) ≤ 2 ∧ loads noCallbacks (NewCAR 2) [1, 2, 1, 3, 2] = .done demoB ∧
    ((demoB.t1.ring.length = demoB.t1.slots.len ∧
        ∀ k ∈ demoB.t1.ring, (demoB.t1.slots.get k).isSome = true) ∧
     (demoB.t2.ring.length = demoB.t2.slots.len ∧
        ∀ k ∈ demoB.t2.ring, (demoB.t2.slots.get k).isSome = true) ∧
     (demoB.b1.l.length = demoB.b1.keys.len ∧
        ∀ k ∈ demoB.b1.l, (demoB.b1.keys.get k).isSome = true) ∧
     (demoB.b2.l.length = demoB.b2.keys.len ∧
        ∀ k ∈ demoB.b2.l, (demoB.b2.keys.get k).isSome = true)) :=
  ⟨by decide, by decide,
    C20_index_agrees_with_order 2 (by decide) noCallbacks [1, 2, 1, 3, 2] demoB (by decide)⟩

end Claims
end Car

/-! ### The target size; claims C15 and C16 -/

namespace Car
namespace CAR
variable {K V : Type} [DecidableEq K]

/-- The target size after the placement of the key. -/
theorem place_p {c : CAR K V} {key : K} {s : slot V} {inB1 inB2 : Bool}
    (hr : Ready key inB1 inB2 s c) {c2 : CAR K V} (hp : place c key s inB1 inB2 = .done c2) :
    (inB1 = true → c2.p = min (c.p + max 1 ((c.b2.size / c.b1.size : Nat) : Int)) c.c) ∧
    (inB1 = false → inB2 = true →
      c2.p = max (c.p - max 1 ((c.b1.size / c.b2.size : Nat) : Int)) 0) ∧
    (inB1 = false → inB2 = false → c2.p = c.p) := by
  have h := hr.inv
  unfold place at hp
  cases hB1 : inB1 with
  | true =>
    have hk : key ∈ c.b1.l := hr.mb1 hB1
    have hsz : c.b1.size ≠ 0 := by
      rw [h.wb1.size_eq_length]; exact (List.length_pos.mpr (List.ne_nil_of_mem hk)).ne'
    simp only [hB1, ↓reduceIte, hsz, h.wb1.remove_eq hk, h.wt2.insertTail_eq,
      Outcome.done.injEq] at hp
    subst hp
    exact ⟨fun _ => rfl, fun h0 => by simp at h0, fun h0 => by simp at h0⟩
  | false =>
    cases hB2 : inB2 with
    | true =>
      have hk : key ∈ c.b2.l := hr.mb2 hB2
      have hsz : c.b2.size ≠ 0 := by
        rw [h.wb2.size_eq_length]; exact (List.length_pos.mpr (List.ne_nil_of_mem hk)).ne'
      simp only [hB1, hB2, Bool.false_eq_true, ↓reduceIte, hsz, h.wb2.remove_eq hk,
        h.wt2.insertTail_eq, Outcome.done.injEq] at hp
      subst hp
      exact ⟨fun h0 => by simp at h0, fun _ _ => rfl, fun _ h0 => by simp at h0⟩
    | false =>
      simp only [hB1, hB2, Bool.false_eq_true, ↓reduceIte, h.wt1.insertTail_eq,
        Outcome.done.injEq] at hp
      subst hp
      exact ⟨fun h0 => by simp at h0, fun _ h0 => by simp at h0, fun _ _ => rfl⟩

theorem min_step {p c d : Int} (hp : p ≤ c) (hd : 1 ≤ d) :
    p ≤ min (p + d) c ∧ min (p + 1) c ≤ min (p + d) c := by
  unfold min; split <;> split <;> constructor <;> omega

theorem max_step {p d : Int} (hp : 0 ≤ p) (hd : 1 ≤ d) :
    max (p - d) 0 ≤ p ∧ max (p - d) 0 ≤ max (p - 1) 0 := by
  unfold max; split <;> split <;> constructor <;> omega

/-- A key is in at most one ghost list. -/
theorem Inv.not_both_ghosts {c : CAR K V} (h : Inv c) {key : K} (h2 : c.b2.exist key = true) :
    c.b1.exist key = false := by
  cases h1 : c.b1.exist key with
  | false => rfl
  | true =>
    have m1 := (h.wb1.exist_iff key).mp h1
    have m2 := (h.wb2.exist_iff key).mp h2
    have hnd := h.nodup
    simp only [dir] at hnd
    exact absurd m2 (fun hm => (List.nodup_append.mp hnd).2.2
      (List.mem_append_right _ m1) hm)

end CAR

section Claims
variable {K V : Type} [DecidableEq K]
open CAR

/-- C15. In a state reached by completed `Load` calls on a fresh cache of capacity
`n ≥ 1`, let a `Load` of a key complete. If the key is resident, `p` is kept. Otherwise
let `c1` be the state after the first part of the miss. For a key of B1 the new target
is `min (p + max 1 (|B2| / |B1|)) c`, with the ghost sizes of `c1`; it is at least `p`
and at least `min (p + 1) c`. For a key of B2 it is `max (p - max 1 (|B1| / |B2|)) 0`;
it is at most `p` and at most `max (p - 1) 0`. For a key of neither ghost list `p` is
kept. -/
theorem C15_target_moves_toward_hit_ghost (n : Int) (hn : 1 ≤ n) (cb : Callbacks K V)
    (keys : List K) (c : CAR K V) (h : loads cb (NewCAR n) keys = .done c) (key : K)
    (v : Option V) (c2 : CAR K V) (hl : Load cb c key = .done (v, c2)) :
    (resident c key ≠ none → c2.p = c.p) ∧
    (resident c key = none →
      ∃ s c1, evict cb c (c.b1.exist key) (c.b2.exist key) = .done (s, c1) ∧
        (c.b1.exist key = true →
          c2.p = min (c.p + max 1 ((c1.b2.size / c1.b1.size : Nat) : Int)) c.c ∧
          c.p ≤ c2.p ∧ min (c.p + 1) c.c ≤ c2.p) ∧
        (c.b2.exist key = true →
          c2.p = max (c.p - max 1 ((c1.b1.size / c1.b2.size : Nat) : Int)) 0 ∧
          c2.p ≤ c.p ∧ c2.p ≤ max (c.p - 1) 0) ∧
        (c.b1.exist key = false → c.b2.exist key = false → c2.p = c.p)) := by
  have hi := reach_inv hn cb h
  constructor
  · intro hres
    rw [Load_eq] at hl
    have hb : (hit c key).2.1 = true := by
      rw [hit_ok_iff hi.wt1 hi.wt2]
      by_contra hcon
      simp only [not_or] at hcon
      exact hres ((resident_eq_none hi.wt1 hi.wt2 key).mpr hcon)
    rw [if_pos hb] at hl
    simp only [Outcome.done.injEq, Prod.mk.injEq] at hl
    rw [← hl.2]
    exact (hit_shuffle hi.wt1 hi.wt2 key).p_eq
  · intro hnr
    obtain ⟨hle, hk1, hk2⟩ := Load_of_not_resident cb hi hnr
    rw [hle] at hl
    obtain ⟨s, c1, he, hp, _⟩ := miss_spec cb hi hk1 hk2 hl
    have hr := (evict_ready cb hi hk1 hk2 he).load cb
    obtain ⟨p1, p2, p3⟩ := place_p hr hp
    obtain ⟨ec, ep⟩ := evict_c_p cb hi he
    simp only [loadValue_b1, loadValue_b2, loadValue_p, loadValue_c, ec, ep] at p1 p2 p3
    refine ⟨s, c1, he, ?_, ?_, p3⟩
    · intro hb1
      have e := p1 hb1
      have := min_step (p := c.p) (c := c.c)
        (d := max 1 ((c1.b2.size / c1.b1.size : Nat) : Int)) hi.pc (one_le_max_one _)
      rw [e]
      exact ⟨rfl, this.1, this.2⟩
    · intro hb2
      have e := p2 (hi.not_both_ghosts hb2) hb2
      have := max_step (p := c.p)
        (d := max 1 ((c1.b1.size / c1.b2.size : Nat) : Int)) hi.p0 (one_le_max_one _)
      rw [e]
      exact ⟨rfl, this.1, this.2⟩

/-- C16. In a state reached by completed `Load` calls on a fresh cache of capacity
`n ≥ 1`, in the miss on a key that is not resident: after the selected replacement has
returned, the directory replacement never panics, does nothing for a key of a ghost
list, and otherwise drops the tail of a non-empty B1, or the tail of a non-empty B2, or
nothing; after the first part of the miss, for a key of B1 the divisor `|B1|` is not
zero and the key is in the list of B1, for a key of B2 the divisor `|B2|` is not zero
and the key is in the list of B2, and the placement never panics. So a `Load` that
panics does so in the selected replacement. -/
theorem C16_ghost_operations_in_bounds (n : Int) (hn : 1 ≤ n) (cb : Callbacks K V)
    (keys : List K) (c : CAR K V) (h : loads cb (NewCAR n) keys = .done c) (key : K)
    (hnr : resident c key = none) :
    (∀ s c1, ((c.t1.size + c.t2.size : Nat) : Int) = c.c →
      (if (c.t1.size : Int) ≥ max 1 c.p then replaceT1 cb { c with full := true }
       else replaceT2 cb { c with full := true }) = .done (s, c1) →
      ∃ c2, trimDir c1 (c.b1.exist key) (c.b2.exist key) = .done c2 ∧
        ((c.b1.exist key = true ∨ c.b2.exist key = true) → c2 = c1) ∧
        (c2 = c1 ∨
         (c.b1.exist key = false ∧ c.b2.exist key = false ∧ c1.b1.l ≠ [] ∧ c1.b1.size ≠ 0 ∧
           c2.b1.l = c1.b1.l.dropLast ∧ c2.b2 = c1.b2) ∨
         (c.b1.exist key = false ∧ c.b2.exist key = false ∧ c1.b2.l ≠ [] ∧ c1.b2.size ≠ 0 ∧
           c2.b2.l = c1.b2.l.dropLast ∧ c2.b1 = c1.b1))) ∧
    (∀ s c1, evict cb c (c.b1.exist key) (c.b2.exist key) = .done (s, c1) →
      (c.b1.exist key = true → c1.b1.size ≠ 0 ∧ key ∈ c1.b1.l) ∧
      (c.b2.exist key = true → c1.b2.size ≠ 0 ∧ key ∈ c1.b2.l) ∧
      ∃ c2, place (loadValue cb c1 key s).2 key (loadValue cb c1 key s).1
        (c.b1.exist key) (c.b2.exist key) = .done c2) ∧
    (Load cb c key = .panic →
      ((c.t1.size + c.t2.size : Nat) : Int) = c.c ∧
      (if (c.t1.size : Int) ≥ max 1 c.p then replaceT1 cb { c with full := true }
       else replaceT2 cb { c with full := true }) = .panic) := by
  have hi := reach_inv hn cb h
  obtain ⟨hle, hk1, hk2⟩ := Load_of_not_resident cb hi hnr
  have hinv1 : ∀ s c1, ((c.t1.size + c.t2.size : Nat) : Int) = c.c →
      (if (c.t1.size : Int) ≥ max 1 c.p then replaceT1 cb { c with full := true }
       else replaceT2 cb { c with full := true }) = .done (s, c1) → InvG [s.slotNo] c1 := by
    intro s c1 hc hrep
    rw [hi.wt1.size_eq, hi.wt2.size_eq] at hc
    split at hrep
    · exact replaced_invG cb hi hc (Or.inl hrep)
    · exact replaced_invG cb hi hc (Or.inr hrep)
  refine ⟨?_, ?_, ?_⟩
  · intro s c1 hc hrep
    exact trimDir_shape (hinv1 s c1 hc hrep) _ _
  · intro s c1 he
    have hr := evict_ready cb hi hk1 hk2 he
    have hnz : ∀ (b : lru K), b.WF → key ∈ b.l → b.size ≠ 0 := by
      intro b hw hm
      rw [hw.size_eq_length]
      exact (List.length_pos.mpr (List.ne_nil_of_mem hm)).ne'
    refine ⟨fun hb => ⟨hnz _ hr.inv.wb1 (hr.mb1 hb), hr.mb1 hb⟩,
      fun hb => ⟨hnz _ hr.inv.wb2 (hr.mb2 hb), hr.mb2 hb⟩, ?_⟩
    obtain ⟨c2, hp, _⟩ := place_done (hr.load cb)
    exact ⟨c2, hp⟩
  · intro hpanic
    rw [hle] at hpanic
    by_cases hc : ((c.t1.size + c.t2.size : Nat) : Int) = c.c
    · refine ⟨hc, ?_⟩
      cases hrep : (if (c.t1.size : Int) ≥ max 1 c.p then replaceT1 cb { c with full := true }
          else replaceT2 cb { c with full := true }) with
      | panic => rfl
      | fuel =>
        exfalso
        split at hrep
        · exact replaceT1_ne_fuel cb _ hrep
        · exact replaceT2_ne_fuel cb _ hrep
      | done r =>
        exfalso
        obtain ⟨s, c1⟩ := r
        obtain ⟨c2, htr, _⟩ := trimDir_shape (hinv1 s c1 hc hrep) (c.b1.exist key)
          (c.b2.exist key)
        have he := evict_full_done cb hc _ _ hrep htr
        obtain ⟨c3, hm, _⟩ := miss_of_evict cb hi hk1 hk2 he
        rw [hm] at hpanic
        exact Outcome.noConfusion hpanic
    · exfalso
      have he := evict_notfull_eq cb hc (c.b1.exist key) (c.b2.exist key)
      obtain ⟨c3, hm, _⟩ := miss_of_evict cb hi hk1 hk2 he
      rw [hm] at hpanic
      exact Outcome.noConfusion hpanic

end Claims
end Car

/-! ### The passes of replaceT1 -/

namespace Car
namespace CAR
variable {K V : Type} [DecidableEq K]

/-- What `replaceT1` returns, entry by entry: the keys `pre` scanned with a set flag go
to the tail of T2 with the flag cleared, the first key `ek` with an unset flag goes to
the head of B1, and T1 keeps the keys `post` after it. -/
theorem replaceT1Loop_char (cb : Callbacks K V) (n : Nat) :
    ∀ (c : CAR K V), c.t1.WF → c.t2.WF → (c.t1.ring ++ c.t2.ring).Nodup →
    ∀ s c1, replaceT1Loop cb n c = .done (s, c1) →
    ∃ pre ek post, c.t1.ring = pre ++ ek :: post ∧
      (∀ k ∈ pre, ∃ sk, c.t1.slots.get k = some sk ∧ sk.ref ≠ refZero) ∧
      c.t1.slots.get ek = some s ∧ s.ref = refZero ∧
      pre.length + 1 ≤ n ∧
      c1.t1.ring = post ∧ c1.t2.ring = c.t2.ring ++ pre ∧
      c1.b1 = c.b1.insertHead ek ∧ c1.b2 = c.b2 ∧
      (∀ k, c1.t1.slots.get k = if k ∈ post then c.t1.slots.get k else none) ∧
      (∀ k, c1.t2.slots.get k =
        if k ∈ pre then (c.t1.slots.get k).map (fun x => x.setRef refZero)
        else c.t2.slots.get k) ∧
      c1.calls = c.calls ++
        (if cb.cbReplaceValue then [Call.replace ek s.value s.slotNo] else []) ∧
      c1.c = c.c ∧ c1.p = c.p ∧ c1.full = c.full ∧ c1.slotNo = c.slotNo := by
  induction n with
  | zero => intro c _ _ _ s c1 h; simp [replaceT1Loop] at h
  | succ n ih =>
    intro c h1 h2 hn s c1 h
    have hn1 : c.t1.ring.Nodup := (List.nodup_append.mp hn).1
    cases hr : c.t1.ring with
    | nil =>
      rw [replaceT1Loop, h1.removeHead_nil hr] at h
      simp at h
    | cons key r =>
      rw [replaceT1Loop, h1.removeHead_cons hr] at h
      obtain ⟨s0, hg⟩ := h1.get_of_mem (k := key) (by simp [hr])
      simp only [hg] at h
      have hkr : key ∉ r := by
        rw [hr] at hn1; exact (List.nodup_cons.mp hn1).1
      have hr_nd : r.Nodup := by
        rw [hr] at hn1; exact (List.nodup_cons.mp hn1).2
      by_cases hz : s0.ref = refZero
      · simp only [hz, ↓reduceIte, Outcome.done.injEq, Prod.mk.injEq] at h
        obtain ⟨rfl, rfl⟩ := h
        refine ⟨[], key, r, rfl, by simp, hg, hz, by simp, by simp, by simp, by simp, by simp,
          ?_, ?_, by simp [notifyReplace_calls], by simp, by simp, by simp, by simp⟩
        · intro k
          simp only [notifyReplace_t1, GoMap.get_delete]
          by_cases hk : key = k
          · subst hk; simp [hkr]
          · simp only [hk, ↓reduceIte]
            split
            · rfl
            · rename_i hkr2
              have : k ∉ c.t1.ring := by
                rw [hr]; simp only [List.mem_cons, not_or]; exact ⟨Ne.symm hk, hkr2⟩
              exact (h1.get_eq_none k).mpr this
        · intro k; simp
      · simp only [hz, ↓reduceIte, h2.insertTail_eq] at h
        have hsh := shuffle_demote h1 h2 hn hr hg
        have hk2 : key ∉ c.t2.ring := by
          intro hm
          exact (List.nodup_append.mp hn).2.2 (by simp [hr]) hm
        obtain ⟨pre, ek, post, e1, e2, e3, e4, e5, e6, e7, e8, e9, e10, e11, e12, e13, e14,
          e15, e16⟩ := ih _ hsh.wt1 hsh.wt2 (hsh.nodup hn) s c1 h
        dsimp only at e1 e2 e3 e7 e8 e9 e10 e11 e12 e13 e14 e15 e16
        have hkpre : key ∉ pre := fun hm => hkr (by rw [e1]; simp [hm])
        have hkek : key ≠ ek := fun e => hkr (by rw [e1, e]; simp)
        have hkpost : key ∉ post := fun hm => hkr (by rw [e1]; simp [hm])
        refine ⟨key :: pre, ek, post, by simp [e1], ?_, ?_, e4, by simp; omega, e6, ?_, e8, e9,
          ?_, ?_, e12, e13, e14, e15, e16⟩
        · intro k hk
          simp only [List.mem_cons] at hk
          rcases hk with rfl | hk
          · exact ⟨s0, hg, hz⟩
          · obtain ⟨sk, hsk, hzk⟩ := e2 k hk
            have hne : ¬ key = k := fun e => hkpre (e ▸ hk)
            rw [GoMap.get_delete, if_neg hne] at hsk
            exact ⟨sk, hsk, hzk⟩
        · rw [GoMap.get_delete, if_neg hkek] at e3; exact e3
        · rw [e7]; simp
        · intro k
          rw [e10 k, GoMap.get_delete]
          by_cases hk : key = k
          · subst hk; simp [hkpost]
          · simp [hk]
        · intro k
          rw [e11 k, GoMap.get_delete, GoMap.get_set]
          by_cases hk : key = k
          · subst hk; simp [hkpre, hg, slot.setRef]
          · simp only [hk, ↓reduceIte, List.mem_cons, Ne.symm hk, false_or]

end CAR
end Car

/-! ### The passes of replaceT2 -/

namespace Car
namespace CAR
variable {K V : Type} [DecidableEq K]

/-- A list splits at its first element with a given property, if it has one. -/
theorem split_first {α : Type} (P : α → Prop) [DecidablePred P] (l : List α) :
    (∀ a ∈ l, ¬ P a) ∨
    ∃ pre a post, l = pre ++ a :: post ∧ (∀ b ∈ pre, ¬ P b) ∧ P a := by
  induction l with
  | nil => left; simp
  | cons x l ih =>
    by_cases hx : P x
    · right; exact ⟨[], x, l, rfl, by simp, hx⟩
    · rcases ih with h | ⟨pre, a, post, e, hp, ha⟩
      · left
        intro a hm
        simp only [List.mem_cons] at hm
        rcases hm with rfl | hm
        · exact hx
        · exact h a hm
      · right
        refine ⟨x :: pre, a, post, by simp [e], ?_, ha⟩
        intro b hm
        simp only [List.mem_cons] at hm
        rcases hm with rfl | hm
        · exact hx
        · exact hp b hm

/-- The last pass of `replaceT2`: a head with an unset flag is evicted. -/
theorem replaceT2Loop_head_unset (cb : Callbacks K V) (m : Nat) {c : CAR K V} (hw : c.t2.WF)
    {ek : K} {r : List K} {s : slot V} (hr : c.t2.ring = ek :: r)
    (hg : c.t2.slots.get ek = some s) (hz : s.ref = refZero) :
    replaceT2Loop cb (m + 1) c = .done (s, evictT2 cb c ek s) := by
  have hh : c.t2.getHead = some (ek, some s) := by simp [clock.getHead, hr, hg]
  rw [replaceT2Loop]
  simp only [hh, hz, ↓reduceIte, hw.removeHead_cons hr, evictT2, hr, List.tail_cons]

/-- The passes of `replaceT2` over heads with a set flag: each clears the flag and makes
the head the tail. -/
theorem replaceT2Loop_rotate (cb : Callbacks K V) (pre : List K) :
    ∀ (c : CAR K V) (rest : List K), c.t2.WF → c.t2.ring.Nodup → c.t2.ring = pre ++ rest →
    (∀ k ∈ pre, ∃ sk, c.t2.slots.get k = some sk ∧ sk.ref ≠ refZero) →
    ∃ c1, (∀ m, replaceT2Loop cb (pre.length + m) c = replaceT2Loop cb m c1) ∧
      c1.t2.WF ∧ c1.t2.ring = rest ++ pre ∧
      (∀ k, c1.t2.slots.get k =
        if k ∈ pre then (c.t2.slots.get k).map (fun x => x.setRef refZero)
        else c.t2.slots.get k) ∧
      c1.t1 = c.t1 ∧ c1.b1 = c.b1 ∧ c1.b2 = c.b2 ∧ c1.calls = c.calls ∧ c1.c = c.c ∧
      c1.p = c.p ∧ c1.full = c.full ∧ c1.slotNo = c.slotNo := by
  induction pre with
  | nil =>
    intro c rest hw _ hr _
    exact ⟨c, by simp, hw, by simpa using hr, by simp, rfl, rfl, rfl, rfl, rfl, rfl, rfl, rfl⟩
  | cons a pre ih =>
    intro c rest hw hnd hr hfl
    obtain ⟨sa, hga, hza⟩ := hfl a (List.mem_cons_self a pre)
    have hapre : a ∉ pre := by
      rw [hr] at hnd
      simp only [List.cons_append, List.nodup_cons, List.mem_append, not_or] at hnd
      exact hnd.1.1
    have hr' : c.t2.ring = a :: (pre ++ rest) := by rw [hr]; rfl
    have hh : c.t2.getHead = some (a, some sa) := by simp [clock.getHead, hr', hga]
    have hstep : ∀ m, replaceT2Loop cb ((a :: pre).length + m) c
        = replaceT2Loop cb (pre.length + m)
            { c with t2 := clock.next { c.t2 with slots := c.t2.slots.set a { sa with ref := refZero } } } := by
      intro m
      have e : (a :: pre).length + m = (pre.length + m) + 1 := by
        simp only [List.length_cons]; omega
      rw [e, replaceT2Loop]
      simp only [hh, hza, ↓reduceIte]
    have hmem : a ∈ c.t2.ring := by rw [hr']; simp
    have hw1 : clock.WF ({ c.t2 with slots := c.t2.slots.set a { sa with ref := refZero } } :
        clock K V) := hw.set_mem hmem _
    have hring : (clock.next ({ c.t2 with slots := c.t2.slots.set a { sa with ref := refZero } } :
        clock K V)).ring = pre ++ (rest ++ [a]) := by
      simp only [clock.next, hr', List.append_assoc]
    have hslots : (clock.next ({ c.t2 with slots := c.t2.slots.set a { sa with ref := refZero } } :
        clock K V)).slots = c.t2.slots.set a { sa with ref := refZero } := by
      simp only [clock.next, hr']
    have hnd2 : (pre ++ (rest ++ [a])).Nodup := by
      have hp : (pre ++ (rest ++ [a])).Perm (a :: (pre ++ rest)) := by
        apply perm_of_count
        intro x
        simp only [List.count_append, List.count_cons, List.count_nil]
        omega
      rw [hr'] at hnd
      exact hp.nodup_iff.mpr hnd
    obtain ⟨c1, e1, e2, e3, e4, e5, e6, e7, e8, e9, e10, e11, e12⟩ :=
      ih { c with t2 := clock.next { c.t2 with slots := c.t2.slots.set a { sa with ref := refZero } } }
        (rest ++ [a]) hw1.next (by dsimp only; rw [hring]; exact hnd2) hring
        (by
          intro k hk
          obtain ⟨sk, hsk, hzk⟩ := hfl k (List.mem_cons_of_mem a hk)
          have hne : ¬ a = k := fun e => hapre (e ▸ hk)
          refine ⟨sk, ?_, hzk⟩
          dsimp only
          rw [hslots, GoMap.get_set, if_neg hne]
          exact hsk)
    refine ⟨c1, fun m => (hstep m).trans (e1 m), e2, by rw [e3]; simp, ?_, e5, e6, e7, e8, e9,
      e10, e11, e12⟩
    intro k
    rw [e4 k]
    dsimp only
    rw [hslots, GoMap.get_set]
    by_cases hk : a = k
    · subst hk
      simp [hapre, hga, slot.setRef]
    · simp only [hk, ↓reduceIte, List.mem_cons, Ne.symm hk, false_or]

end CAR
end Car

/-! ### The result of replaceT2 -/

namespace Car

theorem slot.setRef_of_ref {V : Type} {s : slot V} {v : Int} (h : s.ref = v) :
    s.setRef v = s := by
  cases s
  simp only [slot.setRef] at *
  simp [h]

namespace CAR
variable {K V : Type} [DecidableEq K]

/-- What `replaceT2` does on a non-empty T2, entry by entry: it evicts the first key
`ek` whose flag is unset, after the keys `pre` before it have had their flags cleared
and have been made the tail one after the other; when every flag is set, all flags are
cleared in one turn of the ring and the original head is evicted. The number of passes
is at most `|T2| + 1`. -/
theorem replaceT2_char (cb : Callbacks K V) {c : CAR K V} (hw : c.t2.WF)
    (hnd : c.t2.ring.Nodup) (hne : c.t2.ring ≠ []) :
    ∃ pre ek post s0 c1 passes,
      c.t2.ring = pre ++ ek :: post ∧ c.t2.slots.get ek = some s0 ∧
      (∀ k ∈ pre, ∃ sk, c.t2.slots.get k = some sk ∧ sk.ref ≠ refZero) ∧
      ((s0.ref = refZero ∧ passes = pre.length + 1 ∧
          ∀ k, c1.t2.slots.get k =
            if k = ek then none
            else if k ∈ pre then (c.t2.slots.get k).map (fun x => x.setRef refZero)
            else c.t2.slots.get k) ∨
       (pre = [] ∧ s0.ref ≠ refZero ∧
          (∀ k ∈ post, ∃ sk, c.t2.slots.get k = some sk ∧ sk.ref ≠ refZero) ∧
          passes = c.t2.size + 1 ∧
          ∀ k, c1.t2.slots.get k =
            if k = ek then none else (c.t2.slots.get k).map (fun x => x.setRef refZero))) ∧
      passes ≤ c.t2.size + 1 ∧
      (∀ m, replaceT2Loop cb (passes + m) c = .done (s0.setRef refZero, c1)) ∧
      c1.t2.ring = post ++ pre ∧ c1.b2 = c.b2.insertHead ek ∧ c1.t1 = c.t1 ∧ c1.b1 = c.b1 ∧
      c1.calls = c.calls ++
        (if cb.cbReplaceValue then [Call.replace ek s0.value s0.slotNo] else []) ∧
      c1.c = c.c ∧ c1.p = c.p ∧ c1.full = c.full ∧ c1.slotNo = c.slotNo := by
  have hsize : c.t2.size = c.t2.ring.length := hw.size_eq
  have hflag : ∀ k ∈ c.t2.ring, ¬ ((c.t2.slots.get k).map (fun x => x.ref) = some refZero) →
      ∃ sk, c.t2.slots.get k = some sk ∧ sk.ref ≠ refZero := by
    intro k hk hn
    obtain ⟨sk, hsk⟩ := hw.get_of_mem hk
    refine ⟨sk, hsk, ?_⟩
    intro hz
    exact hn (by rw [hsk]; simp [hz])
  rcases split_first (fun k => (c.t2.slots.get k).map (fun x => x.ref) = some refZero)
      c.t2.ring with hall | ⟨pre, ek, post, hr, hpre, hek⟩
  · -- every flag is set
    obtain ⟨ek, post, hr⟩ : ∃ ek post, c.t2.ring = ek :: post := by
      cases hr : c.t2.ring with
      | nil => exact absurd hr hne
      | cons a r => exact ⟨a, r, rfl⟩
    have hfl : ∀ k ∈ c.t2.ring, ∃ sk, c.t2.slots.get k = some sk ∧ sk.ref ≠ refZero :=
      fun k hk => hflag k hk (hall k hk)
    obtain ⟨s0, hg0, hz0⟩ := hfl ek (by rw [hr]; simp)
    obtain ⟨c1, e1, w1, r1, g1, t1, b1, b2, ca, cc, cp, cf, cs⟩ :=
      replaceT2Loop_rotate cb c.t2.ring c [] hw hnd (by simp) hfl
    have hg1 : c1.t2.slots.get ek = some (s0.setRef refZero) := by
      rw [g1 ek, if_pos (by rw [hr]; simp), hg0]; rfl
    have hr1 : c1.t2.ring = ek :: post := by rw [r1, hr]; rfl
    refine ⟨[], ek, post, s0, evictT2 cb c1 ek (s0.setRef refZero), c.t2.size + 1, by simp [hr],
      hg0, by simp, Or.inr ⟨rfl, hz0, ?_, rfl, ?_⟩, le_refl _, ?_, ?_, ?_, ?_, ?_, ?_, ?_, ?_, ?_,
      ?_⟩
    · intro k hk; exact hfl k (by rw [hr]; simp [hk])
    · intro k
      simp only [evictT2, notifyReplace_t2, GoMap.get_delete]
      by_cases hk : ek = k
      · subst hk; simp
      · simp only [hk, ↓reduceIte, Ne.symm hk]
        rw [g1 k]
        split
        · rfl
        · rename_i hnot
          rw [(hw.get_eq_none k).mpr hnot]; rfl
    · intro m
      have e : c.t2.size + 1 + m = c.t2.ring.length + (m + 1) := by rw [hsize]; omega
      rw [e, e1]
      exact replaceT2Loop_head_unset cb m w1 hr1 hg1 rfl
    · simp [evictT2, hr1]
    · simp [evictT2, b2]
    · simp [evictT2, t1]
    · simp [evictT2, b1]
    · simp [evictT2, notifyReplace_calls, ca, slot.setRef]
    · simp [evictT2, cc]
    · simp [evictT2, cp]
    · simp [evictT2, cf]
    · simp [evictT2, cs]
  · -- the first key with an unset flag
    have hmem : ∀ k ∈ pre, k ∈ c.t2.ring := fun k hk => by rw [hr]; simp [hk]
    have hfl : ∀ k ∈ pre, ∃ sk, c.t2.slots.get k = some sk ∧ sk.ref ≠ refZero :=
      fun k hk => hflag k (hmem k hk) (hpre k hk)
    obtain ⟨s0, hg0⟩ := hw.get_of_mem (k := ek) (by rw [hr]; simp)
    have hz0 : s0.ref = refZero := by
      rw [hg0] at hek
      simpa using hek
    have hekpre : ek ∉ pre := by
      rw [hr] at hnd
      have := (List.nodup_append.mp hnd).2.2
      intro hm
      exact this hm (List.mem_cons_self ek post)
    obtain ⟨c1, e1, w1, r1, g1, t1, b1, b2, ca, cc, cp, cf, cs⟩ :=
      replaceT2Loop_rotate cb pre c (ek :: post) hw hnd hr hfl
    have hg1 : c1.t2.slots.get ek = some s0 := by
      rw [g1 ek, if_neg hekpre, hg0]
    have hr1 : c1.t2.ring = ek :: (post ++ pre) := by rw [r1]; rfl
    have hlen : pre.length + 1 ≤ c.t2.size + 1 := by
      rw [hsize, hr]; simp
    refine ⟨pre, ek, post, s0, evictT2 cb c1 ek s0, pre.length + 1, hr, hg0, hfl,
      Or.inl ⟨hz0, rfl, ?_⟩, hlen, ?_, ?_, ?_, ?_, ?_, ?_, ?_, ?_, ?_, ?_⟩
    · intro k
      simp only [evictT2, notifyReplace_t2, GoMap.get_delete]
      by_cases hk : ek = k
      · subst hk; simp
      · simp only [hk, ↓reduceIte, Ne.symm hk]
        exact g1 k
    · intro m
      have e : pre.length + 1 + m = pre.length + (m + 1) := by omega
      rw [e, e1, slot.setRef_of_ref hz0]
      exact replaceT2Loop_head_unset cb m w1 hr1 hg1 hz0
    · simp [evictT2, hr1]
    · simp [evictT2, b2]
    · simp [evictT2, t1]
    · simp [evictT2, b1]
    · simp [evictT2, notifyReplace_calls, ca]
    · simp [evictT2, cc]
    · simp [evictT2, cp]
    · simp [evictT2, cf]
    · simp [evictT2, cs]

end CAR
end Car

/-! ### Claims C17 and C18 -/

namespace Car
section Claims
variable {K V : Type} [DecidableEq K]
open CAR

/-- C17. In a state reached by completed `Load` calls on a fresh cache of capacity
`n ≥ 1` in which a miss selects `replaceT2` (`|T1| + |T2| = c` and `|T1| < max 1 p`), T2
is not empty and `replaceT2` returns after `passes ≤ |T2| + 1` passes. The ring of T2
is `pre ++ ek :: post`, where either `ek` is the first key whose flag is unset (every
key of `pre` has its flag set, `passes = |pre| + 1`, and the flags of `pre` are cleared),
or every flag is set, `ek` is the head (`pre` is empty, `passes = |T2| + 1`, and all
flags are cleared). The slot returned is that of `ek`, `ek` is the head of B2, the ring
of T2 is `post ++ pre`, `ek` is no longer in the map of T2, and T1 and B1 are kept. -/
theorem C17_replaceT2_evicts_first_unset (n : Int) (hn : 1 ≤ n) (cb : Callbacks K V)
    (keys : List K) (c : CAR K V) (h : loads cb (NewCAR n) keys = .done c)
    (hc : ((c.t1.size + c.t2.size : Nat) : Int) = c.c)
    (hsel : (c.t1.size : Int) < max 1 c.p) :
    c.t2.ring ≠ [] ∧ c.t2.size ≠ 0 ∧
    ∃ pre ek post s0 c1 passes,
      c.t2.ring = pre ++ ek :: post ∧ c.t2.getSlot ek = some s0 ∧
      (∀ k ∈ pre, ∃ sk, c.t2.getSlot k = some sk ∧ sk.ref ≠ refZero) ∧
      ((s0.ref = refZero ∧ passes = pre.length + 1 ∧
          ∀ k, c1.t2.getSlot k =
            if k = ek then none
            else if k ∈ pre then (c.t2.getSlot k).map (fun x => x.setRef refZero)
            else c.t2.getSlot k) ∨
       (pre = [] ∧ s0.ref ≠ refZero ∧
          (∀ k ∈ post, ∃ sk, c.t2.getSlot k = some sk ∧ sk.ref ≠ refZero) ∧
          passes = c.t2.size + 1 ∧
          ∀ k, c1.t2.getSlot k =
            if k = ek then none else (c.t2.getSlot k).map (fun x => x.setRef refZero))) ∧
      passes ≤ c.t2.size + 1 ∧
      replaceT2Loop cb passes { c with full := true } = .done (s0.setRef refZero, c1) ∧
      replaceT2 cb { c with full := true } = .done (s0.setRef refZero, c1) ∧
      c1.t2.ring = post ++ pre ∧ c1.b2.l = ek :: c.b2.l ∧ c1.t1 = c.t1 ∧ c1.b1 = c.b1 := by
  have hi := reach_inv hn cb h
  have hne : c.t2.ring ≠ [] := by
    intro he
    have h2 : c.t2.size = 0 := by rw [hi.wt2.size_eq, he]; rfl
    have hpc := hi.pc
    have hcp := hi.cpos
    rw [h2] at hc
    unfold max at hsel
    split at hsel <;> omega
  have hsz : c.t2.size ≠ 0 := by
    rw [hi.wt2.size_eq]
    exact fun e => hne (List.length_eq_zero.mp e)
  have hnd : c.t2.ring.Nodup := (List.nodup_append.mp hi.nodup12).2.1
  obtain ⟨pre, ek, post, s0, c1, passes, e1, e2, e3, e4, e5, e6, e7, e8, e9, e10, _⟩ :=
    replaceT2_char cb (c := { c with full := true }) hi.wt2 hnd hne
  dsimp only at e1 e2 e3 e4 e5 e7 e8 e9 e10
  refine ⟨hne, hsz, pre, ek, post, s0, c1, passes, e1, e2, e3, e4, e5, ?_, ?_, e7, ?_, e9, e10⟩
  · have := e6 0
    simpa using this
  · have e : c.t2.size + 1 = passes + (c.t2.size + 1 - passes) := by omega
    unfold replaceT2
    dsimp only
    rw [e]
    exact e6 _
  · rw [e8]; rfl

/-- C18. In a state reached by completed `Load` calls on a fresh cache of capacity
`n ≥ 1`, whenever `replaceT1` returns slot `s`: the ring of T1 was `pre ++ ek :: post`,
where every key of `pre` had its flag set and `ek` is the first key with an unset flag;
`s` is the slot of `ek`, and `ek` is the head of B1; the keys of `pre` are appended to
the ring of T2, in order, each with its slot and the flag cleared, and the other
entries of T2 are kept; the ring of T1 is `post`, with the slots as they were; B2 is
kept. -/
theorem C18_replaceT1_evicts_first_unset (n : Int) (hn : 1 ≤ n) (cb : Callbacks K V)
    (keys : List K) (c : CAR K V) (h : loads cb (NewCAR n) keys = .done c)
    (s : slot V) (c1 : CAR K V)
    (hrep : replaceT1 cb { c with full := true } = .done (s, c1)) :
    ∃ pre ek post, c.t1.ring = pre ++ ek :: post ∧
      (∀ k ∈ pre, ∃ sk, c.t1.getSlot k = some sk ∧ sk.ref ≠ refZero) ∧
      c.t1.getSlot ek = some s ∧ s.ref = refZero ∧
      c1.b1.l = ek :: c.b1.l ∧
      c1.t2.ring = c.t2.ring ++ pre ∧
      (∀ k, c1.t2.getSlot k =
        if k ∈ pre then (c.t1.getSlot k).map (fun x => x.setRef refZero)
        else c.t2.getSlot k) ∧
      c1.t1.ring = post ∧
      (∀ k, c1.t1.getSlot k = if k ∈ post then c.t1.getSlot k else none) ∧
      c1.b2 = c.b2 := by
  have hi := reach_inv hn cb h
  obtain ⟨pre, ek, post, e1, e2, e3, e4, _, e6, e7, e8, e9, e10, e11, _⟩ :=
    replaceT1Loop_char cb _ ({ c with full := true }) hi.wt1 hi.wt2 hi.nodup12 s c1 hrep
  dsimp only at e1 e2 e3 e7 e8 e9 e10 e11
  exact ⟨pre, ek, post, e1, e2, e3, e4, by rw [e8]; rfl, e7, e11, e6, e10, e9⟩

end Claims
end Car

/-! ### The rings through a miss -/

namespace Car
namespace CAR
variable {K V : Type} [DecidableEq K]

/-- A `Load` of a resident key returns the value of its slot and calls no callback. -/
theorem Load_resident (cb : Callbacks K V) {c : CAR K V} {key : K} {s : slot V}
    (hres : resident c key = some s) :
    ∃ c2, Load cb c key = .done (s.value, c2) ∧ c2.calls = c.calls := by
  rw [Load_eq]
  simp only [resident, clock.getSlot] at hres
  cases h1 : c.t1.slots.get key with
  | some s1 =>
    rw [h1] at hres
    simp only [Option.some.injEq] at hres
    subst hres
    have hh : hit c key = (s1.value, true,
        { c with t1 := { c.t1 with slots := c.t1.slots.set key { s1 with ref := refOne } } }) := by
      simp only [hit, clock.getSlot, h1]
    rw [hh]
    exact ⟨_, rfl, rfl⟩
  | none =>
    rw [h1] at hres
    simp only at hres
    have hh : hit c key = (s.value, true,
        { c with t2 := { c.t2 with slots := c.t2.slots.set key { s with ref := refOne } } }) := by
      simp only [hit, clock.getSlot, h1, hres]
    rw [hh]
    exact ⟨_, rfl, rfl⟩

/-- The rings after the first part of a miss: unchanged when the clocks are not full;
after `replaceT1`, T1 has lost the keys up to the evicted one and T2 has gained those
before it at its tail; after `replaceT2`, T2 has lost the evicted key and the keys
before it have moved behind those after it. -/
theorem evict_rings (cb : Callbacks K V) {c : CAR K V} (h : Inv c) {inB1 inB2 : Bool}
    {s : slot V} {c1 : CAR K V} (he : evict cb c inB1 inB2 = .done (s, c1)) :
    (((c.t1.size + c.t2.size : Nat) : Int) ≠ c.c ∧
      c1.t1.ring = c.t1.ring ∧ c1.t2.ring = c.t2.ring) ∨
    (((c.t1.size + c.t2.size : Nat) : Int) = c.c ∧ (c.t1.size : Int) ≥ max 1 c.p ∧
      ∃ pre ek post, c.t1.ring = pre ++ ek :: post ∧ c1.t1.ring = post ∧
        c1.t2.ring = c.t2.ring ++ pre) ∨
    (((c.t1.size + c.t2.size : Nat) : Int) = c.c ∧ (c.t1.size : Int) < max 1 c.p ∧
      ∃ pre ek post, c.t2.ring = pre ++ ek :: post ∧ c1.t2.ring = post ++ pre ∧
        c1.t1.ring = c.t1.ring) := by
  by_cases hc : ((c.t1.size + c.t2.size : Nat) : Int) = c.c
  · right
    have hc' : ((c.t1.ring.length + c.t2.ring.length : Nat) : Int) = c.c := by
      rw [← h.wt1.size_eq, ← h.wt2.size_eq]; exact hc
    unfold evict at he
    simp only [hc, ↓reduceIte] at he
    split at he
    · simp at he
    · simp at he
    · rename_i s1 c0 hrep
      have hinv : (replaceT1 cb { c with full := true } = .done (s1, c0) ∨
          replaceT2 cb { c with full := true } = .done (s1, c0)) → InvG [s1.slotNo] c0 :=
        fun hh => replaced_invG cb h hc' hh
      split at he
      · simp at he
      · simp at he
      · rename_i c3 htrim
        simp only [Outcome.done.injEq, Prod.mk.injEq] at he
        obtain ⟨rfl, rfl⟩ := he
        by_cases hsel : (c.t1.size : Int) ≥ max 1 c.p
        · left
          rw [if_pos hsel] at hrep
          obtain ⟨c3', htr, _, e1, e2, _⟩ := trimDir_done (hinv (Or.inl hrep)) inB1 inB2
          rw [htrim] at htr
          simp only [Outcome.done.injEq] at htr
          subst htr
          obtain ⟨pre, ek, post, a1, _, _, _, _, a6, a7, _⟩ :=
            replaceT1Loop_char cb _ ({ c with full := true }) h.wt1 h.wt2 h.nodup12 s1 c0 hrep
          dsimp only at a1 a7
          exact ⟨hc, hsel, pre, ek, post, a1, by rw [e1, a6], by rw [e2, a7]⟩
        · right
          rw [if_neg hsel] at hrep
          obtain ⟨c3', htr, _, e1, e2, _⟩ := trimDir_done (hinv (Or.inr hrep)) inB1 inB2
          rw [htrim] at htr
          simp only [Outcome.done.injEq] at htr
          subst htr
          have hne : c.t2.ring ≠ [] := by
            intro he2
            have h2 : c.t2.size = 0 := by rw [h.wt2.size_eq, he2]; rfl
            have hpc := h.pc
            have hcp := h.cpos
            rw [h2] at hc
            unfold max at hsel
            split at hsel <;> omega
          have hnd : c.t2.ring.Nodup := (List.nodup_append.mp h.nodup12).2.1
          obtain ⟨pre, ek, post, s0, c1', passes, a1, _, _, _, a5, a6, a7, _, a9, _⟩ :=
            replaceT2_char cb (c := { c with full := true }) h.wt2 hnd hne
          dsimp only at a1 a5 a9
          have e : c.t2.size + 1 = passes + (c.t2.size + 1 - passes) := by omega
          unfold replaceT2 at hrep
          dsimp only at hrep
          rw [e, a6] at hrep
          simp only [Outcome.done.injEq, Prod.mk.injEq] at hrep
          obtain ⟨_, rfl⟩ := hrep
          exact ⟨hc, by omega, pre, ek, post, a1, by rw [e2, a7], by rw [e1, a9]⟩
  · left
    rw [evict_notfull_eq cb hc] at he
    simp only [Outcome.done.injEq, Prod.mk.injEq] at he
    obtain ⟨_, rfl⟩ := he
    exact ⟨hc, rfl, rfl⟩

/-- The rings after the placement of the key: the key is appended to the ring of T2
when it comes from a ghost list, to the ring of T1 otherwise. -/
theorem place_rings {c : CAR K V} {key : K} {s : slot V} {inB1 inB2 : Bool}
    (hr : Ready key inB1 inB2 s c) {c2 : CAR K V} (hp : place c key s inB1 inB2 = .done c2) :
    ((inB1 = true ∨ inB2 = true) →
      c2.t2.ring = c.t2.ring ++ [key] ∧ c2.t1.ring = c.t1.ring) ∧
    (inB1 = false → inB2 = false →
      c2.t1.ring = c.t1.ring ++ [key] ∧ c2.t2.ring = c.t2.ring) := by
  have h := hr.inv
  unfold place at hp
  cases hB1 : inB1 with
  | true =>
    have hk : key ∈ c.b1.l := hr.mb1 hB1
    have hsz : c.b1.size ≠ 0 := by
      rw [h.wb1.size_eq_length]; exact (List.length_pos.mpr (List.ne_nil_of_mem hk)).ne'
    simp only [hB1, ↓reduceIte, hsz, h.wb1.remove_eq hk, h.wt2.insertTail_eq,
      Outcome.done.injEq] at hp
    subst hp
    exact ⟨fun _ => ⟨rfl, rfl⟩, fun h0 => by simp at h0⟩
  | false =>
    cases hB2 : inB2 with
    | true =>
      have hk : key ∈ c.b2.l := hr.mb2 hB2
      have hsz : c.b2.size ≠ 0 := by
        rw [h.wb2.size_eq_length]; exact (List.length_pos.mpr (List.ne_nil_of_mem hk)).ne'
      simp only [hB1, hB2, Bool.false_eq_true, ↓reduceIte, hsz, h.wb2.remove_eq hk,
        h.wt2.insertTail_eq, Outcome.done.injEq] at hp
      subst hp
      exact ⟨fun _ => ⟨rfl, rfl⟩, fun _ h0 => by simp at h0⟩
    | false =>
      simp only [hB1, hB2, Bool.false_eq_true, ↓reduceIte, h.wt1.insertTail_eq,
        Outcome.done.injEq] at hp
      subst hp
      exact ⟨fun h0 => by simp at h0, fun _ _ => ⟨rfl, rfl⟩⟩

end CAR
end Car

/-! ### Examples; claims C19, C11 and C14 -/

namespace Car
section Claims
open CAR

theorem C15_target_moves_toward_hit_ghost_witness :
    (1 : Int) ≤ 2 ∧ loads noCallbacks (NewCAR 2) [1, 2, 1, 3] = .done demoA ∧
    Load noCallbacks demoA 2 = .done (none, demoB) ∧
    resident demoA 2 = none ∧ demoA.b1.exist 2 = true ∧ demoA.p = 0 ∧ demoB.p = 1 ∧
    ∃ s c1, evict noCallbacks demoA (demoA.b1.exist 2) (demoA.b2.exist 2) = .done (s, c1) ∧
      demoB.p = min (demoA.p + max 1 ((c1.b2.size / c1.b1.size : Nat) : Int)) demoA.c ∧
      demoA.p ≤ demoB.p ∧ min (demoA.p + 1) demoA.c ≤ demoB.p := by
  refine ⟨by decide, by decide, by decide, by decide, by decide, by decide, by decide, ?_⟩
  obtain ⟨s, c1, h1, h2, _, _⟩ :=
    (C15_target_moves_toward_hit_ghost 2 (by decide) noCallbacks [1, 2, 1, 3] demoA
      (by decide) 2 none demoB (by decide)).2 (by decide)
  exact ⟨s, c1, h1, h2 (by decide)⟩

theorem C16_ghost_operations_in_bounds_witness :
    (1 : Int) ≤ 2 ∧ loads noCallbacks (NewCAR 2) [1, 2, 1, 3] = .done demoA ∧
    resident demoA 2 = none ∧ demoA.b1.exist 2 = true ∧
    ∀ s c1, evict noCallbacks demoA (demoA.b1.exist 2) (demoA.b2.exist 2) = .done (s, c1) →
      (demoA.b1.exist 2 = true → c1.b1.size ≠ 0 ∧ 2 ∈ c1.b1.l) ∧
      (demoA.b2.exist 2 = true → c1.b2.size ≠ 0 ∧ 2 ∈ c1.b2.l) ∧
      ∃ c2, place (loadValue noCallbacks c1 2 s).2 2 (loadValue noCallbacks c1 2 s).1
        (demoA.b1.exist 2) (demoA.b2.exist 2) = .done c2 :=
  ⟨by decide, by decide, by decide, by decide,
    (C16_ghost_operations_in_bounds 2 (by decide) noCallbacks [1, 2, 1, 3] demoA
      (by decide) 2 (by decide)).2.1⟩

theorem C17_replaceT2_evicts_first_unset_witness :
    (1 : Int) ≤ 3 ∧ loads noCallbacks (NewCAR 3) [0, 0, 0, 1, 1, 2, 4, 0, 2] = .done rotA ∧
    ((rotA.t1.size + rotA.t2.size : Nat) : Int) = rotA.c ∧
    (rotA.t1.size : Int) < max 1 rotA.p ∧
    ∃ pre ek post s0 c1 passes,
      rotA.t2.ring = pre ++ ek :: post ∧ rotA.t2.getSlot ek = some s0 ∧
      passes ≤ rotA.t2.size + 1 ∧
      replaceT2 noCallbacks { rotA with full := true } = .done (s0.setRef refZero, c1) ∧
      c1.t2.ring = post ++ pre ∧ c1.b2.l = ek :: rotA.b2.l ∧ c1.t1 = rotA.t1 ∧
      c1.b1 = rotA.b1 := by
  refine ⟨by decide, by decide, by decide, by decide, ?_⟩
  obtain ⟨_, _, pre, ek, post, s0, c1, passes, h1, h2, _, _, h5, _, h7, h8, h9, h10, h11⟩ :=
    C17_replaceT2_evicts_first_unset 3 (by decide) noCallbacks [0, 0, 0, 1, 1, 2, 4, 0, 2]
      rotA (by decide) (by decide) (by decide)
  exact ⟨pre, ek, post, s0, c1, passes, h1, h2, h5, h7, h8, h9, h10, h11⟩

theorem C18_replaceT1_evicts_first_unset_witness :
    (1 : Int) ≤ 4 ∧
    loads noCallbacks (NewCAR 4) [0, 4, 6, 0, 2, 3, 4, 6, 5, 3] = .done driftA ∧
    replaceT1 noCallbacks { driftA with full := true }
      = .done ({ ref := 0, slotNo := 0, value := none }, driftCode) ∧
    driftA.t1.ring = [3, 5] ∧ driftCode.t2.ring = [4, 6, 3] ∧ driftCode.b1.l = [5, 2] ∧
    ∃ pre ek post, driftA.t1.ring = pre ++ ek :: post ∧
      (∀ k ∈ pre, ∃ sk, driftA.t1.getSlot k = some sk ∧ sk.ref ≠ refZero) ∧
      driftA.t1.getSlot ek = some { ref := 0, slotNo := 0, value := none } ∧
      driftCode.b1.l = ek :: driftA.b1.l ∧
      driftCode.t2.ring = driftA.t2.ring ++ pre ∧
      driftCode.t1.ring = post ∧ driftCode.b2 = driftA.b2 := by
  refine ⟨by decide, by decide, by decide, by decide, by decide, by decide, ?_⟩
  obtain ⟨pre, ek, post, h1, h2, h3, _, h5, h6, _, h8, _, h10⟩ :=
    C18_replaceT1_evicts_first_unset 4 (by decide) noCallbacks
      [0, 4, 6, 0, 2, 3, 4, 6, 5, 3] driftA (by decide)
      { ref := 0, slotNo := 0, value := none } driftCode (by decide)
  exact ⟨pre, ek, post, h1, h2, h3, h5, h6, h8, h10⟩

/-- C19 (the code fails the claim). Capacity 4, no callbacks, keys
0, 4, 6, 0, 2, 3, 4, 6, 5, 3: the cache is full with `p = 2`, T1 = [3, 5] with the
flag of key 3 set, T2 = [4, 6]. The eviction step of the miss selects `replaceT1`,
which moves key 3 to T2 and then evicts key 5 into B1. The procedure replace() of the
paper moves key 3 to T2, then finds `|T1| = 1 < max(1, p)` and evicts key 4, the head of
T2, into B2. On the state of capacity 1 after keys 1, 1 the code panics where the
procedure of the paper evicts key 1 into B2. -/
theorem C19_eviction_is_not_paper_replace :
    loads noCallbacks (NewCAR 4) [0, 4, 6, 0, 2, 3, 4, 6, 5, 3] = .done driftA ∧
    ((driftA.t1.size + driftA.t2.size : Nat) : Int) = driftA.c ∧
    codeReplace noCallbacks driftA
      = .done ({ ref := 0, slotNo := 0, value := none }, driftCode) ∧
    paperReplace noCallbacks { driftA with full := true }
      = .done ({ ref := 0, slotNo := 2, value := none }, driftPaper) ∧
    driftCode.b1.l = [5, 2] ∧ driftCode.b2.l = [0] ∧
    driftCode.t1.ring = [] ∧ driftCode.t2.ring = [4, 6, 3] ∧
    driftPaper.b1.l = [2] ∧ driftPaper.b2.l = [4, 0] ∧
    driftPaper.t1.ring = [5] ∧ driftPaper.t2.ring = [6, 3] ∧
    loads noCallbacks (NewCAR 1) [1, 1] = .done stuckA ∧
    ((stuckA.t1.size + stuckA.t2.size : Nat) : Int) = stuckA.c ∧
    codeReplace noCallbacks stuckA = .panic ∧
    paperReplace noCallbacks { stuckA with full := true }
      = .done ({ ref := 0, slotNo := 0, value := none }, stuckPaper) ∧
    stuckPaper.b2.l = [1] := by
  have hcode : codeReplace noCallbacks driftA
      = .done ({ ref := 0, slotNo := 0, value := none }, driftCode) := by decide
  have hpaper : paperReplace noCallbacks { driftA with full := true }
      = .done ({ ref := 0, slotNo := 2, value := none }, driftPaper) := by decide
  have hstuck : codeReplace noCallbacks stuckA = .panic := by decide
  have hstuckPaper : paperReplace noCallbacks { stuckA with full := true }
      = .done ({ ref := 0, slotNo := 0, value := none }, stuckPaper) := by decide
  refine ⟨by decide, by decide, hcode, hpaper, rfl, rfl, rfl, rfl, rfl, rfl, rfl, rfl,
    by decide, by decide, hstuck, hstuckPaper, rfl⟩

/-- C11 (the claim as stated fails). `NewCAR (-1)` returns a cache, and the `Load`
calls for keys 1, 2, 3, 1 on it complete: the three keys are in T1 and the last call
is a hit. -/
theorem C11_counterexample :
    ¬ ∀ n : Int, n ≤ 0 → ∀ key : Nat,
        ∀ r, Load noCallbacks (NewCAR n : CAR Nat Nat) key ≠ .done r := by
  intro h
  exact h (-1) (by decide) 1
    (none, { c := -1, p := 0,
             t1 := { slots := [(1, { ref := 0, slotNo := 0, value := none })], ring := [1] },
             t2 := { slots := [], ring := [] },
             b1 := { keys := [], l := [] }, b2 := { keys := [], l := [] },
             full := false, slotNo := 1, calls := [] }) (by decide)

/-- C14 (the claim as stated fails). Capacity 3, no callbacks, keys
0, 0, 0, 1, 1, 2, 4, 0, 2: T2 = [0, 1, 2] with the flag of key 0 set, B1 = [4]. The
`Load` of key 4 is a miss on a key of B1; `replaceT2` moves key 0 behind key 2 and
evicts key 1, and key 4 goes to the tail: T2 = [2, 0, 4]. Keys 0 and 2, both in T2
before and after, have changed their relative order. -/
theorem C14_counterexample :
    loads noCallbacks (NewCAR 3) [0, 0, 0, 1, 1, 2, 4, 0, 2] = .done rotA ∧
    resident rotA 4 = none ∧ rotA.b1.exist 4 = true ∧
    Load noCallbacks rotA 4 = .done (none, rotB) ∧
    rotA.t2.ring = [0, 1, 2] ∧ rotB.t2.ring = [2, 0, 4] ∧
    rotA.t2.ring.filter (fun k => decide (k ∈ rotB.t2.ring ∧ k ≠ 4)) = [0, 2] ∧
    rotB.t2.ring.filter (fun k => decide (k ∈ rotA.t2.ring ∧ k ≠ 4)) = [2, 0] := by
  refine ⟨by decide, by decide, by decide, by decide, by decide, by decide, by decide,
    by decide⟩

end Claims
end Car

/-! ### Claim C14 -/

namespace Car
section Claims
variable {K V : Type} [DecidableEq K]
open CAR

/-- C14 (amended). In a state reached by completed `Load` calls on a fresh cache of
capacity `n ≥ 1`, let a `Load` of a key that is not resident complete, and let `c1` be
the state after the first part of the miss. For a key of B1 or of B2 the ring of T2 is
that of `c1` with the key appended and the ring of T1 is that of `c1`; for a key of
neither ghost list the ring of T1 is that of `c1` with the key appended and the ring of
T2 is that of `c1`. The key is in no ghost list afterwards. The rings of `c1` are those
before the miss when the clocks are not full; after `replaceT1` T1 has lost the keys up
to the evicted one and T2 has gained those before it at its tail; after `replaceT2` T2
has lost the evicted key and the keys before it stand behind those after it. A `Load`
of the same key that follows at once returns the same value and calls no callback. -/
theorem C14_miss_appends_key_to_ring_after_eviction (n : Int) (hn : 1 ≤ n)
    (cb : Callbacks K V) (keys : List K) (c : CAR K V)
    (h : loads cb (NewCAR n) keys = .done c) (key : K) (hnr : resident c key = none)
    (v : Option V) (c2 : CAR K V) (hl : Load cb c key = .done (v, c2)) :
    ∃ s c1, evict cb c (c.b1.exist key) (c.b2.exist key) = .done (s, c1) ∧
      ((c.b1.exist key = true ∨ c.b2.exist key = true) →
        c2.t2.ring = c1.t2.ring ++ [key] ∧ c2.t1.ring = c1.t1.ring) ∧
      (c.b1.exist key = false → c.b2.exist key = false →
        c2.t1.ring = c1.t1.ring ++ [key] ∧ c2.t2.ring = c1.t2.ring) ∧
      key ∉ c2.b1.l ∧ key ∉ c2.b2.l ∧ c2.b1.exist key = false ∧ c2.b2.exist key = false ∧
      ((((c.t1.size + c.t2.size : Nat) : Int) ≠ c.c ∧
          c1.t1.ring = c.t1.ring ∧ c1.t2.ring = c.t2.ring) ∨
       (((c.t1.size + c.t2.size : Nat) : Int) = c.c ∧ (c.t1.size : Int) ≥ max 1 c.p ∧
          ∃ pre ek post, c.t1.ring = pre ++ ek :: post ∧ c1.t1.ring = post ∧
            c1.t2.ring = c.t2.ring ++ pre) ∨
       (((c.t1.size + c.t2.size : Nat) : Int) = c.c ∧ (c.t1.size : Int) < max 1 c.p ∧
          ∃ pre ek post, c.t2.ring = pre ++ ek :: post ∧ c1.t2.ring = post ++ pre ∧
            c1.t1.ring = c.t1.ring)) ∧
      ∃ c3, Load cb c2 key = .done (v, c3) ∧ c3.calls = c2.calls := by
  have hi := reach_inv hn cb h
  have hi2 := Load_inv cb hi hl
  obtain ⟨hle, hk1, hk2⟩ := Load_of_not_resident cb hi hnr
  rw [hle] at hl
  obtain ⟨s, c1, he, hp, _, hv, _, _, _, hres⟩ := miss_spec cb hi hk1 hk2 hl
  have hr := (evict_ready cb hi hk1 hk2 he).load cb
  have hpr := place_rings hr hp
  simp only [loadValue_t1, loadValue_t2] at hpr
  have hrk : resident c2 key = some (loadValue cb c1 key s).1 := by
    rw [hres key, if_pos rfl]
  have hmem : key ∈ c2.t1.ring ++ c2.t2.ring := by
    by_contra hcon
    simp only [List.mem_append, not_or] at hcon
    have := (resident_eq_none hi2.wt1 hi2.wt2 key).mpr hcon
    rw [hrk] at this
    exact absurd this (by simp)
  have hnd := hi2.nodup
  simp only [dir] at hnd
  have hnb1 : key ∉ c2.b1.l := fun hm =>
    (List.nodup_append.mp (List.nodup_append.mp hnd).1).2.2 hmem hm
  have hnb2 : key ∉ c2.b2.l := fun hm =>
    (List.nodup_append.mp hnd).2.2 (List.mem_append_left _ hmem) hm
  have hx1 : c2.b1.exist key = false := by
    cases hx : c2.b1.exist key with
    | false => rfl
    | true => exact absurd ((hi2.wb1.exist_iff key).mp hx) hnb1
  have hx2 : c2.b2.exist key = false := by
    cases hx : c2.b2.exist key with
    | false => rfl
    | true => exact absurd ((hi2.wb2.exist_iff key).mp hx) hnb2
  obtain ⟨c3, hl3, hc3⟩ := Load_resident cb hrk
  rw [← hv] at hl3
  exact ⟨s, c1, he, hpr.1, hpr.2, hnb1, hnb2, hx1, hx2, evict_rings cb hi he, c3, hl3, hc3⟩

theorem C14_miss_appends_key_to_ring_after_eviction_witness :
    (1 : Int) ≤ 3 ∧ loads noCallbacks (NewCAR 3) [0, 0, 0, 1, 1, 2, 4, 0, 2] = .done rotA ∧
    resident rotA 4 = none ∧ Load noCallbacks rotA 4 = .done (none, rotB) ∧
    rotA.t2.ring = [0, 1, 2] ∧ rotB.t2.ring = [2, 0, 4] ∧
    ∃ s c1, evict noCallbacks rotA (rotA.b1.exist 4) (rotA.b2.exist 4) = .done (s, c1) ∧
      ((rotA.b1.exist 4 = true ∨ rotA.b2.exist 4 = true) →
        rotB.t2.ring = c1.t2.ring ++ [4] ∧ rotB.t1.ring = c1.t1.ring) ∧
      4 ∉ rotB.b1.l ∧ 4 ∉ rotB.b2.l ∧
      ∃ c3, Load noCallbacks rotB 4 = .done (none, c3) ∧ c3.calls = rotB.calls := by
  refine ⟨by decide, by decide, by decide, by decide, by decide, by decide, ?_⟩
  obtain ⟨s, c1, h1, h2, _, h4, h5, _, _, _, h9⟩ :=
    C14_miss_appends_key_to_ring_after_eviction 3 (by decide) noCallbacks
      [0, 0, 0, 1, 1, 2, 4, 0, 2] rotA (by decide) 4 (by decide) none rotB (by decide)
  exact ⟨s, c1, h1, h2, h4, h5, h9⟩

end Claims
end Car

/-! ### Capacities below one; claim C11 -/

namespace Car
namespace CAR
variable {K V : Type} [DecidableEq K]

/-- On a fresh cache of capacity 0 every `Load` panics: the clocks count as full, and
`replaceT2` takes the head of the empty T2. -/
theorem Load_zero_panics (cb : Callbacks K V) (key : K) :
    Load cb (NewCAR 0 : CAR K V) key = .panic := by
  rfl

theorem NewCAR_unbounded {n : Int} (hn : n < 0) : Unbounded (NewCAR n : CAR K V) :=
  { cneg := hn, p0 := rfl, wt1 := clock.wf_newClock, nodup := List.nodup_nil, t2 := rfl,
    b1 := rfl, b2 := rfl, full := rfl, slotNo := rfl }

/-- On a cache of negative capacity every `Load` completes: a hit, or a miss that takes
a new slot and appends the key to T1. -/
theorem Unbounded.load_done (cb : Callbacks K V) {c : CAR K V} (hu : Unbounded c) (key : K) :
    ∃ v c2, Load cb c key = .done (v, c2) ∧ Unbounded c2 ∧ c2.c = c.c ∧
      c2.t1.ring = (if key ∈ c.t1.ring then c.t1.ring else c.t1.ring ++ [key]) := by
  obtain ⟨a1, a2, a3, a4, a5, a6, a7, a8, a9⟩ := hu
  rw [Load_eq]
  by_cases hk : key ∈ c.t1.ring
  · obtain ⟨s, hs⟩ := a3.get_of_mem hk
    have hh : hit c key = (s.value, true,
        { c with t1 := { c.t1 with slots := c.t1.slots.set key { s with ref := refOne } } }) := by
      simp only [hit, clock.getSlot, hs]
    have hw := a3.set_mem hk ({ s with ref := refOne } : slot V)
    rw [hh]
    refine ⟨_, _, rfl, ?_, rfl, by rw [if_pos hk]⟩
    refine { cneg := a1, p0 := a2, wt1 := hw, nodup := a4, t2 := a5, b1 := a6, b2 := a7,
             full := a8, slotNo := ?_ }
    show c.slotNo = _
    rw [hw.size_eq, a9, a3.size_eq]
  · have hg : c.t1.slots.get key = none := (a3.get_eq_none key).mpr hk
    have hg2 : c.t2.slots.get key = none := by rw [a5]; rfl
    have hh : hit c key = (none, false, c) := by
      simp only [hit, clock.getSlot, hg, hg2]
    have hx1 : c.b1.exist key = false := by rw [a6]; rfl
    have hx2 : c.b2.exist key = false := by rw [a7]; rfl
    have hsz : ((c.t1.size + c.t2.size : Nat) : Int) ≠ c.c := by omega
    have hw := a3.set_tail hk (loadValue cb { c with slotNo := c.slotNo + 1 } key
      (newSlot c.slotNo)).1
    rw [hh]
    simp only [Bool.false_eq_true, ↓reduceIte]
    unfold miss
    simp only [hx1, hx2, evict_notfull_eq cb hsz, place, Bool.false_eq_true, ↓reduceIte,
      loadValue_t1, a3.insertTail_eq]
    refine ⟨_, _, rfl, ?_, by simp, by simp [hk]⟩
    refine { cneg := by simpa using a1, p0 := by simpa using a2, wt1 := hw,
             nodup := ?_, t2 := by simpa using a5, b1 := by simpa using a6,
             b2 := by simpa using a7, full := by simpa using a8, slotNo := ?_ }
    · show (c.t1.ring ++ [key]).Nodup
      exact List.nodup_append.mpr ⟨a4, List.nodup_singleton _, by
        intro a ha hb
        simp only [List.mem_singleton] at hb
        subst hb
        exact hk ha⟩
    · simp only [loadValue_slotNo2]
      show c.slotNo + 1 = _
      rw [hw.size_eq, a9, a3.size_eq, List.length_append, List.length_singleton]

/-- On a cache of negative capacity every sequence of `Load` calls completes, and every
key loaded is in T1 afterwards. -/
theorem Unbounded.loads_done (cb : Callbacks K V) (keys : List K) :
    ∀ {c : CAR K V}, Unbounded c →
    ∃ c2, loads cb c keys = .done c2 ∧ Unbounded c2 ∧ c2.c = c.c ∧
      ∀ k, k ∈ c2.t1.ring ↔ (k ∈ c.t1.ring ∨ k ∈ keys) := by
  induction keys with
  | nil =>
    intro c hu
    exact ⟨c, rfl, hu, rfl, by simp⟩
  | cons key rest ih =>
    intro c hu
    obtain ⟨v, c1, h1, hu1, hc1, hr1⟩ := Unbounded.load_done cb hu key
    obtain ⟨c2, h2, hu2, hc2, hr2⟩ := ih hu1
    refine ⟨c2, ?_, hu2, by rw [hc2, hc1], ?_⟩
    · simp only [CAR.loads, h1, h2]
    · intro k
      rw [hr2 k, hr1]
      by_cases hk : key ∈ c.t1.ring
      · rw [if_pos hk]
        simp only [List.mem_cons]
        constructor
        · rintro (h | h)
          · exact Or.inl h
          · exact Or.inr (Or.inr h)
        · rintro (h | h | h)
          · exact Or.inl h
          · subst h; exact Or.inl hk
          · exact Or.inr h
      · rw [if_neg hk]
        simp only [List.mem_append, List.mem_singleton, List.mem_cons]
        tauto

end CAR

section Claims
variable {K V : Type} [DecidableEq K]
open CAR

/-- C11 (amended). `NewCAR` makes no check of `n`: for every `n` it returns the empty
cache with capacity field `n`. For `n = 0` every `Load` on that cache panics. For
`n < 0` every sequence of `Load` calls completes and nothing is ever evicted: the keys
loaded are exactly the keys of T1, each once, the size of T1 is their number, T2 and
both ghost lists stay empty, and `full` is never set. -/
theorem C11_no_capacity_check (n : Int) (hn : n ≤ 0) (cb : Callbacks K V) (keys : List K) :
    (NewCAR n : CAR K V) = { c := n, p := 0, t1 := clock.newClock, t2 := clock.newClock,
                             b1 := lru.newLru, b2 := lru.newLru, full := false,
                             slotNo := 0, calls := [] } ∧
    (n = 0 → ∀ key, Load cb (NewCAR n : CAR K V) key = .panic) ∧
    (n < 0 → ∃ c, loads cb (NewCAR n) keys = .done c ∧ c.c = n ∧ c.t1.ring.Nodup ∧
      (∀ k, k ∈ c.t1.ring ↔ k ∈ keys) ∧ c.t1.size = c.t1.ring.length ∧
      c.t2.ring = [] ∧ c.t2.size = 0 ∧ c.b1.l = [] ∧ c.b2.l = [] ∧ c.full = false ∧
      ∀ k ∈ keys, resident c k ≠ none) := by
  refine ⟨rfl, ?_, ?_⟩
  · intro h0 key
    subst h0
    exact Load_zero_panics cb key
  · intro hneg
    obtain ⟨c, h1, hu, hc, hr⟩ := Unbounded.loads_done cb keys (NewCAR_unbounded (K := K) (V := V) hneg)
    have hmem : ∀ k, k ∈ c.t1.ring ↔ k ∈ keys := by
      intro k
      rw [hr k]
      simp [NewCAR, clock.newClock]
    refine ⟨c, h1, hc, hu.nodup, hmem, hu.wt1.size_eq, by rw [hu.t2]; rfl, by rw [hu.t2]; rfl,
      by rw [hu.b1]; rfl, by rw [hu.b2]; rfl, hu.full, ?_⟩
    intro k hk hres
    have hw2 : c.t2.WF := by rw [hu.t2]; exact clock.wf_newClock
    exact ((resident_eq_none hu.wt1 hw2 k).mp hres).1 ((hmem k).mpr hk)

theorem C11_no_capacity_check_witness :
    (-1 : Int) ≤ 0 ∧ loads noCallbacks (NewCAR (-1)) [1, 2, 3, 1] = .done negA ∧
    negA.t1.ring = [1, 2, 3] ∧
    ((-1 : Int) < 0 → ∃ c : CAR Nat Nat,
      loads noCallbacks (NewCAR (-1)) [1, 2, 3, 1] = .done c ∧ c.c = -1 ∧ c.t1.ring.Nodup ∧
      (∀ k, k ∈ c.t1.ring ↔ k ∈ [1, 2, 3, 1]) ∧ c.t1.size = c.t1.ring.length ∧
      c.t2.ring = [] ∧ c.t2.size = 0 ∧ c.b1.l = [] ∧ c.b2.l = [] ∧ c.full = false ∧
      ∀ k ∈ [1, 2, 3, 1], resident c k ≠ none) :=
  ⟨by decide, by decide, by decide,
    (C11_no_capacity_check (-1) (by decide) noCallbacks [1, 2, 3, 1]).2.2⟩

end Claims
end Car

/-! ### The policy part of maps and clocks -/

namespace Car

namespace GoMap
variable {K α β : Type} [DecidableEq K]

theorem len_mapVal (f : α → β) (m : GoMap K α) :
    GoMap.len (m.map (fun e => (e.1, f e.2)) : GoMap K β) = m.len := by
  simp [GoMap.len]

theorem get_mapVal (f : α → β) (m : GoMap K α) (k : K) :
    GoMap.get (m.map (fun e => (e.1, f e.2)) : GoMap K β) k = (m.get k).map f := by
  induction m with
  | nil => rfl
  | cons e m ih =>
    obtain ⟨k0, v0⟩ := e
    simp only [List.map_cons, GoMap.get]
    by_cases h : k0 = k
    · simp [h]
    · simp [h, ih]

theorem set_mapVal (f : α → β) (m : GoMap K α) (k : K) (v : α) :
    GoMap.set (m.map (fun e => (e.1, f e.2)) : GoMap K β) k (f v)
      = (m.set k v).map (fun e => (e.1, f e.2)) := by
  induction m with
  | nil => rfl
  | cons e m ih =>
    obtain ⟨k0, v0⟩ := e
    simp only [List.map_cons, GoMap.set]
    by_cases h : k0 = k
    · simp [h]
    · simp [h, ih]

theorem delete_mapVal (f : α → β) (m : GoMap K α) (k : K) :
    GoMap.delete (m.map (fun e => (e.1, f e.2)) : GoMap K β) k
      = (m.delete k).map (fun e => (e.1, f e.2)) := by
  induction m with
  | nil => rfl
  | cons e m ih =>
    obtain ⟨k0, v0⟩ := e
    simp only [List.map_cons, GoMap.delete]
    by_cases h : k0 = k
    · simp [h, ih]
    · simp [h, ih]

end GoMap

namespace clock
variable {K V : Type} [DecidableEq K]

theorem policy_size (cl : clock K V) : cl.policy.size = cl.size :=
  GoMap.len_mapVal slot.policy cl.slots

theorem policy_len (cl : clock K V) : GoMap.len cl.policy.slots = GoMap.len cl.slots :=
  GoMap.len_mapVal slot.policy cl.slots

theorem policy_get (cl : clock K V) (k : K) :
    GoMap.get cl.policy.slots k = (GoMap.get cl.slots k).map slot.policy :=
  GoMap.get_mapVal slot.policy cl.slots k

theorem policy_getSlot (cl : clock K V) (k : K) :
    cl.policy.getSlot k = (cl.getSlot k).map slot.policy :=
  GoMap.get_mapVal slot.policy cl.slots k

theorem policy_set (cl : clock K V) (k : K) (s : slot V) :
    ({ cl.policy with slots := cl.policy.slots.set k s.policy } : clock K Unit)
      = clock.policy { cl with slots := cl.slots.set k s } := by
  simp only [clock.policy]
  rw [GoMap.set_mapVal slot.policy]

theorem policy_next (cl : clock K V) : cl.policy.next = cl.next.policy := by
  unfold clock.next
  cases h : cl.ring with
  | nil => simp [clock.policy, h]
  | cons k r => simp [clock.policy, h]

theorem policy_getHead (cl : clock K V) :
    cl.policy.getHead = cl.getHead.map (fun x => (x.1, x.2.map slot.policy)) := by
  unfold clock.getHead
  cases h : cl.ring with
  | nil => simp [clock.policy, h]
  | cons k r =>
    have := policy_get cl k
    simp only [clock.policy] at this
    simp [clock.policy, h, this]

theorem policy_removeHead (cl : clock K V) :
    cl.policy.removeHead
      = cl.removeHead.map (fun r => (r.1.map (fun x => (x.1, x.2.map slot.policy)), r.2.policy)) := by
  have hlen := policy_len cl
  have hget := policy_get cl
  have hdel := GoMap.delete_mapVal slot.policy cl.slots
  simp only [clock.policy] at hlen hget
  unfold clock.removeHead
  simp only [clock.policy, hlen]
  rcases hl : GoMap.len cl.slots with _ | _ | m
  · simp [Outcome.map]
  · cases h : cl.ring with
    | nil => simp [Outcome.map]
    | cons k r => simp [Outcome.map, hget, hdel]
  · cases h : cl.ring with
    | nil => simp [Outcome.map]
    | cons k r =>
      cases r with
      | nil => simp [Outcome.map, hget, hdel]
      | cons k2 r2 => simp [Outcome.map, hget, hdel]

theorem policy_insertTail (cl : clock K V) (key : K) (s : slot V) :
    cl.policy.insertTail key s.policy = (cl.insertTail key s).map clock.policy := by
  have hlen := policy_len cl
  have hset := GoMap.set_mapVal slot.policy cl.slots key s
  simp only [clock.policy] at hlen
  unfold clock.insertTail
  simp only [clock.policy, hlen]
  rcases hl : GoMap.len cl.slots with _ | m
  · simp [Outcome.map, hset]; rfl
  · cases h : cl.ring with
    | nil => simp [Outcome.map]
    | cons k r => simp [Outcome.map, hset]; rfl

end clock
end Car

/-! ### The policy part of a Load -/

namespace Car
namespace CAR
variable {K V : Type} [DecidableEq K]

theorem policy_notifyReplace (cb : Callbacks K V) (c : CAR K V) (key : K) (s : slot V) :
    notifyReplace cb.policy c.policy key s.policy = (notifyReplace cb c key s).policy := by
  unfold notifyReplace
  cases h : cb.cbReplaceValue with
  | false => simp [Callbacks.policy, h]
  | true =>
    simp only [Callbacks.policy, h, ↓reduceIte]
    simp [CAR.policy, List.filterMap_append, Call.policy, slot.policy]

theorem policy_replaceT1Loop (cb : Callbacks K V) :
    ∀ (n : Nat) (c : CAR K V),
      replaceT1Loop cb.policy n c.policy = (replaceT1Loop cb n c).policySlot := by
  intro n
  induction n with
  | zero => intro c; rfl
  | succ n ih =>
    intro c
    simp only [replaceT1Loop]
    have hrm : c.policy.t1.removeHead = _ := clock.policy_removeHead c.t1
    rw [hrm]
    rcases hr : c.t1.removeHead with ⟨r, t1⟩ | _ | _
    · rcases r with _ | ⟨key, _ | s⟩
      · rfl
      · rfl
      · simp only [Outcome.map, Option.map_some']
        by_cases hz : s.ref = refZero
        · have hz2 : s.policy.ref = refZero := hz
          rw [if_pos hz, if_pos hz2]
          simp only [Outcome.policySlot]
          rw [← policy_notifyReplace]
          rfl
        · have hz2 : ¬ s.policy.ref = refZero := hz
          rw [if_neg hz, if_neg hz2]
          have hins : c.policy.t2.insertTail key { s.policy with ref := refZero } = _ :=
            clock.policy_insertTail c.t2 key { s with ref := refZero }
          rw [hins]
          rcases hi : c.t2.insertTail key { s with ref := refZero } with t2 | _ | _
          · simp only [Outcome.map]
            exact ih { c with t1 := t1, t2 := t2 }
          · rfl
          · rfl
    · rfl
    · rfl

theorem policy_replaceT1 (cb : Callbacks K V) (c : CAR K V) :
    replaceT1 cb.policy c.policy = (replaceT1 cb c).policySlot := by
  unfold replaceT1
  have : c.policy.t1.size = c.t1.size := clock.policy_size c.t1
  rw [this]
  exact policy_replaceT1Loop cb _ c

theorem policy_replaceT2Loop (cb : Callbacks K V) :
    ∀ (n : Nat) (c : CAR K V),
      replaceT2Loop cb.policy n c.policy = (replaceT2Loop cb n c).policySlot := by
  intro n
  induction n with
  | zero => intro c; rfl
  | succ n ih =>
    intro c
    simp only [replaceT2Loop]
    have hgh : c.policy.t2.getHead = _ := clock.policy_getHead c.t2
    rw [hgh]
    rcases hg : c.t2.getHead with _ | ⟨key, _ | s⟩
    · rfl
    · rfl
    · simp only [Option.map_some']
      by_cases hz : s.ref = refZero
      · have hz2 : s.policy.ref = refZero := hz
        rw [if_pos hz, if_pos hz2]
        have hrm : c.policy.t2.removeHead = _ := clock.policy_removeHead c.t2
        rw [hrm]
        rcases hr : c.t2.removeHead with ⟨r, t2⟩ | _ | _
        · simp only [Outcome.map, Outcome.policySlot]
          rw [← policy_notifyReplace]
          rfl
        · rfl
        · rfl
      · have hz2 : ¬ s.policy.ref = refZero := hz
        rw [if_neg hz, if_neg hz2]
        have e : ({ c.policy with t2 := clock.next { c.policy.t2 with slots := c.policy.t2.slots.set key { s.policy with ref := refZero } } } : CAR K Unit)
            = CAR.policy { c with t2 := clock.next { c.t2 with slots := c.t2.slots.set key { s with ref := refZero } } } := by
          have h1 := clock.policy_set c.t2 key { s with ref := refZero }
          have h2 := clock.policy_next { c.t2 with slots := c.t2.slots.set key { s with ref := refZero } }
          simp only [CAR.policy]
          rw [← h2, ← h1]
          rfl
        rw [e]
        exact ih _

theorem policy_replaceT2 (cb : Callbacks K V) (c : CAR K V) :
    replaceT2 cb.policy c.policy = (replaceT2 cb c).policySlot := by
  unfold replaceT2
  have : c.policy.t2.size = c.t2.size := clock.policy_size c.t2
  rw [this]
  exact policy_replaceT2Loop cb _ c

theorem policy_trimDir (c : CAR K V) (inB1 inB2 : Bool) :
    trimDir c.policy inB1 inB2 = (trimDir c inB1 inB2).policy := by
  have h1 : c.policy.t1.size = c.t1.size := clock.policy_size c.t1
  have h2 : c.policy.t2.size = c.t2.size := clock.policy_size c.t2
  have hb1 : c.policy.b1 = c.b1 := rfl
  have hb2 : c.policy.b2 = c.b2 := rfl
  have hc : c.policy.c = c.c := rfl
  unfold trimDir
  rw [h1, h2, hb1, hb2, hc]
  split
  · split
    · rcases hr : c.b1.removeTail with b | _ | _ <;> rfl
    · split
      · rcases hr : c.b2.removeTail with b | _ | _ <;> rfl
      · rfl
  · rfl

theorem evict_full_fuel (cb : Callbacks K V) {c : CAR K V}
    (hc : ((c.t1.size + c.t2.size : Nat) : Int) = c.c) (inB1 inB2 : Bool)
    (hrep : (if (c.t1.size : Int) ≥ max 1 c.p then replaceT1 cb { c with full := true }
             else replaceT2 cb { c with full := true }) = .fuel) :
    evict cb c inB1 inB2 = .fuel := by
  simp only [evict, hc, ↓reduceIte, hrep]

theorem evict_full_trim_panic (cb : Callbacks K V) {c : CAR K V}
    (hc : ((c.t1.size + c.t2.size : Nat) : Int) = c.c) (inB1 inB2 : Bool)
    {s : slot V} {c1 : CAR K V}
    (hrep : (if (c.t1.size : Int) ≥ max 1 c.p then replaceT1 cb { c with full := true }
             else replaceT2 cb { c with full := true }) = .done (s, c1))
    (htrim : trimDir c1 inB1 inB2 = .panic) :
    evict cb c inB1 inB2 = .panic := by
  simp only [evict, hc, ↓reduceIte, hrep, htrim]

theorem evict_full_trim_fuel (cb : Callbacks K V) {c : CAR K V}
    (hc : ((c.t1.size + c.t2.size : Nat) : Int) = c.c) (inB1 inB2 : Bool)
    {s : slot V} {c1 : CAR K V}
    (hrep : (if (c.t1.size : Int) ≥ max 1 c.p then replaceT1 cb { c with full := true }
             else replaceT2 cb { c with full := true }) = .done (s, c1))
    (htrim : trimDir c1 inB1 inB2 = .fuel) :
    evict cb c inB1 inB2 = .fuel := by
  simp only [evict, hc, ↓reduceIte, hrep, htrim]

theorem policy_evict (cb : Callbacks K V) (c : CAR K V) (inB1 inB2 : Bool) :
    evict cb.policy c.policy inB1 inB2 = (evict cb c inB1 inB2).policySlot := by
  have h1 : c.policy.t1.size = c.t1.size := clock.policy_size c.t1
  have h2 : c.policy.t2.size = c.t2.size := clock.policy_size c.t2
  by_cases hfull : ((c.t1.size + c.t2.size : Nat) : Int) = c.c
  · have hfull2 : ((c.policy.t1.size + c.policy.t2.size : Nat) : Int) = c.policy.c := by
      rw [h1, h2]; exact hfull
    have hrepP : (if (c.policy.t1.size : Int) ≥ max 1 c.policy.p
          then replaceT1 cb.policy { c.policy with full := true }
          else replaceT2 cb.policy { c.policy with full := true })
        = (if (c.t1.size : Int) ≥ max 1 c.p then replaceT1 cb { c with full := true }
           else replaceT2 cb { c with full := true }).policySlot := by
      rw [h1]
      by_cases hsel : (c.t1.size : Int) ≥ max 1 c.p
      · have hsel2 : (c.t1.size : Int) ≥ max 1 c.policy.p := hsel
        rw [if_pos hsel, if_pos hsel2]
        exact policy_replaceT1 cb { c with full := true }
      · have hsel2 : ¬ (c.t1.size : Int) ≥ max 1 c.policy.p := hsel
        rw [if_neg hsel, if_neg hsel2]
        exact policy_replaceT2 cb { c with full := true }
    rcases hr : (if (c.t1.size : Int) ≥ max 1 c.p then replaceT1 cb { c with full := true }
           else replaceT2 cb { c with full := true }) with ⟨s, c1⟩ | _ | _
    · rw [hr] at hrepP
      have ht := policy_trimDir c1 inB1 inB2
      rcases htr : trimDir c1 inB1 inB2 with c2 | _ | _
      · rw [htr] at ht
        rw [evict_full_done cb hfull inB1 inB2 hr htr,
          evict_full_done cb.policy hfull2 inB1 inB2 hrepP ht]
        rfl
      · rw [htr] at ht
        rw [evict_full_trim_panic cb hfull inB1 inB2 hr htr,
          evict_full_trim_panic cb.policy hfull2 inB1 inB2 hrepP ht]
        rfl
      · rw [htr] at ht
        rw [evict_full_trim_fuel cb hfull inB1 inB2 hr htr,
          evict_full_trim_fuel cb.policy hfull2 inB1 inB2 hrepP ht]
        rfl
    · rw [hr] at hrepP
      rw [evict_full_panic cb hfull inB1 inB2 hr,
        evict_full_panic cb.policy hfull2 inB1 inB2 hrepP]
      rfl
    · rw [hr] at hrepP
      rw [evict_full_fuel cb hfull inB1 inB2 hr,
        evict_full_fuel cb.policy hfull2 inB1 inB2 hrepP]
      rfl
  · have hfull2 : ((c.policy.t1.size + c.policy.t2.size : Nat) : Int) ≠ c.policy.c := by
      rw [h1, h2]; exact hfull
    rw [evict_notfull_eq cb hfull, evict_notfull_eq cb.policy hfull2]
    rfl

theorem policy_loadValue (cb : Callbacks K V) (c : CAR K V) (key : K) (s : slot V) :
    loadValue cb.policy c.policy key s.policy
      = ((loadValue cb c key s).1.policy, (loadValue cb c key s).2.policy) := by
  unfold loadValue
  cases h : cb.cbLoadValue with
  | none => simp only [Callbacks.policy]; rfl
  | some f =>
    simp only [Callbacks.policy]
    simp [CAR.policy, List.filterMap_append, Call.policy, slot.policy]

theorem policy_place (c : CAR K V) (key : K) (s : slot V) (inB1 inB2 : Bool) :
    place c.policy key s.policy inB1 inB2 = (place c key s inB1 inB2).policy := by
  have hb1 : c.policy.b1 = c.b1 := rfl
  have hb2 : c.policy.b2 = c.b2 := rfl
  have hc : c.policy.c = c.c := rfl
  have hp : c.policy.p = c.p := rfl
  have ht1 : c.policy.t1.insertTail key s.policy = _ := clock.policy_insertTail c.t1 key s
  have ht2 : c.policy.t2.insertTail key s.policy = _ := clock.policy_insertTail c.t2 key s
  unfold place
  rw [hb1, hb2, hc, hp, ht1, ht2]
  cases inB1 with
  | true =>
    simp only [↓reduceIte]
    split
    · rfl
    · rcases c.b1.remove key with b | _ | _
      · rcases c.t2.insertTail key s with t | _ | _ <;> rfl
      · rfl
      · rfl
  | false =>
    cases inB2 with
    | true =>
      simp only [Bool.false_eq_true, ↓reduceIte]
      split
      · rfl
      · rcases c.b2.remove key with b | _ | _
        · rcases c.t2.insertTail key s with t | _ | _ <;> rfl
        · rfl
        · rfl
    | false =>
      simp only [Bool.false_eq_true, ↓reduceIte]
      rcases c.t1.insertTail key s with t | _ | _ <;> rfl

theorem policy_miss (cb : Callbacks K V) (c : CAR K V) (key : K) :
    miss cb.policy c.policy key = (miss cb c key).policyLoad := by
  have hb1 : c.policy.b1 = c.b1 := rfl
  have hb2 : c.policy.b2 = c.b2 := rfl
  unfold miss
  simp only [hb1, hb2]
  rw [policy_evict]
  rcases evict cb c (c.b1.exist key) (c.b2.exist key) with ⟨s, c1⟩ | _ | _
  · simp only [Outcome.policySlot]
    rw [policy_loadValue]
    simp only
    rw [policy_place]
    rcases place (loadValue cb c1 key s).2 key (loadValue cb c1 key s).1 (c.b1.exist key)
      (c.b2.exist key) with c2 | _ | _ <;> rfl
  · rfl
  · rfl

theorem policy_hit (c : CAR K V) (key : K) :
    hit c.policy key = (none, (hit c key).2.1, (hit c key).2.2.policy) := by
  have g1 : c.policy.t1.getSlot key = _ := clock.policy_getSlot c.t1 key
  have g2 : c.policy.t2.getSlot key = _ := clock.policy_getSlot c.t2 key
  unfold hit
  rw [g1, g2]
  rcases h1 : c.t1.getSlot key with _ | s
  · rcases h2 : c.t2.getSlot key with _ | s
    · rfl
    · simp only [Option.map_some', Option.map_none']
      have e := clock.policy_set c.t2 key { s with ref := refOne }
      simp only [CAR.policy, Prod.mk.injEq, true_and]
      refine ⟨rfl, ?_⟩
      rw [← e]
      rfl
  · simp only [Option.map_some']
    have e := clock.policy_set c.t1 key { s with ref := refOne }
    simp only [CAR.policy, Prod.mk.injEq, true_and]
    refine ⟨rfl, ?_⟩
    rw [← e]
    rfl

/-- A `Load` on the policy state, with the policy part of the callbacks, is the policy
part of the `Load`. -/
theorem policy_Load (cb : Callbacks K V) (c : CAR K V) (key : K) :
    Load cb.policy c.policy key = (Load cb c key).policyLoad := by
  rw [Load_eq, Load_eq, policy_hit]
  simp only
  by_cases hb : (hit c key).2.1 = true
  · rw [if_pos hb, if_pos hb]; rfl
  · rw [if_neg hb, if_neg hb]; exact policy_miss cb c key

theorem policy_loads (cb : Callbacks K V) (keys : List K) :
    ∀ c : CAR K V, loads cb.policy c.policy keys = (loads cb c keys).policy := by
  induction keys with
  | nil => intro c; rfl
  | cons key rest ih =>
    intro c
    simp only [loads]
    rw [policy_Load]
    rcases Load cb c key with ⟨v, c1⟩ | _ | _
    · simp only [Outcome.policyLoad]
      exact ih c1
    · rfl
    · rfl

end CAR
end Car

/-! ### Claim C12 -/

namespace Car
namespace CAR
variable {K V : Type} [DecidableEq K]

theorem policy_slot_info (x : Option (slot V)) :
    (x.map slot.policy).map (fun s => (s.ref, s.slotNo)) = x.map (fun s => (s.ref, s.slotNo)) := by
  cases x <;> rfl

theorem policy_NewCAR (n : Int) : (NewCAR n : CAR K V).policy = (NewCAR n : CAR K Unit) := rfl

end CAR

section Claims
variable {K V : Type} [DecidableEq K]
open CAR

/-- C12. For every capacity `n`, every sequence of keys and any two sets of callbacks
that agree on whether a replacement callback is set, with values of any two types: the
two runs of the sequence on a fresh cache have the same outcome and leave the same
policy state, that is the same rings of T1 and T2, the same ghost lists, the same `p`,
`full` and slot counter, the same reference flag and slot number for every resident
key, and the same evictions reported to the replacement callback; a further `Load` is
a hit in both or a miss in both, has the same outcome and policy state in both, and
evicts the same keys in both. -/
theorem C12_policy_ignores_values {W : Type} (n : Int) (cbA : Callbacks K V)
    (cbB : Callbacks K W) (hrep : cbA.cbReplaceValue = cbB.cbReplaceValue) (keys : List K) :
    (loads cbA (NewCAR n) keys).policy = (loads cbB (NewCAR n) keys).policy ∧
    ∀ cA cB, loads cbA (NewCAR n) keys = .done cA → loads cbB (NewCAR n) keys = .done cB →
      cA.policy = cB.policy ∧
      cA.t1.ring = cB.t1.ring ∧ cA.t2.ring = cB.t2.ring ∧ cA.b1 = cB.b1 ∧ cA.b2 = cB.b2 ∧
      cA.c = cB.c ∧ cA.p = cB.p ∧ cA.full = cB.full ∧ cA.slotNo = cB.slotNo ∧
      (∀ k, (cA.t1.getSlot k).map (fun s => (s.ref, s.slotNo))
          = (cB.t1.getSlot k).map (fun s => (s.ref, s.slotNo))) ∧
      (∀ k, (cA.t2.getSlot k).map (fun s => (s.ref, s.slotNo))
          = (cB.t2.getSlot k).map (fun s => (s.ref, s.slotNo))) ∧
      cA.calls.filterMap Call.policy = cB.calls.filterMap Call.policy ∧
      ∀ key, (hit cA key).2.1 = (hit cB key).2.1 ∧
        (Load cbA cA key).policyLoad = (Load cbB cB key).policyLoad ∧
        ∀ vA cA2 vB cB2, Load cbA cA key = .done (vA, cA2) →
          Load cbB cB key = .done (vB, cB2) →
          cA2.policy = cB2.policy ∧
          (cA.policy.evictedKeys cA2.policy) = (cB.policy.evictedKeys cB2.policy) ∧
          (cA.t1.ring ++ cA.t2.ring).filter (fun k => decide (k ∉ cA2.t1.ring ++ cA2.t2.ring))
            = (cB.t1.ring ++ cB.t2.ring).filter
                (fun k => decide (k ∉ cB2.t1.ring ++ cB2.t2.ring)) := by
  have hcb : cbA.policy = cbB.policy := by
    simp only [Callbacks.policy, hrep]
  have hfirst : (loads cbA (NewCAR n) keys).policy = (loads cbB (NewCAR n) keys).policy := by
    rw [← policy_loads cbA keys (NewCAR n), ← policy_loads cbB keys (NewCAR n), hcb]
    rfl
  refine ⟨hfirst, ?_⟩
  intro cA cB hA hB
  rw [hA, hB] at hfirst
  simp only [Outcome.policy, Outcome.done.injEq] at hfirst
  have g1 : ∀ k, (cA.t1.getSlot k).map (fun s => (s.ref, s.slotNo))
      = (cB.t1.getSlot k).map (fun s => (s.ref, s.slotNo)) := by
    intro k
    have e := congrArg (fun c : CAR K Unit => c.t1.getSlot k) hfirst
    have eA : cA.policy.t1.getSlot k = _ := clock.policy_getSlot cA.t1 k
    have eB : cB.policy.t1.getSlot k = _ := clock.policy_getSlot cB.t1 k
    simp only [eA, eB] at e
    rw [← policy_slot_info (cA.t1.getSlot k), ← policy_slot_info (cB.t1.getSlot k), e]
  have g2 : ∀ k, (cA.t2.getSlot k).map (fun s => (s.ref, s.slotNo))
      = (cB.t2.getSlot k).map (fun s => (s.ref, s.slotNo)) := by
    intro k
    have e := congrArg (fun c : CAR K Unit => c.t2.getSlot k) hfirst
    have eA : cA.policy.t2.getSlot k = _ := clock.policy_getSlot cA.t2 k
    have eB : cB.policy.t2.getSlot k = _ := clock.policy_getSlot cB.t2 k
    simp only [eA, eB] at e
    rw [← policy_slot_info (cA.t2.getSlot k), ← policy_slot_info (cB.t2.getSlot k), e]
  refine ⟨hfirst, congrArg (fun c : CAR K Unit => c.t1.ring) hfirst,
    congrArg (fun c : CAR K Unit => c.t2.ring) hfirst,
    congrArg (fun c : CAR K Unit => c.b1) hfirst,
    congrArg (fun c : CAR K Unit => c.b2) hfirst,
    congrArg (fun c : CAR K Unit => c.c) hfirst,
    congrArg (fun c : CAR K Unit => c.p) hfirst,
    congrArg (fun c : CAR K Unit => c.full) hfirst,
    congrArg (fun c : CAR K Unit => c.slotNo) hfirst, g1, g2,
    congrArg (fun c : CAR K Unit => c.calls) hfirst, ?_⟩
  intro key
  have hload : (Load cbA cA key).policyLoad = (Load cbB cB key).policyLoad := by
    rw [← policy_Load, ← policy_Load, hcb, hfirst]
  have hhit : (hit cA key).2.1 = (hit cB key).2.1 := by
    have eA := policy_hit cA key
    have eB := policy_hit cB key
    rw [hfirst, eB] at eA
    simp only [Prod.mk.injEq, true_and] at eA
    exact eA.1.symm
  refine ⟨hhit, hload, ?_⟩
  intro vA cA2 vB cB2 hlA hlB
  rw [hlA, hlB] at hload
  simp only [Outcome.policyLoad, Outcome.done.injEq, Prod.mk.injEq, true_and] at hload
  refine ⟨hload, by rw [hfirst, hload], ?_⟩
  have r1 : cA.t1.ring = cB.t1.ring := congrArg (fun c : CAR K Unit => c.t1.ring) hfirst
  have r2 : cA.t2.ring = cB.t2.ring := congrArg (fun c : CAR K Unit => c.t2.ring) hfirst
  have r3 : cA2.t1.ring = cB2.t1.ring := congrArg (fun c : CAR K Unit => c.t1.ring) hload
  have r4 : cA2.t2.ring = cB2.t2.ring := congrArg (fun c : CAR K Unit => c.t2.ring) hload
  rw [r1, r2, r3, r4]

theorem C12_policy_ignores_values_witness :
    (bothCallbacks exampleLoad).cbReplaceValue
      = ({ cbLoadValue := none, cbReplaceValue := true } : Callbacks Nat Nat).cbReplaceValue ∧
    loads (bothCallbacks exampleLoad) (NewCAR 3) [0, 1, 2, 3] = .done exampleEnd ∧
    (loads (bothCallbacks exampleLoad) (NewCAR 3) [0, 1, 2, 3]).policy
      = (loads ({ cbLoadValue := none, cbReplaceValue := true } : Callbacks Nat Nat)
          (NewCAR 3) [0, 1, 2, 3]).policy :=
  ⟨rfl, by decide,
    (C12_policy_ignores_values 3 (bothCallbacks exampleLoad)
      ({ cbLoadValue := none, cbReplaceValue := true } : Callbacks Nat Nat) rfl
      [0, 1, 2, 3]).1⟩

end Claims
end Car

/-! ### Callbacks set between two calls; claim C7 -/

namespace Car
namespace CAR
variable {K V : Type} [DecidableEq K]

/-- Completed `Load` calls keep the invariant, whatever callbacks each is run with. -/
theorem loadsWith_inv (steps : List (Callbacks K V × K)) :
    ∀ {c c2 : CAR K V}, Inv c → loadsWith c steps = .done c2 → Inv c2 := by
  induction steps with
  | nil =>
    intro c c2 h hl
    simp only [loadsWith, Outcome.done.injEq] at hl
    subst hl
    exact h
  | cons st rest ih =>
    intro c c2 h hl
    obtain ⟨cb, key⟩ := st
    simp only [loadsWith] at hl
    rcases hload : Load cb c key with ⟨v, c1⟩ | _ | _
    · rw [hload] at hl
      exact ih (Load_inv cb h hload) hl
    · rw [hload] at hl; simp at hl
    · rw [hload] at hl; simp at hl

/-- With the same callbacks at every call, `loadsWith` is `loads`. -/
theorem loadsWith_same (cb : Callbacks K V) (keys : List K) :
    ∀ c : CAR K V, loadsWith c (keys.map (fun k => (cb, k))) = loads cb c keys := by
  induction keys with
  | nil => intro c; rfl
  | cons key rest ih =>
    intro c
    simp only [List.map_cons, loadsWith, loads]
    rcases Load cb c key with ⟨v, c1⟩ | _ | _
    · exact ih c1
    · rfl
    · rfl

end CAR

section Claims
variable {K V : Type} [DecidableEq K]
open CAR

/-- C7. In a state reached on a fresh cache of capacity `n ≥ 1` by completed `Load`
calls, each made with any callbacks (set, changed or unset between the calls), let a
`Load` of a key that is not resident complete with value `v`, under callbacks `cb`. The
miss runs in three steps: its first part ends with a slot `s` in hand, in a state `c1`
where the key is still not resident and to which only calls of the replacement callback
have been added; then the load callback, if set, is called once, with the key and the
slot number of `s`, on the record of calls of `c1`, and `v` is what it returns; then the
key is placed, which changes no other resident entry, and the key is resident with slot
number `s.slotNo` and value `v`. Without a load callback no call is added, `v` is nil,
and the key is resident with the nil value, whatever value the slot `s` held. -/
theorem C7_load_callback_once (n : Int) (hn : 1 ≤ n)
    (steps : List (Callbacks K V × K)) (c : CAR K V)
    (h : loadsWith (NewCAR n) steps = .done c) (cb : Callbacks K V) (key : K)
    (hnr : resident c key = none) (v : Option V) (c2 : CAR K V)
    (hl : Load cb c key = .done (v, c2)) :
    ∃ s c1,
      evict cb c (c.b1.exist key) (c.b2.exist key) = .done (s, c1) ∧
      resident c1 key = none ∧
      (∃ pre, c1.calls = c.calls ++ pre ∧ ∀ e ∈ pre, ∃ k w m, e = Call.replace k w m) ∧
      place (loadValue cb c1 key s).2 key (loadValue cb c1 key s).1
        (c.b1.exist key) (c.b2.exist key) = .done c2 ∧
      (∀ k, k ≠ key → resident c2 k = resident c1 k) ∧
      (∀ f, cb.cbLoadValue = some f →
        c2.calls = c1.calls ++ [Call.load key s.slotNo] ∧ v = f c1.calls key s.slotNo ∧
        (loadValue cb c1 key s).1 = { s with value := v } ∧
        resident c2 key = some { ref := s.ref, slotNo := s.slotNo, value := v }) ∧
      (cb.cbLoadValue = none →
        c2.calls = c1.calls ∧ v = none ∧
        (loadValue cb c1 key s).1 = { s with value := none } ∧
        resident c2 key = some { ref := s.ref, slotNo := s.slotNo, value := none }) := by
  have hi : Inv c := loadsWith_inv steps (NewCAR_inv hn) h
  obtain ⟨hle, hk1, hk2⟩ := Load_of_not_resident cb hi hnr
  rw [hle] at hl
  obtain ⟨s, c1, he, hp, hr1, hv, hcalls, _, _, hres⟩ := miss_spec cb hi hk1 hk2 hl
  refine ⟨s, c1, he, hr1, ?_, hp, ?_, ?_, ?_⟩
  · rcases evict_spec cb hi he with ⟨_, _, rfl⟩ | ⟨_, _, _, ek, s0, _, _, _, hc, _⟩
    · exact ⟨[], by simp, by simp⟩
    · refine ⟨_, hc, ?_⟩
      intro e hm
      split at hm
      · simp only [List.mem_singleton] at hm
        exact ⟨_, _, _, hm⟩
      · simp at hm
  · intro k hk
    rw [hres k, if_neg hk]
  · intro f hf
    have hlv := loadValue_some hf c1 key s
    rw [hlv] at hv hcalls hres
    refine ⟨hcalls, hv, by rw [hlv, hv], ?_⟩
    rw [hres key, if_pos rfl, hv]
  · intro hf
    have hlv := loadValue_none hf c1 key s
    rw [hlv] at hv hcalls hres
    refine ⟨hcalls, hv, by rw [hlv], ?_⟩
    rw [hres key, if_pos rfl]

theorem C7_load_callback_once_witness :
    (1 : Int) ≤ 3 ∧
    loadsWith (NewCAR 3) [(bothCallbacks exampleLoad, 0), (bothCallbacks exampleLoad, 1),
      (bothCallbacks exampleLoad, 2)] = .done exampleFull ∧
    resident exampleFull 3 = none ∧
    Load loadUnset exampleFull 3 = .done (none, exampleUnset) ∧
    evict loadUnset exampleFull (exampleFull.b1.exist 3) (exampleFull.b2.exist 3)
      = .done ({ ref := 0, slotNo := 0,
                 value := some "Clock with adaptive replacement (CAR)" }, exampleEvicted) ∧
    resident exampleUnset 3 = some { ref := 0, slotNo := 0, value := none } ∧
    (∃ s c1,
      evict loadUnset exampleFull (exampleFull.b1.exist 3) (exampleFull.b2.exist 3)
        = .done (s, c1) ∧
      resident c1 3 = none ∧
      (∃ pre, c1.calls = exampleFull.calls ++ pre ∧ ∀ e ∈ pre, ∃ k w m, e = Call.replace k w m) ∧
      place (loadValue loadUnset c1 3 s).2 3 (loadValue loadUnset c1 3 s).1
        (exampleFull.b1.exist 3) (exampleFull.b2.exist 3) = .done exampleUnset ∧
      (∀ k, k ≠ 3 → resident exampleUnset k = resident c1 k) ∧
      (∀ f, loadUnset.cbLoadValue = some f →
        exampleUnset.calls = c1.calls ++ [Call.load 3 s.slotNo] ∧
        none = f c1.calls 3 s.slotNo ∧
        (loadValue loadUnset c1 3 s).1 = { s with value := none } ∧
        resident exampleUnset 3 = some { ref := s.ref, slotNo := s.slotNo, value := none }) ∧
      (loadUnset.cbLoadValue = none →
        exampleUnset.calls = c1.calls ∧ (none : Option String) = none ∧
        (loadValue loadUnset c1 3 s).1 = { s with value := none } ∧
        resident exampleUnset 3 = some { ref := s.ref, slotNo := s.slotNo, value := none })) ∧
    Load (bothCallbacks exampleLoad) exampleFull 3
      = .done (some "Cache replacement policy", exampleEnd) ∧
    ∃ s c1,
      evict (bothCallbacks exampleLoad) exampleFull (exampleFull.b1.exist 3)
        (exampleFull.b2.exist 3) = .done (s, c1) ∧
      ∀ f, (bothCallbacks exampleLoad).cbLoadValue = some f →
        exampleEnd.calls = c1.calls ++ [Call.load 3 s.slotNo] ∧
        some "Cache replacement policy" = f c1.calls 3 s.slotNo ∧
        (loadValue (bothCallbacks exampleLoad) c1 3 s).1
          = { s with value := some "Cache replacement policy" } ∧
        resident exampleEnd 3
          = some { ref := s.ref, slotNo := s.slotNo, value := some "Cache replacement policy" } := by
  have hreach : loadsWith (NewCAR 3) [(bothCallbacks exampleLoad, 0),
      (bothCallbacks exampleLoad, 1), (bothCallbacks exampleLoad, 2)] = .done exampleFull := by
    decide
  have hset : Load (bothCallbacks exampleLoad) exampleFull 3
      = .done (some "Cache replacement policy", exampleEnd) := by decide
  refine ⟨by decide, hreach, by decide, by decide, by decide, by decide,
    C7_load_callback_once 3 (by decide) _ exampleFull hreach loadUnset 3 (by decide)
      none exampleUnset (by decide), hset, ?_⟩
  obtain ⟨s, c1, he, _, _, _, _, hsome, _⟩ :=
    C7_load_callback_once 3 (by decide) _ exampleFull hreach (bothCallbacks exampleLoad) 3
      (by decide) (some "Cache replacement policy") exampleEnd hset
  exact ⟨s, c1, he, hsome⟩

end Claims
end Car
